import Mathlib

/-!
# Sylvan MTBDD core (`src/sylvan_mtbdd.c`): a shallow embedding

Handles (`MTBDD`) and node words are 64-bit machine integers, embedded as
natural numbers; every operation that can leave the 64-bit range is reduced
modulo `2^64` explicitly.  The global node table `nodes`, the worker-local
stack of in-flight handles and a log of the table operations performed are
threaded through the functions as an explicit state.
-/

namespace Sylvan

/-! ## Handles and the complement macros -/

/-- An MTBDD handle: a 64-bit value (`typedef uint64_t MTBDD`). -/
abbrev MTBDD := Nat

/-- Modelled from the spec: the constant `mtbdd_complement` of the absent
header `sylvan.h`, bit 63 of a handle (spec 3.1). -/
def mtbdd_complement : Nat := 0x8000000000000000

/-- Modelled from the spec: the constant `mtbdd_false` of the absent header
`sylvan.h`, the sentinel `0` (spec 3.1). -/
def mtbdd_false : Nat := 0

/-- Modelled from the spec: the constant `mtbdd_true` of the absent header
`sylvan.h`, the complement of `mtbdd_false` (spec 3.1). -/
def mtbdd_true : Nat := mtbdd_false ||| mtbdd_complement

/-- The source's `MTBDD_HASMARK(s)  (s&mtbdd_complement?1:0)`. -/
def MTBDD_HASMARK (s : Nat) : Nat := if s &&& mtbdd_complement ≠ 0 then 1 else 0

/-- The source's `MTBDD_TOGGLEMARK(s)  (s^mtbdd_complement)`. -/
def MTBDD_TOGGLEMARK (s : Nat) : Nat := s ^^^ mtbdd_complement

/-- The source's `MTBDD_STRIPMARK(s)  (s&~mtbdd_complement)`, the negation taken on 64 bits. -/
def MTBDD_STRIPMARK (s : Nat) : Nat := s &&& 0x7fffffffffffffff

/-- The source's `MTBDD_TRANSFERMARK(from, to)  (to ^ (from & mtbdd_complement))`. -/
def MTBDD_TRANSFERMARK (src dst : Nat) : Nat := dst ^^^ (src &&& mtbdd_complement)

/-! ## Nodes -/

/-- The 16-byte node `struct mtbddnode { uint64_t a, b; }`. -/
structure mtbddnode where
  a : Nat
  b : Nat
deriving DecidableEq, Repr

/-- The source's `mtbddnode_isleaf`: bit 62 of `a`. -/
def mtbddnode_isleaf (n : mtbddnode) : Nat :=
  if n.a &&& 0x4000000000000000 ≠ 0 then 1 else 0

/-- The source's `mtbddnode_gettype`: the low 32 bits of `a`. -/
def mtbddnode_gettype (n : mtbddnode) : Nat := n.a &&& 0x00000000ffffffff

/-- The source's `mtbddnode_getvalue`. -/
def mtbddnode_getvalue (n : mtbddnode) : Nat := n.b

/-- The source's `mtbddnode_getcomp`: bit 63 of `a`. -/
def mtbddnode_getcomp (n : mtbddnode) : Nat :=
  if n.a &&& 0x8000000000000000 ≠ 0 then 1 else 0

/-- The source's `mtbddnode_getlow`: the low 40 bits of `b`. -/
def mtbddnode_getlow (n : mtbddnode) : Nat := n.b &&& 0x000000ffffffffff

/-- The source's `mtbddnode_gethigh`: the low 40 bits of `a` plus its bit 63. -/
def mtbddnode_gethigh (n : mtbddnode) : Nat := n.a &&& 0x800000ffffffffff

/-- The source's `mtbddnode_getvariable`: `(uint32_t)(n->b >> 40)`. -/
def mtbddnode_getvariable (n : mtbddnode) : Nat := (n.b >>> 40) % 2 ^ 32

/-- The source's `mtbddnode_getmark`: bit 61 of `a`. -/
def mtbddnode_getmark (n : mtbddnode) : Nat :=
  if n.a &&& 0x2000000000000000 ≠ 0 then 1 else 0

/-- The source's `mtbddnode_setmark`. -/
def mtbddnode_setmark (n : mtbddnode) (mark : Nat) : mtbddnode :=
  if mark ≠ 0 then { n with a := n.a ||| 0x2000000000000000 }
  else { n with a := n.a &&& 0xdfffffffffffffff }

/-- The source's `mtbddnode_makeleaf`, with `type` a `uint32_t`. -/
def mtbddnode_makeleaf (type value : Nat) : mtbddnode :=
  { a := 0x4000000000000000 ||| (type % 2 ^ 32), b := value }

/-- The source's `mtbddnode_makenode`, with `var` a `uint32_t` widened to 64 bits before
the shift, whose result is cut to 64 bits. -/
def mtbddnode_makenode (var low high : Nat) : mtbddnode :=
  { a := high, b := (((var % 2 ^ 32) <<< 40) % 2 ^ 64) ||| low }

/-! ## The node table -/

/-- One bucket of the node table: the 16 bytes of data and whether the
hash set holds them. -/
structure bucket where
  occupied : Bool
  node : mtbddnode
deriving DecidableEq, Repr

/-- Modelled from the spec: the type of the absent hash set `llmsset`
(spec 4.1): an array of 16-byte buckets addressed by index, bucket 0 being
reserved for the sentinel (spec 3.3: index 0 is never stored). -/
abbrev llmsset := List bucket

/-- Modelled from the spec: `llmsset_index_to_ptr` of the absent `llmsset`,
followed by the read of the 16 bytes it points to.  A read outside the array
is modelled as a read of zeroes. -/
def llmsset_read (T : llmsset) (index : Nat) : mtbddnode :=
  (T.getD index ⟨false, ⟨0, 0⟩⟩).node

/-- The source's `GETNODE(mtbdd)`: the node at the 40-bit index of the handle. -/
def GETNODE (T : llmsset) (mtbdd : Nat) : mtbddnode :=
  llmsset_read T (mtbdd &&& 0x000000ffffffffff)

/-- The first position, counted from `i`, of a bucket satisfying `p`; `0`
when there is none. -/
def llmsset_probe (p : bucket → Bool) : List bucket → Nat → Nat
  | [], _ => 0
  | x :: xs, i => if p x then i else llmsset_probe p xs (i + 1)

/-- Modelled from the spec: `llmsset_lookup` of the absent `llmsset`
(spec 4.1, 3.3): "returns a 40-bit index for the content, inserting if
absent; returns 0 if full", "collisions on content return the existing
index".  The `created` flag, which no caller reads, is left out.  A bucket
is chosen by linear search from index 1. -/
def llmsset_lookup (T : llmsset) (a b : Nat) : Nat × llmsset :=
  let i := llmsset_probe (fun x => x.occupied && decide (x.node = ⟨a, b⟩)) T.tail 1
  if i ≠ 0 then (i, T)
  else
    let j := llmsset_probe (fun x => !x.occupied) T.tail 1
    if j ≠ 0 then (j, T.set j ⟨true, ⟨a, b⟩⟩) else (0, T)

/-! ## The state -/

/-- A table operation, as recorded in the log. -/
inductive event where
  | lookup (a b index : Nat)
  | gc
deriving DecidableEq, Repr

/-- The state the functions of `sylvan_mtbdd.c` work on: the global table
`nodes`, the `results` stack of the worker-local `mtbdd_refs_key`, and the
log of lookups and collections performed so far. -/
structure sylvan where
  nodes : llmsset
  results : List Nat
  log : List event
deriving DecidableEq, Repr

/-- How a call can fail to return: `exit(1)` on a full table, an access past
the end of the pattern array or of the table, or the recursion bound of the
embedding. -/
inductive fault where
  | table_full
  | out_of_bounds
  | out_of_fuel
deriving DecidableEq, Repr

/-- The call `llmsset_lookup(nodes, a, b, &created)` on the state. -/
def sylvan_lookup (s : sylvan) (a b : Nat) : Nat × sylvan :=
  let r := llmsset_lookup s.nodes a b
  (r.1, { s with nodes := r.2, log := s.log ++ [event.lookup a b r.1] })

/-- Modelled from the spec: `mtbdd_refs_push` (spec 4.5, "append to
results"). -/
def mtbdd_refs_push (s : sylvan) (h : Nat) : sylvan :=
  { s with results := s.results ++ [h] }

/-- Modelled from the spec: `mtbdd_refs_pop` (spec 4.5, "drop the top n"). -/
def mtbdd_refs_pop (s : sylvan) (n : Nat) : sylvan :=
  { s with results := s.results.take (s.results.length - n) }

/-- The call `sylvan_gc()`.  The collector is absent from the source and is a
parameter `gc`: from the in-flight roots and the table it gives the swept
table (its other roots, the external references, are part of the
parameter). -/
def sylvan_gc (gc : List Nat → llmsset → llmsset) (s : sylvan) : sylvan :=
  { s with nodes := gc s.results s.nodes, log := s.log ++ [event.gc] }

/-! ## Primitives -/

/-- The source's `mtbdd_isleaf`. -/
def mtbdd_isleaf (T : llmsset) (bdd : Nat) : Nat :=
  if bdd = mtbdd_true ∨ bdd = mtbdd_false then 1
  else mtbddnode_isleaf (GETNODE T bdd)

/-- The source's `mtbdd_getvar`. -/
def mtbdd_getvar (T : llmsset) (node : Nat) : Nat :=
  mtbddnode_getvariable (GETNODE T node)

/-- The source's `node_getlow`. -/
def node_getlow (mtbdd : Nat) (node : mtbddnode) : Nat :=
  MTBDD_TRANSFERMARK mtbdd (mtbddnode_getlow node)

/-- The source's `node_gethigh`. -/
def node_gethigh (mtbdd : Nat) (node : mtbddnode) : Nat :=
  MTBDD_TRANSFERMARK mtbdd (mtbddnode_gethigh node)

/-- The source's `mtbdd_getlow`. -/
def mtbdd_getlow (T : llmsset) (mtbdd : Nat) : Nat :=
  node_getlow mtbdd (GETNODE T mtbdd)

/-- The source's `mtbdd_gethigh`. -/
def mtbdd_gethigh (T : llmsset) (mtbdd : Nat) : Nat :=
  node_gethigh mtbdd (GETNODE T mtbdd)

/-- The source's `mtbdd_gettype`. -/
def mtbdd_gettype (T : llmsset) (leaf : Nat) : Nat :=
  mtbddnode_gettype (GETNODE T leaf)

/-- The source's `mtbdd_getvalue`. -/
def mtbdd_getvalue (T : llmsset) (leaf : Nat) : Nat :=
  mtbddnode_getvalue (GETNODE T leaf)

/-- The source's `mtbdd_makeleaf`: look the leaf up; on a full table collect and look it
up once more; `exit(1)` when the table is still full. -/
def mtbdd_makeleaf (gc : List Nat → llmsset → llmsset) (s : sylvan)
    (type value : Nat) : Except fault (Nat × sylvan) :=
  let n := mtbddnode_makeleaf type value
  let r := sylvan_lookup s n.a n.b
  if r.1 = 0 then
    let s1 := sylvan_gc gc r.2
    let r2 := sylvan_lookup s1 n.a n.b
    if r2.1 = 0 then .error fault.table_full
    else .ok (r2.1, r2.2)
  else .ok (r.1, r.2)

/-- The source's `mtbdd_makenode`. -/
def mtbdd_makenode (gc : List Nat → llmsset → llmsset) (s : sylvan)
    (var low high : Nat) : Except fault (Nat × sylvan) :=
  if low = high then .ok (low, s)
  else
    let mark := MTBDD_HASMARK low
    let low1 := if mark ≠ 0 then MTBDD_TOGGLEMARK low else low
    let high1 := if mark ≠ 0 then MTBDD_TOGGLEMARK high else high
    let n := mtbddnode_makenode var low1 high1
    let r := sylvan_lookup s n.a n.b
    if r.1 = 0 then
      let s1 := mtbdd_refs_push r.2 low1
      let s2 := mtbdd_refs_push s1 high1
      let s3 := sylvan_gc gc s2
      let s4 := mtbdd_refs_pop s3 2
      let r2 := sylvan_lookup s4 n.a n.b
      if r2.1 = 0 then .error fault.table_full
      else .ok (if mark ≠ 0 then r2.1 ||| mtbdd_complement else r2.1, r2.2)
    else .ok (if mark ≠ 0 then r.1 ||| mtbdd_complement else r.1, r.2)

/-! ## Operations -/

/-- The source's `mtbdd_fromarray`, the array `arr` of `length` variables given as
a list. -/
def mtbdd_fromarray (gc : List Nat → llmsset → llmsset) (s : sylvan) :
    List Nat → Except fault (Nat × sylvan)
  | [] => .ok (mtbdd_true, s)
  | [x] => mtbdd_makenode gc s x mtbdd_false mtbdd_true
  | x :: y :: arr =>
    match mtbdd_fromarray gc s (y :: arr) with
    | .error e => .error e
    | .ok (rest, s1) => mtbdd_makenode gc s1 x mtbdd_false rest

/-- The source's `mtbdd_cube`.  The pattern array `cube` is a list of bytes, `cube+k` is
the list without its first `k` bytes, and reading `*cube` past the end is
the fault `out_of_bounds`.  The pointer `n` is read when it is used; the
parameter `variables` is written `vars`; the first argument bounds the depth
of the recursion. -/
def mtbdd_cube (gc : List Nat → llmsset → llmsset) :
    Nat → sylvan → Nat → List Nat → Nat → Except fault (Nat × sylvan)
  | 0, _, _, _, _ => .error fault.out_of_fuel
  | fuel + 1, s, vars, cube, terminal =>
    if vars = mtbdd_true then .ok (terminal, s)
    else
      match cube.head? with
      | none => .error fault.out_of_bounds
      | some c =>
        if c = 0 then
          match mtbdd_cube gc fuel s (node_gethigh vars (GETNODE s.nodes vars))
              (cube.drop 1) terminal with
          | .error e => .error e
          | .ok (result, s1) =>
            mtbdd_makenode gc s1 (mtbddnode_getvariable (GETNODE s1.nodes vars))
              result mtbdd_false
        else if c = 1 then
          match mtbdd_cube gc fuel s (node_gethigh vars (GETNODE s.nodes vars))
              (cube.drop 1) terminal with
          | .error e => .error e
          | .ok (result, s1) =>
            mtbdd_makenode gc s1 (mtbddnode_getvariable (GETNODE s1.nodes vars))
              mtbdd_false result
        else if c = 2 then
          mtbdd_cube gc fuel s (node_gethigh vars (GETNODE s.nodes vars))
            (cube.drop 1) terminal
        else if c = 3 then
          let vars2 := node_gethigh vars (GETNODE s.nodes vars)
          let var2 := mtbddnode_getvariable (GETNODE s.nodes vars2)
          match mtbdd_cube gc fuel s (node_gethigh vars2 (GETNODE s.nodes vars2))
              (cube.drop 2) terminal with
          | .error e => .error e
          | .ok (result, s1) =>
            match mtbdd_makenode gc s1 var2 result mtbdd_false with
            | .error e => .error e
            | .ok (low, s2) =>
              match mtbdd_makenode gc (mtbdd_refs_push s2 low) var2 mtbdd_false result with
              | .error e => .error e
              | .ok (high, s3) =>
                let s4 := mtbdd_refs_pop s3 1
                mtbdd_makenode gc s4 (mtbddnode_getvariable (GETNODE s4.nodes vars))
                  low high
        else .ok (mtbdd_false, s)

/-- The source's `mtbdd_union_cube`, run by one worker: the arguments of a `SPAWN`
are evaluated where it stands, the spawned call is executed at its `SYNC`,
after the `CALL` between them, and `sylvan_gc_test()` finds no pending
collection.  The first argument bounds the depth of the recursion. -/
def mtbdd_union_cube (gc : List Nat → llmsset → llmsset) :
    Nat → sylvan → Nat → Nat → List Nat → Nat → Except fault (Nat × sylvan)
  | 0, _, _, _, _, _ => .error fault.out_of_fuel
  | fuel + 1, s, mtbdd, vars, cube, terminal =>
    if mtbdd = terminal then .ok (terminal, s)
    else if mtbdd = mtbdd_false then mtbdd_cube gc (fuel + 1) s vars cube terminal
    else if vars = mtbdd_true then .ok (terminal, s)
    else
      let v := mtbddnode_getvariable (GETNODE s.nodes vars)
      let va := mtbddnode_getvariable (GETNODE s.nodes mtbdd)
      if va < v then
        let low := node_getlow mtbdd (GETNODE s.nodes mtbdd)
        let high := node_gethigh mtbdd (GETNODE s.nodes mtbdd)
        match mtbdd_union_cube gc fuel s low vars cube terminal with
        | .error e => .error e
        | .ok (new_low, s1) =>
          match mtbdd_union_cube gc fuel (mtbdd_refs_push s1 new_low) high vars cube
              terminal with
          | .error e => .error e
          | .ok (new_high, s2) =>
            let s3 := mtbdd_refs_pop s2 1
            if new_low ≠ low ∨ new_high ≠ high then mtbdd_makenode gc s3 va new_low new_high
            else .ok (mtbdd, s3)
      else if va = v then
        let low := node_getlow mtbdd (GETNODE s.nodes mtbdd)
        let high := node_gethigh mtbdd (GETNODE s.nodes mtbdd)
        match cube.head? with
        | none => .error fault.out_of_bounds
        | some c =>
          if c = 0 then
            match mtbdd_union_cube gc fuel s low (node_gethigh vars (GETNODE s.nodes vars))
                (cube.drop 1) terminal with
            | .error e => .error e
            | .ok (new_low, s1) =>
              if new_low ≠ low then mtbdd_makenode gc s1 v new_low high
              else .ok (mtbdd, s1)
          else if c = 1 then
            match mtbdd_union_cube gc fuel s high (node_gethigh vars (GETNODE s.nodes vars))
                (cube.drop 1) terminal with
            | .error e => .error e
            | .ok (new_high, s1) =>
              if new_high ≠ high then mtbdd_makenode gc s1 v low new_high
              else .ok (mtbdd, s1)
          else if c = 2 then
            match mtbdd_union_cube gc fuel s low (node_gethigh vars (GETNODE s.nodes vars))
                (cube.drop 1) terminal with
            | .error e => .error e
            | .ok (new_low, s1) =>
              let s1p := mtbdd_refs_push s1 new_low
              match mtbdd_union_cube gc fuel s1p high
                  (node_gethigh vars (GETNODE s.nodes vars)) (cube.drop 1) terminal with
              | .error e => .error e
              | .ok (new_high, s2) =>
                let s3 := mtbdd_refs_pop s2 1
                if new_low ≠ low ∨ new_high ≠ high then
                  mtbdd_makenode gc s3 v new_low new_high
                else .ok (mtbdd, s3)
          else .ok (mtbdd_false, s)
      else
        match cube.head? with
        | none => .error fault.out_of_bounds
        | some c =>
          if c = 0 then
            match mtbdd_union_cube gc fuel s mtbdd (node_gethigh vars (GETNODE s.nodes vars))
                (cube.drop 1) terminal with
            | .error e => .error e
            | .ok (new_low, s1) => mtbdd_makenode gc s1 v new_low mtbdd_false
          else if c = 1 then
            match mtbdd_union_cube gc fuel s mtbdd (node_gethigh vars (GETNODE s.nodes vars))
                (cube.drop 1) terminal with
            | .error e => .error e
            | .ok (new_high, s1) => mtbdd_makenode gc s1 v mtbdd_false new_high
          else if c = 2 then
            match mtbdd_union_cube gc fuel s mtbdd (node_gethigh vars (GETNODE s.nodes vars))
                (cube.drop 1) terminal with
            | .error e => .error e
            | .ok (new_low, s1) =>
              let s1p := mtbdd_refs_push s1 new_low
              match mtbdd_union_cube gc fuel s1p mtbdd
                  (node_gethigh vars (GETNODE s.nodes vars)) (cube.drop 1) terminal with
              | .error e => .error e
              | .ok (new_high, s2) =>
                mtbdd_makenode gc (mtbdd_refs_pop s2 1) v new_low new_high
          else .ok (mtbdd_false, s)

/-! ## Counting nodes -/

/-- The write `mtbddnode_setmark(n, mark)` through the pointer `n` to bucket
`index` of the table. -/
def llmsset_setmark (T : llmsset) (index mark : Nat) : llmsset :=
  match T.get? index with
  | none => T
  | some x => T.set index { x with node := mtbddnode_setmark x.node mark }

/-- The source's `mtbdd_unmark_rec`, with a bound on the depth of the recursion. -/
def mtbdd_unmark_rec : Nat → llmsset → Nat → Except fault llmsset
  | 0, _, _ => .error fault.out_of_fuel
  | fuel + 1, T, mtbdd =>
    let n := mtbdd &&& 0x000000ffffffffff
    if mtbddnode_getmark (llmsset_read T n) = 0 then .ok T
    else
      let T1 := llmsset_setmark T n 0
      if mtbddnode_isleaf (llmsset_read T1 n) ≠ 0 then .ok T1
      else
        match mtbdd_unmark_rec fuel T1 (mtbddnode_getlow (llmsset_read T1 n)) with
        | .error e => .error e
        | .ok T2 => mtbdd_unmark_rec fuel T2 (mtbddnode_gethigh (llmsset_read T2 n))

/-- The source's `mtbdd_nodecount_mark`, with a bound on the depth of the recursion; the
operands of the sum are evaluated from left to right. -/
def mtbdd_nodecount_mark : Nat → llmsset → Nat → Except fault (Nat × llmsset)
  | 0, _, _ => .error fault.out_of_fuel
  | fuel + 1, T, mtbdd =>
    if mtbdd ≤ mtbdd_true then .ok (0, T)
    else
      let n := mtbdd &&& 0x000000ffffffffff
      if mtbddnode_getmark (llmsset_read T n) ≠ 0 then .ok (0, T)
      else
        let T1 := llmsset_setmark T n 1
        if mtbddnode_isleaf (llmsset_read T1 n) ≠ 0 then .ok (1, T1)
        else
          match mtbdd_nodecount_mark fuel T1 (mtbddnode_getlow (llmsset_read T1 n)) with
          | .error e => .error e
          | .ok (c1, T2) =>
            match mtbdd_nodecount_mark fuel T2 (mtbddnode_gethigh (llmsset_read T2 n)) with
            | .error e => .error e
            | .ok (c2, T3) => .ok ((1 + c1 + c2) % 2 ^ 64, T3)

/-- The source's `mtbdd_nodecount`. -/
def mtbdd_nodecount (fuel : Nat) (T : llmsset) (mtbdd : Nat) :
    Except fault (Nat × llmsset) :=
  match mtbdd_nodecount_mark fuel T mtbdd with
  | .error e => .error e
  | .ok (result, T1) =>
    match mtbdd_unmark_rec fuel T1 mtbdd with
    | .error e => .error e
    | .ok T2 => .ok (result, T2)

/-! ## Specification vocabulary -/

/-- A handle is well formed when only its 40 index bits and the complement
bit 63 may be set. -/
def mtbdd_wellformed (h : Nat) : Prop := h &&& 0x800000ffffffffff = h

instance (h : Nat) : Decidable (mtbdd_wellformed h) := by
  unfold mtbdd_wellformed; infer_instance

/-- Bucket `i` of the table is occupied and holds the node `n`; index 0 is
the reserved bucket. -/
def llmsset_holds (T : llmsset) (i : Nat) (n : mtbddnode) : Prop :=
  0 < i ∧ T[i]? = some ⟨true, n⟩

/-- The low child put into a node, once the mark of the low edge is moved to
the handle. -/
def makenode_low (low : Nat) : Nat :=
  if MTBDD_HASMARK low ≠ 0 then MTBDD_TOGGLEMARK low else low

/-- The high child put into a node, once the mark of the low edge is moved
to the handle. -/
def makenode_high (low high : Nat) : Nat :=
  if MTBDD_HASMARK low ≠ 0 then MTBDD_TOGGLEMARK high else high

/-- The handle `mtbdd_makenode` returns for the table index `i`. -/
def makenode_handle (low i : Nat) : Nat :=
  if MTBDD_HASMARK low ≠ 0 then i ||| mtbdd_complement else i

/-- No node content is held by two buckets of the table. -/
def llmsset_nodup (T : llmsset) : Prop :=
  ∀ i j n, llmsset_holds T i n → llmsset_holds T j n → i = j

/-- The collector never leaves a node content in two buckets. -/
def gc_keeps_nodup (gc : List Nat → llmsset → llmsset) : Prop :=
  ∀ R T, llmsset_nodup T → llmsset_nodup (gc R T)

/-- The table `T2` keeps every occupied bucket of `T`, with its content. -/
def llmsset_le (T T2 : llmsset) : Prop :=
  T2.length = T.length ∧ ∀ i n, llmsset_holds T i n → llmsset_holds T2 i n

/-- The number of free buckets, the reserved bucket 0 apart. -/
def llmsset_free (T : llmsset) : Nat := T.tail.countP (fun x => !x.occupied)

/-- The diagram `h` of the table `T` evaluates to the terminal handle `t`
under the assignment `ρ`: from `h`, follow `mtbdd_getlow` where the variable
of the node is false and `mtbdd_gethigh` where it is true, until
`mtbdd_isleaf` holds. -/
inductive mtbdd_evaluates (T : llmsset) (ρ : Nat → Bool) : Nat → Nat → Prop where
  | leaf (h : Nat) : mtbdd_isleaf T h ≠ 0 → mtbdd_evaluates T ρ h h
  | low (h t : Nat) : mtbdd_isleaf T h = 0 → ρ (mtbdd_getvar T h) = false →
      mtbdd_evaluates T ρ (mtbdd_getlow T h) t → mtbdd_evaluates T ρ h t
  | high (h t : Nat) : mtbdd_isleaf T h = 0 → ρ (mtbdd_getvar T h) = true →
      mtbdd_evaluates T ρ (mtbdd_gethigh T h) t → mtbdd_evaluates T ρ h t

/-- The handle `t` is a terminal of the table `T`: a well-formed handle that
is a sentinel or points to an occupied leaf bucket. -/
def mtbdd_terminal (T : llmsset) (t : Nat) : Prop :=
  mtbdd_wellformed t ∧ (t = mtbdd_true ∨ t = mtbdd_false ∨
    ∃ n, llmsset_holds T (t &&& 0x000000ffffffffff) n ∧ mtbddnode_isleaf n ≠ 0)

/-- The handle `vars` is the variable cube of the table `T` that lists the
variables `vs` (of 24 bits): a chain of occupied internal nodes, one per
variable, each with low child `mtbdd_false` and the rest of the chain as high
child, ended by `mtbdd_true`. -/
def mtbdd_varcube (T : llmsset) : Nat → List Nat → Prop
  | vars, [] => vars = mtbdd_true
  | vars, v :: vs => vars ≠ mtbdd_true ∧
      ∃ n, llmsset_holds T (vars &&& 0x000000ffffffffff) n ∧ mtbddnode_isleaf n = 0 ∧
        mtbddnode_getvariable n = v ∧ v < 2 ^ 24 ∧ node_getlow vars n = mtbdd_false ∧
        mtbdd_varcube T (node_gethigh vars n) vs

/-- The assignment `ρ` satisfies the cube that the pattern describes over the
variables `vs`: a variable with byte 0 is false, one with byte 1 is true, one
with byte 2 is free, and one with byte 3 equals the next variable, whose own
byte is skipped. -/
def cube_sat (ρ : Nat → Bool) : List Nat → List Nat → Bool
  | [], _ => true
  | _ :: _, [] => false
  | v :: vs, 0 :: p => !ρ v && cube_sat ρ vs p
  | v :: vs, 1 :: p => ρ v && cube_sat ρ vs p
  | _ :: vs, 2 :: p => cube_sat ρ vs p
  | v :: v2 :: vs, 3 :: _ :: p => (ρ v == ρ v2) && cube_sat ρ vs p
  | _ :: _, _ :: _ => false

/-- The handle `h` is well formed and points to an occupied bucket of `T`
holding an internal node that decodes, through `h`, to the 24-bit variable
`v`, the low child `lo` and the high child `hi`. -/
def mtbdd_node_at (T : llmsset) (h v lo hi : Nat) : Prop :=
  mtbdd_wellformed h ∧ v < 2 ^ 24 ∧ ∃ n, llmsset_holds T (h &&& 0x000000ffffffffff) n ∧
    mtbddnode_isleaf n = 0 ∧ mtbddnode_getvariable n = v ∧ node_getlow h n = lo ∧
    node_gethigh h n = hi

/-- The pattern can be read against the variables `vs`: every byte read is at
most 3, and a byte 3 is read only where two variables and two bytes are
left. -/
def cube_consumed : List Nat → List Nat → Bool
  | [], _ => true
  | _ :: _, [] => false
  | _ :: vs, 0 :: p => cube_consumed vs p
  | _ :: vs, 1 :: p => cube_consumed vs p
  | _ :: vs, 2 :: p => cube_consumed vs p
  | _ :: _ :: vs, 3 :: _ :: p => cube_consumed vs p
  | _ :: _, _ :: _ => false

/-- An internal node in the form `mtbddnode_makenode` writes it for
well-formed, different children: the word `a` is a well-formed high edge, the
word `b` has 64 bits, and the two stored children differ. -/
def mtbddnode_canonical (n : mtbddnode) : Prop :=
  n.a &&& 0x800000ffffffffff = n.a ∧ n.b < 2 ^ 64 ∧ mtbddnode_getlow n ≠ mtbddnode_gethigh n

/-- No content is held twice, and every internal node held is in the form
`mtbddnode_makenode` writes. -/
def llmsset_canonical (T : llmsset) : Prop :=
  llmsset_nodup T ∧
    ∀ i n, llmsset_holds T i n → mtbddnode_isleaf n = 0 → mtbddnode_canonical n

/-- The collector only frees buckets: what it leaves is a table with no
content held twice and every internal node in the written form. -/
def gc_keeps_canonical (gc : List Nat → llmsset → llmsset) : Prop :=
  ∀ R T, llmsset_canonical T → llmsset_canonical (gc R T)

/-- The state was built from a fresh table only through `mtbdd_makeleaf` and
`mtbdd_makenode`, the latter on well-formed handles. -/
inductive sylvan_built (gc : List Nat → llmsset → llmsset) : sylvan → Prop where
  | init (n : Nat) : sylvan_built gc ⟨List.replicate n ⟨false, ⟨0, 0⟩⟩, [], []⟩
  | makeleaf (s s2 : sylvan) (type value h : Nat) : sylvan_built gc s →
      mtbdd_makeleaf gc s type value = .ok (h, s2) → sylvan_built gc s2
  | makenode (s s2 : sylvan) (v lo hi h : Nat) : sylvan_built gc s →
      mtbdd_wellformed lo → mtbdd_wellformed hi →
      mtbdd_makenode gc s v lo hi = .ok (h, s2) → sylvan_built gc s2

/-- The handle `h` is a variable-ordered diagram of the table `T`: a terminal,
or an occupied internal node whose children are such diagrams and whose
variable is strictly smaller than the variable of each internal child. -/
inductive mtbdd_diagram (T : llmsset) : Nat → Prop where
  | terminal (h : Nat) : mtbdd_terminal T h → mtbdd_diagram T h
  | node (h v lo hi : Nat) : mtbdd_node_at T h v lo hi → mtbdd_diagram T lo →
      mtbdd_diagram T hi → (mtbdd_isleaf T lo = 0 → v < mtbdd_getvar T lo) →
      (mtbdd_isleaf T hi = 0 → v < mtbdd_getvar T hi) → mtbdd_diagram T h

/-- The handle `h` is a variable-ordered diagram of the table `T` all of
whose variables are at least `k`. -/
inductive mtbdd_ordered (T : llmsset) : Nat → Nat → Prop where
  | terminal (k h : Nat) : mtbdd_terminal T h → mtbdd_ordered T k h
  | node (k h v lo hi : Nat) : mtbdd_node_at T h v lo hi → k ≤ v →
      mtbdd_ordered T (v + 1) lo → mtbdd_ordered T (v + 1) hi → mtbdd_ordered T k h

/-- The collector reclaims no occupied bucket. -/
def gc_keeps_nodes (gc : List Nat → llmsset → llmsset) : Prop :=
  ∀ R T, llmsset_le T (gc R T)

/-- The variables `vs` ascend from `k` and the pattern has a byte 0, 1 or 2
for each of them. -/
def cube_plain : Nat → List Nat → List Nat → Prop
  | _, [], _ => True
  | _, _ :: _, [] => False
  | k, v :: vs, c :: p => k ≤ v ∧ c ≤ 2 ∧ cube_plain (v + 1) vs p

/-- The recursion of `mtbdd_union_cube` on the diagram `d` of the table `T`
and the cube `(vs, p)` stays within what the code supports.  The diagram is
variable-ordered with variables from `k` on and ends in `t` or `mtbdd_false`
wherever cube variables are left; the cube variables ascend and their bytes
are 0, 1 or 2; and a cube variable smaller than the top variable of the
diagram at hand has byte 2 (with byte 0 or 1 the branch `va > v` drops the
diagram). -/
inductive union_cube_covers (T : llmsset) (t : Nat) :
    Nat → Nat → List Nat → List Nat → Prop where
  | terminal (k : Nat) (vs p : List Nat) : union_cube_covers T t k t vs p
  | empty (k : Nat) (vs p : List Nat) : cube_plain k vs p →
      union_cube_covers T t k mtbdd_false vs p
  | done (k d : Nat) (p : List Nat) : union_cube_covers T t k d [] p
  | under (k d va lo hi v : Nat) (vs p : List Nat) : mtbdd_node_at T d va lo hi →
      k ≤ va → va < v → union_cube_covers T t (va + 1) lo (v :: vs) p →
      union_cube_covers T t (va + 1) hi (v :: vs) p → union_cube_covers T t k d (v :: vs) p
  | at0 (k d v lo hi : Nat) (vs p : List Nat) : mtbdd_node_at T d v lo hi → k ≤ v →
      mtbdd_wellformed hi → union_cube_covers T t (v + 1) lo vs p →
      union_cube_covers T t k d (v :: vs) (0 :: p)
  | at1 (k d v lo hi : Nat) (vs p : List Nat) : mtbdd_node_at T d v lo hi → k ≤ v →
      mtbdd_wellformed lo → union_cube_covers T t (v + 1) hi vs p →
      union_cube_covers T t k d (v :: vs) (1 :: p)
  | at2 (k d v lo hi : Nat) (vs p : List Nat) : mtbdd_node_at T d v lo hi → k ≤ v →
      union_cube_covers T t (v + 1) lo vs p → union_cube_covers T t (v + 1) hi vs p →
      union_cube_covers T t k d (v :: vs) (2 :: p)
  | over2 (k d va lo hi v : Nat) (vs p : List Nat) : mtbdd_node_at T d va lo hi →
      k ≤ v → v < va → union_cube_covers T t (v + 1) d vs p →
      union_cube_covers T t k d (v :: vs) (2 :: p)

/-- Adding the cube `(vars, p)` to `r` once more returns `r` and leaves the
state as it is, in every state whose table keeps the buckets of `T` and in
which the recursion on `r` stays within what the code supports, for every
recursion bound from `fuel` on. -/
def union_cube_fixed (gc : List Nat → llmsset → llmsset) (t : Nat) (T : llmsset)
    (fuel r vars : Nat) (vs p : List Nat) : Prop :=
  ∀ (s2 : sylvan) (fuel2 k2 : Nat), llmsset_le T s2.nodes → fuel ≤ fuel2 →
    union_cube_covers s2.nodes t k2 r vs p →
    mtbdd_union_cube gc fuel2 s2 r vars p t = .ok (r, s2)

/-! ## Marking for garbage collection -/

/-- Modelled from the spec: `llmsset_mark` of the absent `llmsset` (spec 4.1,
"mark(index) → first_time_bool: sets the reachability bit idempotently"), on
the bitmap that holds one reachability bit per bucket.  The result is 1 with
the bit set when the bit was clear, 0 with the bitmap unchanged when it was
set, and `none` when `index` lies outside the bitmap. -/
def llmsset_mark (marks : List Bool) (index : Nat) : Option (Nat × List Bool) :=
  match marks.get? index with
  | none => none
  | some true => some (0, marks)
  | some false => some (1, marks.set index true)

/-- The source's `mtbdd_gc_mark_rec`, run by one worker: the spawned call on the low
child is executed at the `SYNC`, after the `CALL` on the high child.  The
table is only read; the reachability bitmap is passed along.  A mark outside
the bitmap is the fault `out_of_bounds`; the first argument bounds the depth
of the recursion. -/
def mtbdd_gc_mark_rec : Nat → llmsset → List Bool → Nat → Except fault (List Bool)
  | 0, _, _, _ => .error fault.out_of_fuel
  | fuel + 1, T, marks, mtbdd =>
    if mtbdd ≤ mtbdd_true then .ok marks
    else
      match llmsset_mark marks mtbdd with
      | none => .error fault.out_of_bounds
      | some (first, marks1) =>
        if first ≠ 0 then
          if mtbddnode_isleaf (GETNODE T mtbdd) = 0 then
            match mtbdd_gc_mark_rec fuel T marks1 (mtbddnode_gethigh (GETNODE T mtbdd)) with
            | .error e => .error e
            | .ok marks2 => mtbdd_gc_mark_rec fuel T marks2 (mtbddnode_getlow (GETNODE T mtbdd))
          else .ok marks1
        else .ok marks1

/-! ## Marking the in-flight roots -/

/-- Modelled from the spec: a `Task` of the absent task runtime, as far as
`TASK_IS_STOLEN`, `TASK_IS_COMPLETED` and `TASK_RESULT` read it (spec 4.5). -/
structure Task where
  stolen : Bool
  completed : Bool
  result : Nat
deriving DecidableEq, Repr

/-- The worker-local `struct mtbdd_refs_internal`: the `r_count` handles of
`results` and the `s_count` tasks of `spawns`, each as a list. -/
structure mtbdd_refs_internal where
  results : List Nat
  spawns : List Task
deriving DecidableEq, Repr

/-- A call that `mtbdd_refs_mark_task` makes on the task runtime:
`SPAWN(mtbdd_gc_mark_rec, mtbdd)` or `SYNC(mtbdd_gc_mark_rec)`. -/
inductive lace_call where
  | SPAWN (mtbdd : Nat)
  | SYNC
deriving DecidableEq, Repr

/-- The block `if (j >= 40) { while (j--) SYNC(..); j=0; } SPAWN(.., h); j++;`
of `mtbdd_refs_mark_task`, on the counter `j` and the calls made so far. -/
def refs_mark_spawn (st : Nat × List lace_call) (h : Nat) : Nat × List lace_call :=
  let st1 := if st.1 ≥ 40 then (0, st.2 ++ List.replicate st.1 lace_call.SYNC) else st
  ((st1.1 + 1) % 2 ^ 64, st1.2 ++ [lace_call.SPAWN h])

/-- The first loop of `mtbdd_refs_mark_task`, over `results`. -/
def refs_mark_results : List Nat → Nat × List lace_call → Nat × List lace_call
  | [], st => st
  | h :: rest, st => refs_mark_results rest (refs_mark_spawn st h)

/-- The second loop of `mtbdd_refs_mark_task`, over `spawns`, with its `break` at the
first task that is not stolen. -/
def refs_mark_spawns : List Task → Nat × List lace_call → Nat × List lace_call
  | [], st => st
  | t :: rest, st =>
    if !t.stolen then st
    else if t.completed then refs_mark_spawns rest (refs_mark_spawn st t.result)
    else refs_mark_spawns rest st

/-- The source's `mtbdd_refs_mark_task`: the calls it makes on the task runtime, in
order. -/
def mtbdd_refs_mark_task (k : mtbdd_refs_internal) : List lace_call :=
  let st1 := refs_mark_results k.results (0, [])
  let st2 := refs_mark_spawns k.spawns st1
  st2.2 ++ List.replicate st2.1 lace_call.SYNC

/-! ## Leaves of doubles -/

/-- A `double` is taken as its IEEE 754 binary64 bit pattern, which is what
`*(uint64_t*)&value` reads.  The unary minus flips the sign bit 63. -/
def double_neg (value : Nat) : Nat := value ^^^ 0x8000000000000000

/-- The comparison `value < 0.0` on a bit pattern: the sign bit is set and
the other 63 bits are neither zero (minus zero) nor above the pattern of
infinity (a NaN). -/
def double_ltzero (value : Nat) : Bool :=
  decide (value &&& 0x8000000000000000 ≠ 0) &&
    decide (0 < value &&& 0x7fffffffffffffff) &&
    decide (value &&& 0x7fffffffffffffff ≤ 0x7ff0000000000000)

/-- The comparison `0.0 < value` on a bit pattern: the sign bit is clear and
the other 63 bits are neither zero nor above the pattern of infinity. -/
def double_gtzero (value : Nat) : Bool :=
  decide (value &&& 0x8000000000000000 = 0) &&
    decide (0 < value &&& 0x7fffffffffffffff) &&
    decide (value &&& 0x7fffffffffffffff ≤ 0x7ff0000000000000)

/-- Modelled from the spec: the macro `mtbdd_negate` of the absent header
`sylvan.h` (spec 4.3.3: a negative double is "returned as a complemented
handle"). -/
def mtbdd_negate (dd : Nat) : Nat := dd ^^^ mtbdd_complement

/-- Modelled from the spec: the macro `mtbdd_isnegated` of the absent header
`sylvan.h`, the test of the complement bit (spec 4.3.3). -/
def mtbdd_isnegated (dd : Nat) : Nat := if dd &&& mtbdd_complement ≠ 0 then 1 else 0

/-- The source's `mtbdd_uint64`. -/
def mtbdd_uint64 (gc : List Nat → llmsset → llmsset) (s : sylvan) (value : Nat) :
    Except fault (Nat × sylvan) :=
  mtbdd_makeleaf gc s 0 value

/-- The source's `mtbdd_double`, on the bit pattern of `value`. -/
def mtbdd_double (gc : List Nat → llmsset → llmsset) (s : sylvan) (value : Nat) :
    Except fault (Nat × sylvan) :=
  if double_ltzero value then
    match mtbdd_makeleaf gc s 1 (double_neg value) with
    | .error e => .error e
    | .ok (h, s1) => .ok (mtbdd_negate h, s1)
  else mtbdd_makeleaf gc s 1 value

/-- The source's `mtbdd_getdouble`, giving the bit pattern of the result. -/
def mtbdd_getdouble (T : llmsset) (leaf : Nat) : Nat :=
  if mtbdd_isnegated leaf ≠ 0 then double_neg (mtbdd_getvalue T leaf)
  else mtbdd_getvalue T leaf

/-! ## Export to DOT -/

/-- One `fprintf` of the DOT export, with the values it formats.  The three
calls that print a leaf are one line, which keeps the type and the value of
the leaf in place of the formatted label. -/
inductive dot_line where
  | digraph_open
  | graph_dpi
  | center
  | edge_forward
  | root_invis
  | root_edge (target : Nat) (dot : Bool)
  | false_box
  | leaf_box (id type value : Nat)
  | node_decl (id var : Nat)
  | low_edge (source target : Nat)
  | high_edge (source target : Nat) (dot : Bool)
  | digraph_close
deriving DecidableEq, Repr

/-- The source's `mtbdd_fprintdot_rec`: the lines printed, in order, and the table with
the marks set.  The pointer `n` is read when it is used; the first argument
bounds the depth of the recursion. -/
def mtbdd_fprintdot_rec : Nat → llmsset → Nat → Except fault (List dot_line × llmsset)
  | 0, _, _ => .error fault.out_of_fuel
  | fuel + 1, T, mtbdd =>
    let n := mtbdd &&& 0x000000ffffffffff
    if mtbddnode_getmark (llmsset_read T n) ≠ 0 then .ok ([], T)
    else
      let T1 := llmsset_setmark T n 1
      if mtbdd = mtbdd_true ∨ mtbdd = mtbdd_false then .ok ([dot_line.false_box], T1)
      else if mtbddnode_isleaf (llmsset_read T1 n) ≠ 0 then
        .ok ([dot_line.leaf_box (MTBDD_STRIPMARK mtbdd) (mtbddnode_gettype (llmsset_read T1 n))
          (mtbddnode_getvalue (llmsset_read T1 n))], T1)
      else
        let decl := dot_line.node_decl (MTBDD_STRIPMARK mtbdd)
          (mtbddnode_getvariable (llmsset_read T1 n))
        match mtbdd_fprintdot_rec fuel T1 (mtbddnode_getlow (llmsset_read T1 n)) with
        | .error e => .error e
        | .ok (out1, T2) =>
          match mtbdd_fprintdot_rec fuel T2 (mtbddnode_gethigh (llmsset_read T2 n)) with
          | .error e => .error e
          | .ok (out2, T3) =>
            .ok (decl :: out1 ++ out2 ++
              [dot_line.low_edge mtbdd (mtbddnode_getlow (llmsset_read T3 n)),
               dot_line.high_edge mtbdd (MTBDD_STRIPMARK (mtbddnode_gethigh (llmsset_read T3 n)))
                 (decide (mtbddnode_getcomp (llmsset_read T3 n) ≠ 0))], T3)

/-- The source's `mtbdd_fprintdot`: the lines printed, in order, and the table it
leaves. -/
def mtbdd_fprintdot (fuel : Nat) (T : llmsset) (mtbdd : Nat) :
    Except fault (List dot_line × llmsset) :=
  match mtbdd_fprintdot_rec fuel T mtbdd with
  | .error e => .error e
  | .ok (out, T1) =>
    match mtbdd_unmark_rec fuel T1 mtbdd with
    | .error e => .error e
    | .ok T2 =>
      .ok ([dot_line.digraph_open, dot_line.graph_dpi, dot_line.center, dot_line.edge_forward,
        dot_line.root_invis,
        dot_line.root_edge (MTBDD_STRIPMARK mtbdd) (decide (MTBDD_HASMARK mtbdd ≠ 0))] ++ out ++
        [dot_line.digraph_close], T2)

/-! ## Specification vocabulary: marks, patterns and in-flight roots -/

/-- The mark bit of the node in bucket `i` of the table is set. -/
def llmsset_marked (T : llmsset) (i : Nat) : Prop :=
  mtbddnode_getmark (llmsset_read T i) ≠ 0

/-- Every word `a` of the table has 64 bits. -/
def llmsset_words64 (T : llmsset) : Prop := ∀ x ∈ T, x.node.a < 2 ^ 64

/-- The pattern, read against the variables `vs` the way `mtbdd_cube` reads
it, comes to a byte above 3: bytes 0, 1 and 2 take one variable and one
byte, a byte 3 takes two variables and two bytes, the second byte unread. -/
def cube_reads_invalid : List Nat → List Nat → Bool
  | _ :: vs, 0 :: p => cube_reads_invalid vs p
  | _ :: vs, 1 :: p => cube_reads_invalid vs p
  | _ :: vs, 2 :: p => cube_reads_invalid vs p
  | _ :: _ :: vs, 3 :: _ :: p => cube_reads_invalid vs p
  | _ :: _, (_ + 4) :: _ => true
  | _, _ => false

/-- The handles that `mtbdd_refs_mark_task` passes to `SPAWN`, in order. -/
def lace_spawned : List lace_call → List Nat
  | [] => []
  | lace_call.SPAWN h :: cs => h :: lace_spawned cs
  | lace_call.SYNC :: cs => lace_spawned cs

/-- The number of `SYNC` among the calls. -/
def lace_syncs : List lace_call → Nat
  | [] => 0
  | lace_call.SPAWN _ :: cs => lace_syncs cs
  | lace_call.SYNC :: cs => lace_syncs cs + 1

/-- The in-flight roots of the worker that the marker is meant for: every
handle of `results`, then the result of every completed task among the
stolen tasks that come before the first task not stolen. -/
def refs_roots (k : mtbdd_refs_internal) : List Nat :=
  k.results ++ ((k.spawns.takeWhile (fun t => t.stolen)).filter (fun t => t.completed)).map
    (fun t => t.result)

/-- No node of the table has its mark bit set. -/
def llmsset_unmarked (T : llmsset) : Prop := ∀ x ∈ T, mtbddnode_getmark x.node = 0

/-- The table with the mark bit of every node cleared. -/
def llmsset_clear (T : llmsset) : llmsset :=
  T.map (fun x => { x with node := mtbddnode_setmark x.node 0 })

/-- Bucket `y` is reached from bucket `x` along children of marked internal
nodes, `x` and `y` included. -/
inductive llmsset_reach (T : llmsset) : Nat → Nat → Prop where
  | here (x : Nat) : llmsset_marked T x → llmsset_reach T x x
  | low (x y : Nat) : llmsset_marked T x → mtbddnode_isleaf (llmsset_read T x) = 0 →
      llmsset_reach T (mtbddnode_getlow (llmsset_read T x) &&& 0x000000ffffffffff) y →
      llmsset_reach T x y
  | high (x y : Nat) : llmsset_marked T x → mtbddnode_isleaf (llmsset_read T x) = 0 →
      llmsset_reach T (mtbddnode_gethigh (llmsset_read T x) &&& 0x000000ffffffffff) y →
      llmsset_reach T x y

/-- The number of buckets whose mark bit is set. -/
def llmsset_marks (T : llmsset) : Nat :=
  T.countP (fun x => decide (mtbddnode_getmark x.node ≠ 0))

/-! ## Bit-level facts about handles -/

theorem testBit_complement (k : Nat) :
    (0x8000000000000000 : Nat).testBit k = decide (k = 63) := by
  have h : (0x8000000000000000 : Nat) = 2 ^ 63 := by norm_num
  rw [h, Nat.testBit_two_pow]; simp [eq_comm]

theorem testBit_leafbit (k : Nat) :
    (0x4000000000000000 : Nat).testBit k = decide (k = 62) := by
  have h : (0x4000000000000000 : Nat) = 2 ^ 62 := by norm_num
  rw [h, Nat.testBit_two_pow]; simp [eq_comm]

theorem testBit_mask40 (k : Nat) :
    (0x000000ffffffffff : Nat).testBit k = decide (k < 40) := by
  have h : (0x000000ffffffffff : Nat) = 2 ^ 40 - 1 := by norm_num
  rw [h, Nat.testBit_two_pow_sub_one]

theorem testBit_highmask (k : Nat) :
    (0x800000ffffffffff : Nat).testBit k = (decide (k < 40) || decide (k = 63)) := by
  have h : (0x800000ffffffffff : Nat) = (2 ^ 40 - 1) ||| 2 ^ 63 := by decide
  rw [h, Nat.testBit_or, Nat.testBit_two_pow, Nat.testBit_two_pow_sub_one]
  simp [eq_comm]

theorem wellformed_testBit {h : Nat} (hw : mtbdd_wellformed h) (k : Nat)
    (hk : h.testBit k = true) : k < 40 ∨ k = 63 := by
  unfold mtbdd_wellformed at hw
  rw [← hw, Nat.testBit_and, testBit_highmask] at hk
  simp at hk
  exact hk.2

theorem wellformed_of_testBit {h : Nat}
    (hw : ∀ k, h.testBit k = true → k < 40 ∨ k = 63) : mtbdd_wellformed h := by
  unfold mtbdd_wellformed
  apply Nat.eq_of_testBit_eq
  intro k
  rw [Nat.testBit_and, testBit_highmask]
  cases hb : h.testBit k
  · simp
  · have := hw k hb
    simp [this]

theorem testBit_of_lt40 {i : Nat} (hi : i < 2 ^ 40) (k : Nat) (hk : 40 ≤ k) :
    i.testBit k = false :=
  Nat.testBit_lt_two_pow (lt_of_lt_of_le hi (Nat.pow_le_pow_right (by norm_num) hk))

theorem lt40_of_testBit {i : Nat} (h : ∀ k, 40 ≤ k → i.testBit k = false) : i < 2 ^ 40 :=
  Nat.lt_pow_two_of_testBit i h

theorem wellformed_of_lt40 {i : Nat} (hi : i < 2 ^ 40) : mtbdd_wellformed i := by
  apply wellformed_of_testBit
  intro k hk
  by_contra hc
  have := testBit_of_lt40 hi k (by omega)
  simp [this] at hk

theorem wellformed_or_complement {i : Nat} (hi : i < 2 ^ 40) :
    mtbdd_wellformed (i ||| mtbdd_complement) := by
  apply wellformed_of_testBit
  intro k hk
  rw [Nat.testBit_or, mtbdd_complement, testBit_complement] at hk
  by_contra hc
  have := testBit_of_lt40 hi k (by omega)
  have h63 : k ≠ 63 := by omega
  simp [this, h63] at hk

theorem wellformed_toggle {h : Nat} (hw : mtbdd_wellformed h) :
    mtbdd_wellformed (MTBDD_TOGGLEMARK h) := by
  apply wellformed_of_testBit
  intro k hk
  rw [MTBDD_TOGGLEMARK, Nat.testBit_xor, mtbdd_complement, testBit_complement] at hk
  by_cases h63 : k = 63
  · exact Or.inr h63
  · simp [h63] at hk
    exact wellformed_testBit hw k hk

theorem index_or_complement (i : Nat) (hi : i < 2 ^ 40) :
    (i ||| mtbdd_complement) &&& 0x000000ffffffffff = i := by
  apply Nat.eq_of_testBit_eq
  intro k
  rw [Nat.testBit_and, Nat.testBit_or, testBit_mask40, mtbdd_complement, testBit_complement]
  by_cases hk : k < 40
  · have : k ≠ 63 := by omega
    simp [hk, this]
  · simp [hk, testBit_of_lt40 hi k (by omega)]

theorem index_of_lt40 (i : Nat) (hi : i < 2 ^ 40) : i &&& 0x000000ffffffffff = i := by
  have h : (0x000000ffffffffff : Nat) = 2 ^ 40 - 1 := by norm_num
  rw [h, Nat.and_pow_two_sub_one_eq_mod, Nat.mod_eq_of_lt hi]

theorem index_lt40 (h : Nat) : h &&& 0x000000ffffffffff < 2 ^ 40 := by
  have e : (0x000000ffffffffff : Nat) = 2 ^ 40 - 1 := by norm_num
  rw [e, Nat.and_pow_two_sub_one_eq_mod]
  exact Nat.mod_lt _ (by norm_num)

theorem mark_or_complement (i : Nat) :
    (i ||| mtbdd_complement) &&& mtbdd_complement = mtbdd_complement := by
  apply Nat.eq_of_testBit_eq
  intro k
  rw [Nat.testBit_and, Nat.testBit_or, mtbdd_complement, testBit_complement]
  by_cases hk : k = 63 <;> simp [hk]

theorem mark_of_lt40 (i : Nat) (hi : i < 2 ^ 40) : i &&& mtbdd_complement = 0 := by
  apply Nat.eq_of_testBit_eq
  intro k
  rw [Nat.testBit_and, mtbdd_complement, testBit_complement]
  by_cases hk : k = 63
  · simp [hk, testBit_of_lt40 hi 63 (by norm_num)]
  · simp [hk]

theorem and_complement_cases (h : Nat) :
    (h &&& mtbdd_complement = 0 ∧ h.testBit 63 = false) ∨
    (h &&& mtbdd_complement = mtbdd_complement ∧ h.testBit 63 = true) := by
  have e : mtbdd_complement = 2 ^ 63 := by norm_num [mtbdd_complement]
  rw [e, Nat.and_two_pow]
  cases h.testBit 63 <;> simp

theorem hasmark_eq (h : Nat) : MTBDD_HASMARK h = if h.testBit 63 = true then 1 else 0 := by
  unfold MTBDD_HASMARK
  rcases and_complement_cases h with ⟨h1, h2⟩ | ⟨h1, h2⟩
  · simp [h1, h2]
  · rw [if_pos (by rw [h1]; simp [mtbdd_complement]), if_pos h2]

/-- A well-formed handle is its index with its complement bit. -/
theorem wellformed_split {h : Nat} (hw : mtbdd_wellformed h) :
    h = (h &&& 0x000000ffffffffff) ||| (h &&& mtbdd_complement) := by
  apply Nat.eq_of_testBit_eq
  intro k
  rw [Nat.testBit_or, Nat.testBit_and, Nat.testBit_and, testBit_mask40, mtbdd_complement,
    testBit_complement]
  cases hb : h.testBit k
  · simp
  · rcases wellformed_testBit hw k hb with h1 | h1 <;> simp [h1]

theorem index_toggle (h : Nat) :
    MTBDD_TOGGLEMARK h &&& 0x000000ffffffffff = h &&& 0x000000ffffffffff := by
  apply Nat.eq_of_testBit_eq
  intro k
  rw [Nat.testBit_and, Nat.testBit_and, MTBDD_TOGGLEMARK, Nat.testBit_xor, testBit_mask40,
    mtbdd_complement, testBit_complement]
  by_cases hk : k < 40
  · have : k ≠ 63 := by omega
    simp [this]
  · simp [hk]

theorem getnode_toggle (T : llmsset) (h : Nat) :
    GETNODE T (MTBDD_TOGGLEMARK h) = GETNODE T h := by
  unfold GETNODE
  rw [index_toggle]

theorem transfermark_toggle (h x : Nat) :
    MTBDD_TRANSFERMARK (MTBDD_TOGGLEMARK h) x = MTBDD_TOGGLEMARK (MTBDD_TRANSFERMARK h x) := by
  unfold MTBDD_TRANSFERMARK MTBDD_TOGGLEMARK
  rw [Nat.and_xor_distrib_right, Nat.and_self, Nat.xor_assoc]

theorem testBit63_transfermark (h x : Nat) (hx : x < 2 ^ 40) :
    (MTBDD_TRANSFERMARK h x).testBit 63 = h.testBit 63 := by
  unfold MTBDD_TRANSFERMARK
  rw [Nat.testBit_xor, Nat.testBit_and, mtbdd_complement, testBit_complement,
    testBit_of_lt40 hx 63 (by norm_num)]
  simp

/-! ## The table lookup -/

theorem probe_zero_iff (p : bucket → Bool) (xs : List bucket) (i : Nat) (hi : 0 < i) :
    llmsset_probe p xs i = 0 ↔ ∀ x ∈ xs, p x = false := by
  induction xs generalizing i with
  | nil => simp [llmsset_probe]
  | cons x xs ih =>
    unfold llmsset_probe
    by_cases hp : p x = true
    · simp [hp]; omega
    · simp [hp, ih (i + 1) (by omega)]

theorem probe_found (p : bucket → Bool) (xs : List bucket) (i : Nat)
    (h : llmsset_probe p xs i ≠ 0) :
    ∃ j x, llmsset_probe p xs i = i + j ∧ xs[j]? = some x ∧ p x = true ∧
      ∀ j2 y, j2 < j → xs[j2]? = some y → p y = false := by
  induction xs generalizing i with
  | nil => simp [llmsset_probe] at h
  | cons x xs ih =>
    unfold llmsset_probe at h ⊢
    by_cases hp : p x = true
    · refine ⟨0, x, by simp [hp], by simp, hp, ?_⟩
      intro j2 y hj; omega
    · simp only [hp] at h ⊢
      simp only [Bool.false_eq_true, if_false] at h ⊢
      obtain ⟨j, y, h1, h2, h3, h4⟩ := ih (i + 1) h
      refine ⟨j + 1, y, by omega, by simpa using h2, h3, ?_⟩
      intro j2 z hj hz
      cases j2 with
      | zero => simp at hz; subst hz; simpa using hp
      | succ j2 => exact h4 j2 z (by omega) (by simpa using hz)

theorem tail_getElem? (T : llmsset) (j : Nat) : T.tail[j]? = T[j + 1]? := by
  cases T <;> simp

/-- The three outcomes of a lookup: the content is found, it is inserted
into the first free bucket, or the table is full. -/
theorem lookup_cases (T : llmsset) (a b : Nat) :
    (∃ i, llmsset_lookup T a b = (i, T) ∧ llmsset_holds T i ⟨a, b⟩ ∧
        ∀ j, j < i → ¬ llmsset_holds T j ⟨a, b⟩) ∨
    ((∀ i, ¬ llmsset_holds T i ⟨a, b⟩) ∧
      ∃ j x, 0 < j ∧ T[j]? = some x ∧ x.occupied = false ∧
        (∀ j2 y, 0 < j2 → j2 < j → T[j2]? = some y → y.occupied = true) ∧
        llmsset_lookup T a b = (j, T.set j ⟨true, ⟨a, b⟩⟩)) ∨
    ((∀ i, ¬ llmsset_holds T i ⟨a, b⟩) ∧
      (∀ j y, 0 < j → T[j]? = some y → y.occupied = true) ∧
      llmsset_lookup T a b = (0, T)) := by
  unfold llmsset_lookup
  by_cases h1 : llmsset_probe (fun x => x.occupied && decide (x.node = ⟨a, b⟩)) T.tail 1 = 0
  · have hnone : ∀ i, ¬ llmsset_holds T i ⟨a, b⟩ := by
      intro i hi
      rw [probe_zero_iff _ _ _ (by norm_num)] at h1
      obtain ⟨hpos, hget⟩ := hi
      have hmem : (⟨true, ⟨a, b⟩⟩ : bucket) ∈ T.tail := by
        rw [List.mem_iff_getElem?]
        refine ⟨i - 1, ?_⟩
        rw [tail_getElem?]
        have : i - 1 + 1 = i := by omega
        rw [this]; exact hget
      have := h1 _ hmem
      simp at this
    right
    by_cases h2 : llmsset_probe (fun x => !x.occupied) T.tail 1 = 0
    · right
      refine ⟨hnone, ?_, by simp [h1, h2]⟩
      intro j y hj hy
      rw [probe_zero_iff _ _ _ (by norm_num)] at h2
      have hmem : y ∈ T.tail := by
        rw [List.mem_iff_getElem?]
        refine ⟨j - 1, ?_⟩
        rw [tail_getElem?]
        have : j - 1 + 1 = j := by omega
        rw [this]; exact hy
      have := h2 _ hmem
      simpa using this
    · left
      refine ⟨hnone, ?_⟩
      obtain ⟨j, x, e1, e2, e3, e4⟩ := probe_found _ _ _ h2
      refine ⟨1 + j, x, by omega, ?_, by simpa using e3, ?_, ?_⟩
      · rw [tail_getElem?] at e2
        rw [Nat.add_comm]; exact e2
      · intro j2 y hj2 hlt hy
        have := e4 (j2 - 1) y (by omega) (by
          rw [tail_getElem?]
          have : j2 - 1 + 1 = j2 := by omega
          rw [this]; exact hy)
        simpa using this
      · simp only [h1, e1]
        simp
  · left
    obtain ⟨j, x, e1, e2, e3, e4⟩ := probe_found _ _ _ h1
    simp only [Bool.and_eq_true, decide_eq_true_eq] at e3
    refine ⟨1 + j, ?_, ?_, ?_⟩
    · simp only [e1]
      have : 1 + j ≠ 0 := by omega
      simp [this]
    · refine ⟨by omega, ?_⟩
      rw [tail_getElem?] at e2
      rw [Nat.add_comm, e2]
      cases x with
      | mk o n => simp at e3; simp [e3.1, e3.2]
    · intro j2 hlt hh
      obtain ⟨hpos, hget⟩ := hh
      have := e4 (j2 - 1) ⟨true, ⟨a, b⟩⟩ (by omega) (by
        rw [tail_getElem?]
        have : j2 - 1 + 1 = j2 := by omega
        rw [this]; exact hget)
      simp at this

theorem holds_lt_length {T : llmsset} {i : Nat} {n : mtbddnode} (h : llmsset_holds T i n) :
    i < T.length := by
  obtain ⟨_, h2⟩ := h
  by_contra hc
  rw [List.getElem?_eq_none (by omega)] at h2
  cases h2

theorem holds_unique_node {T : llmsset} {i : Nat} {n m : mtbddnode}
    (h1 : llmsset_holds T i n) (h2 : llmsset_holds T i m) : n = m := by
  have := h1.2.symm.trans h2.2
  simpa using this

theorem holds_read {T : llmsset} {i : Nat} {n : mtbddnode} (h : llmsset_holds T i n) :
    llmsset_read T i = n := by
  unfold llmsset_read
  rw [List.getD_eq_getElem?_getD, h.2]
  rfl

theorem holds_set_ne {T : llmsset} {i j : Nat} {n : mtbddnode} (x : bucket) (hij : j ≠ i) :
    llmsset_holds (T.set j x) i n ↔ llmsset_holds T i n := by
  unfold llmsset_holds
  rw [List.getElem?_set_ne hij]

/-- A successful lookup leaves the content in the bucket it returns, keeps
every bucket that was occupied, and returns the same bucket when repeated. -/
theorem lookup_result {T T2 : llmsset} {a b i : Nat}
    (h : llmsset_lookup T a b = (i, T2)) (hi : i ≠ 0) :
    llmsset_holds T2 i ⟨a, b⟩ ∧ llmsset_lookup T2 a b = (i, T2) ∧ T2.length = T.length ∧
      (∀ j m, llmsset_holds T j m → llmsset_holds T2 j m) ∧
      (T2 = T ∨ ((∀ j, ¬ llmsset_holds T j ⟨a, b⟩) ∧ T2 = T.set i ⟨true, ⟨a, b⟩⟩ ∧
        ∃ x, T[i]? = some x ∧ x.occupied = false)) := by
  rcases lookup_cases T a b with ⟨i2, e1, e2, _⟩ | ⟨hnone, j, x, hj, hx, hocc, _, e1⟩ |
    ⟨_, _, e1⟩
  · rw [e1] at h
    obtain ⟨rfl, rfl⟩ := Prod.mk.inj h
    exact ⟨e2, e1, rfl, fun _ _ hh => hh, Or.inl rfl⟩
  · rw [e1] at h
    obtain ⟨rfl, rfl⟩ := Prod.mk.inj h
    have hlt : j < T.length := by
      by_contra hc
      rw [List.getElem?_eq_none (by omega)] at hx
      cases hx
    have hnew : llmsset_holds (T.set j ⟨true, ⟨a, b⟩⟩) j ⟨a, b⟩ := by
      refine ⟨hj, ?_⟩
      rw [List.getElem?_set_self hlt]
    have hkeep : ∀ j2 m, llmsset_holds T j2 m → llmsset_holds (T.set j ⟨true, ⟨a, b⟩⟩) j2 m := by
      intro j2 m hh
      by_cases hjj : j = j2
      · subst hjj
        have := hh.2
        rw [hx] at this
        simp at this
        rw [this] at hocc
        cases hocc
      · exact (holds_set_ne _ hjj).2 hh
    refine ⟨hnew, ?_, by simp, hkeep, Or.inr ⟨hnone, rfl, x, hx, hocc⟩⟩
    rcases lookup_cases (T.set j ⟨true, ⟨a, b⟩⟩) a b with ⟨i2, f1, f2, f3⟩ | ⟨hn, _⟩ | ⟨hn, _⟩
    · have hle : i2 = j := by
        by_contra hne
        rcases Nat.lt_or_gt_of_ne hne with hlt2 | hgt
        · exact hnone i2 ((holds_set_ne _ (by omega)).1 f2)
        · exact f3 j hgt hnew
      rw [hle] at f1
      rw [f1]
    · exact absurd hnew (hn j)
    · exact absurd hnew (hn j)
  · rw [e1] at h
    exact absurd (Prod.mk.inj h).1.symm hi

theorem lookup_nodup {T : llmsset} (a b : Nat) (hn : llmsset_nodup T) :
    llmsset_nodup (llmsset_lookup T a b).2 := by
  by_cases hi : (llmsset_lookup T a b).1 = 0
  · rcases lookup_cases T a b with ⟨i2, e1, e2, _⟩ | ⟨_, j, x, hj, _, _, _, e1⟩ | ⟨_, _, e1⟩
    · rw [e1]; exact hn
    · rw [e1] at hi; simp at hi; omega
    · rw [e1]; exact hn
  · obtain ⟨h1, _, _, _, h5⟩ := lookup_result (T := T) (Prod.mk.eta).symm hi
    rcases h5 with h5 | ⟨hnone, hset, _⟩
    · rw [h5]; exact hn
    · intro j1 j2 m hj1 hj2
      rw [hset] at hj1 hj2 h1
      by_cases c1 : (llmsset_lookup T a b).1 = j1
      · by_cases c2 : (llmsset_lookup T a b).1 = j2
        · omega
        · rw [← c1] at hj1
          have hm := holds_unique_node h1 hj1
          rw [← hm] at hj2
          exact absurd ((holds_set_ne _ c2).1 hj2) (hnone j2)
      · by_cases c2 : (llmsset_lookup T a b).1 = j2
        · rw [← c2] at hj2
          have hm := holds_unique_node h1 hj2
          rw [← hm] at hj1
          exact absurd ((holds_set_ne _ c1).1 hj1) (hnone j1)
        · exact hn j1 j2 m ((holds_set_ne _ c1).1 hj1) ((holds_set_ne _ c2).1 hj2)

theorem table_le_refl (T : llmsset) : llmsset_le T T := ⟨rfl, fun _ _ h => h⟩

theorem table_le_trans {T T2 T3 : llmsset} (h1 : llmsset_le T T2) (h2 : llmsset_le T2 T3) :
    llmsset_le T T3 :=
  ⟨h2.1.trans h1.1, fun i n h => h2.2 i n (h1.2 i n h)⟩

theorem lookup_le (T : llmsset) (a b : Nat) : llmsset_le T (llmsset_lookup T a b).2 := by
  rcases lookup_cases T a b with ⟨i2, e1, _, _⟩ | ⟨_, j, x, hj, _, _, _, e1⟩ | ⟨_, _, e1⟩
  · rw [e1]; exact table_le_refl T
  · have hj0 : j ≠ 0 := by omega
    have := lookup_result e1 hj0
    rw [e1]
    exact ⟨this.2.2.1, this.2.2.2.1⟩
  · rw [e1]; exact table_le_refl T

theorem countP_set_le (p : bucket → Bool) (l : List bucket) (i : Nat) (x : bucket) :
    l.countP p ≤ (l.set i x).countP p + 1 := by
  induction l generalizing i with
  | nil => simp
  | cons y ys ih =>
    cases i with
    | zero =>
      simp only [List.set_cons_zero, List.countP_cons]
      split <;> split <;> omega
    | succ i =>
      simp only [List.set_cons_succ, List.countP_cons]
      have := ih i
      omega

theorem tail_set_succ (T : llmsset) (j : Nat) (x : bucket) :
    (T.set (j + 1) x).tail = T.tail.set j x := by
  cases T <;> simp

theorem lookup_free (T : llmsset) (a b : Nat) :
    llmsset_free T ≤ llmsset_free (llmsset_lookup T a b).2 + 1 := by
  rcases lookup_cases T a b with ⟨i2, e1, _, _⟩ | ⟨_, j, x, hj, _, _, _, e1⟩ | ⟨_, _, e1⟩
  · rw [e1]; simp only; omega
  · rw [e1]
    unfold llmsset_free
    obtain ⟨k, rfl⟩ : ∃ k, j = k + 1 := ⟨j - 1, by omega⟩
    simp only
    rw [tail_set_succ]
    exact countP_set_le _ _ _ _
  · rw [e1]; simp only; omega

theorem lookup_room (T : llmsset) (a b : Nat) (h : 0 < llmsset_free T) :
    (llmsset_lookup T a b).1 ≠ 0 := by
  rcases lookup_cases T a b with ⟨i2, e1, e2, _⟩ | ⟨_, j, x, hj, _, _, _, e1⟩ | ⟨_, hall, e1⟩
  · rw [e1]; have := e2.1; simp only; omega
  · rw [e1]; simp only; omega
  · exfalso
    unfold llmsset_free at h
    rw [List.countP_pos_iff] at h
    obtain ⟨y, hy, hp⟩ := h
    rw [List.mem_iff_getElem?] at hy
    obtain ⟨k, hk⟩ := hy
    rw [tail_getElem?] at hk
    have := hall (k + 1) y (by omega) hk
    simp [this] at hp

/-! ## Decoding what `mtbddnode_makenode` encodes -/

theorem testBit_shifted_var (var k : Nat) :
    ((((var % 2 ^ 32) <<< 40) % 2 ^ 64)).testBit k =
      (decide (k < 64) && (decide (40 ≤ k) && (decide (k - 40 < 32) && var.testBit (k - 40)))) := by
  rw [Nat.testBit_mod_two_pow, Nat.testBit_shiftLeft, Nat.testBit_mod_two_pow]

theorem makenode_low_lt40 {low : Nat} (hw : mtbdd_wellformed low) :
    makenode_low low < 2 ^ 40 := by
  apply lt40_of_testBit
  intro k hk
  unfold makenode_low
  rw [hasmark_eq]
  cases hb : low.testBit 63
  · simp only [Bool.false_eq_true, if_false, ne_eq, not_true_eq_false]
    cases hc : low.testBit k
    · rfl
    · rcases wellformed_testBit hw k hc with h1 | h1
      · omega
      · rw [h1, hb] at hc; cases hc
  · simp only [if_true, ne_eq, one_ne_zero, not_false_eq_true, MTBDD_TOGGLEMARK,
      Nat.testBit_xor, mtbdd_complement, testBit_complement]
    by_cases h63 : k = 63
    · subst h63; simp [hb]
    · simp only [h63, decide_False, Bool.xor_false]
      cases hc : low.testBit k
      · rfl
      · rcases wellformed_testBit hw k hc with h1 | h1 <;> omega

theorem makenode_high_wellformed (low : Nat) {high : Nat} (hw : mtbdd_wellformed high) :
    mtbdd_wellformed (makenode_high low high) := by
  unfold makenode_high
  split
  · exact wellformed_toggle hw
  · exact hw

theorem makenode_handle_index (low : Nat) {i : Nat} (hi : i < 2 ^ 40) :
    makenode_handle low i &&& 0x000000ffffffffff = i := by
  unfold makenode_handle
  split
  · exact index_or_complement i hi
  · exact index_of_lt40 i hi

theorem makenode_handle_wellformed (low : Nat) {i : Nat} (hi : i < 2 ^ 40) :
    mtbdd_wellformed (makenode_handle low i) := by
  unfold makenode_handle
  split
  · exact wellformed_or_complement hi
  · exact wellformed_of_lt40 hi

theorem makenode_handle_mark (low : Nat) {i : Nat} (hi : i < 2 ^ 40) :
    makenode_handle low i &&& mtbdd_complement = low &&& mtbdd_complement := by
  unfold makenode_handle
  rw [hasmark_eq]
  rcases and_complement_cases low with ⟨h1, h2⟩ | ⟨h1, h2⟩
  · simp only [h2, Bool.false_eq_true, if_false, ne_eq, not_true_eq_false]
    rw [h1, mark_of_lt40 i hi]
  · simp only [h2, if_true, ne_eq, one_ne_zero, not_false_eq_true]
    rw [h1, mark_or_complement]

theorem decode_low (var : Nat) {low high i : Nat} (hw : mtbdd_wellformed low)
    (hi : i < 2 ^ 40) :
    node_getlow (makenode_handle low i)
      (mtbddnode_makenode var (makenode_low low) (makenode_high low high)) = low := by
  unfold node_getlow MTBDD_TRANSFERMARK mtbddnode_getlow mtbddnode_makenode
  rw [makenode_handle_mark low hi]
  apply Nat.eq_of_testBit_eq
  intro k
  simp only [Nat.testBit_xor, Nat.testBit_and, Nat.testBit_or, testBit_shifted_var,
    testBit_mask40, mtbdd_complement, testBit_complement]
  unfold makenode_low
  rw [hasmark_eq]
  by_cases h40 : k < 40
  · have e1 : ¬ (40 ≤ k) := by omega
    have e2 : k ≠ 63 := by omega
    cases hb : low.testBit 63 <;>
      simp [h40, e1, e2, MTBDD_TOGGLEMARK, mtbdd_complement, testBit_complement]
  · by_cases h63 : k = 63
    · subst h63
      cases hb : low.testBit 63 <;> simp
    · have e3 : low.testBit k = false := by
        cases hc : low.testBit k
        · rfl
        · rcases wellformed_testBit hw k hc with h1 | h1 <;> omega
      simp [h40, h63, e3]

theorem decode_high (var : Nat) {low high i : Nat} (hw : mtbdd_wellformed high)
    (hi : i < 2 ^ 40) :
    node_gethigh (makenode_handle low i)
      (mtbddnode_makenode var (makenode_low low) (makenode_high low high)) = high := by
  unfold node_gethigh MTBDD_TRANSFERMARK mtbddnode_gethigh mtbddnode_makenode
  rw [makenode_handle_mark low hi]
  apply Nat.eq_of_testBit_eq
  intro k
  simp only [Nat.testBit_xor, Nat.testBit_and, testBit_highmask, mtbdd_complement,
    testBit_complement]
  unfold makenode_high
  rw [hasmark_eq]
  have e3 : ¬ (k < 40) → k ≠ 63 → high.testBit k = false := by
    intro h1 h2
    cases hc : high.testBit k
    · rfl
    · rcases wellformed_testBit hw k hc with h3 | h3
      · exact absurd h3 h1
      · exact absurd h3 h2
  by_cases h40 : k < 40
  · have e2 : k ≠ 63 := by omega
    cases hb : low.testBit 63 <;>
      simp [h40, e2, MTBDD_TOGGLEMARK, mtbdd_complement, testBit_complement]
  · by_cases h63 : k = 63
    · subst h63
      cases hb : low.testBit 63 <;>
        simp [MTBDD_TOGGLEMARK, mtbdd_complement, testBit_complement]
    · simp [h40, h63, e3 h40 h63]

theorem decode_variable {var : Nat} (hv : var < 2 ^ 24) {low1 : Nat} (hl : low1 < 2 ^ 40)
    (high1 : Nat) :
    mtbddnode_getvariable (mtbddnode_makenode var low1 high1) = var := by
  unfold mtbddnode_getvariable mtbddnode_makenode
  apply Nat.eq_of_testBit_eq
  intro k
  simp only [Nat.testBit_mod_two_pow, Nat.testBit_shiftRight, Nat.testBit_or,
    Nat.testBit_shiftLeft]
  have e1 : low1.testBit (40 + k) = false := testBit_of_lt40 hl _ (by omega)
  have e2 : 40 + k - 40 = k := by omega
  rw [e1, e2]
  by_cases h24 : k < 24
  · have a1 : 40 + k < 64 := by omega
    have a2 : k < 32 := by omega
    simp [a1, a2]
  · have : var.testBit k = false :=
      Nat.testBit_lt_two_pow (lt_of_lt_of_le hv (Nat.pow_le_pow_right (by norm_num) (by omega)))
    simp [this]

theorem makenode_not_leaf (var low1 : Nat) {high1 : Nat} (hw : mtbdd_wellformed high1) :
    mtbddnode_isleaf (mtbddnode_makenode var low1 high1) = 0 := by
  unfold mtbddnode_isleaf mtbddnode_makenode
  have : high1 &&& 0x4000000000000000 = 0 := by
    apply Nat.eq_of_testBit_eq
    intro k
    rw [Nat.testBit_and, testBit_leafbit]
    by_cases h62 : k = 62
    · cases hc : high1.testBit k
      · simp
      · rcases wellformed_testBit hw k hc with h1 | h1 <;> omega
    · simp [h62]
  simp [this]

/-! ## `mtbdd_makenode` -/

theorem makenode_eq (gc : List Nat → llmsset → llmsset) (s : sylvan) (var : Nat)
    {low high : Nat} (hne : low ≠ high) :
    mtbdd_makenode gc s var low high =
      (let n := mtbddnode_makenode var (makenode_low low) (makenode_high low high)
       let r := sylvan_lookup s n.a n.b
       if r.1 = 0 then
         let r2 := sylvan_lookup (mtbdd_refs_pop (sylvan_gc gc (mtbdd_refs_push
           (mtbdd_refs_push r.2 (makenode_low low)) (makenode_high low high))) 2) n.a n.b
         if r2.1 = 0 then .error fault.table_full
         else .ok (makenode_handle low r2.1, r2.2)
       else .ok (makenode_handle low r.1, r.2)) := by
  unfold mtbdd_makenode
  rw [if_neg hne]
  rfl

/-- Whatever path it takes, a returning `mtbdd_makenode` hands out the bucket
that holds the normalised node, and that bucket is what a lookup finds. -/
theorem makenode_ok {gc : List Nat → llmsset → llmsset} {s s2 : sylvan} {var low high h : Nat}
    (hne : low ≠ high) (hr : mtbdd_makenode gc s var low high = .ok (h, s2)) :
    ∃ i, i ≠ 0 ∧ h = makenode_handle low i ∧
      llmsset_holds s2.nodes i
        (mtbddnode_makenode var (makenode_low low) (makenode_high low high)) ∧
      llmsset_lookup s2.nodes
        (mtbddnode_makenode var (makenode_low low) (makenode_high low high)).a
        (mtbddnode_makenode var (makenode_low low) (makenode_high low high)).b =
          (i, s2.nodes) := by
  rw [makenode_eq gc s var hne] at hr
  simp only at hr
  split at hr
  · split at hr
    · cases hr
    · rename_i h1 h2
      injection hr with hr
      obtain ⟨rfl, rfl⟩ := Prod.mk.inj hr
      refine ⟨_, h2, rfl, ?_⟩
      have := lookup_result (T := (mtbdd_refs_pop (sylvan_gc gc (mtbdd_refs_push
        (mtbdd_refs_push (sylvan_lookup s _ _).2 (makenode_low low))
        (makenode_high low high))) 2).nodes) (Prod.mk.eta).symm h2
      exact ⟨this.1, this.2.1⟩
  · rename_i h1
    injection hr with hr
    obtain ⟨rfl, rfl⟩ := Prod.mk.inj hr
    refine ⟨_, h1, rfl, ?_⟩
    have := lookup_result (T := s.nodes) (Prod.mk.eta).symm h1
    exact ⟨this.1, this.2.1⟩

/-- When the first lookup succeeds, `mtbdd_makenode` returns its bucket and
only the lookup is added to the state. -/
theorem makenode_room (gc : List Nat → llmsset → llmsset) (s : sylvan) (var : Nat)
    {low high i : Nat} {T2 : llmsset} (hne : low ≠ high)
    (hl : llmsset_lookup s.nodes
        (mtbddnode_makenode var (makenode_low low) (makenode_high low high)).a
        (mtbddnode_makenode var (makenode_low low) (makenode_high low high)).b = (i, T2))
    (hi : i ≠ 0) :
    mtbdd_makenode gc s var low high =
      .ok (makenode_handle low i, { s with nodes := T2, log := s.log ++ [event.lookup
        (mtbddnode_makenode var (makenode_low low) (makenode_high low high)).a
        (mtbddnode_makenode var (makenode_low low) (makenode_high low high)).b i] }) := by
  rw [makenode_eq gc s var hne]
  simp only [sylvan_lookup, hl, if_neg hi]

theorem makenode_nodup {gc : List Nat → llmsset → llmsset} {s s2 : sylvan}
    {var low high h : Nat} (hgc : gc_keeps_nodup gc) (hn : llmsset_nodup s.nodes)
    (hr : mtbdd_makenode gc s var low high = .ok (h, s2)) : llmsset_nodup s2.nodes := by
  by_cases hne : low = high
  · unfold mtbdd_makenode at hr
    rw [if_pos hne] at hr
    injection hr with hr
    rw [← (Prod.mk.inj hr).2]; exact hn
  · rw [makenode_eq gc s var hne] at hr
    simp only at hr
    split at hr
    · split at hr
      · cases hr
      · injection hr with hr
        rw [← (Prod.mk.inj hr).2]
        exact lookup_nodup _ _ (hgc _ _ (lookup_nodup _ _ hn))
    · injection hr with hr
      rw [← (Prod.mk.inj hr).2]
      exact lookup_nodup _ _ hn

theorem makenode_same (gc : List Nat → llmsset → llmsset) (s : sylvan) (v x : Nat) :
    mtbdd_makenode gc s v x x = .ok (x, s) := by
  unfold mtbdd_makenode
  rw [if_pos rfl]

theorem index_ne_sentinel {h : Nat} (hi : h &&& 0x000000ffffffffff ≠ 0) :
    ¬ (h = mtbdd_true ∨ h = mtbdd_false) := by
  intro hc
  rcases hc with hc | hc
  · rw [hc] at hi
    exact hi (by decide)
  · rw [hc] at hi
    exact hi (by decide)

theorem node_at_le {T T2 : llmsset} {h v lo hi : Nat} (hn : mtbdd_node_at T h v lo hi)
    (hle : llmsset_le T T2) : mtbdd_node_at T2 h v lo hi := by
  obtain ⟨hw, hv, n, hh, rest⟩ := hn
  exact ⟨hw, hv, n, hle.2 _ _ hh, rest⟩

theorem node_at_getnode {T : llmsset} {h v lo hi : Nat} (hn : mtbdd_node_at T h v lo hi) :
    mtbdd_isleaf T h = 0 ∧ mtbdd_getvar T h = v ∧ mtbdd_getlow T h = lo ∧
      mtbdd_gethigh T h = hi := by
  obtain ⟨_, _, n, hh, h1, h2, h3, h4⟩ := hn
  have hg : GETNODE T h = n := by
    unfold GETNODE
    exact holds_read hh
  have hidx : h &&& 0x000000ffffffffff ≠ 0 := by
    have := hh.1
    omega
  refine ⟨?_, ?_, ?_, ?_⟩
  · unfold mtbdd_isleaf
    rw [if_neg (index_ne_sentinel hidx), hg, h1]
  · unfold mtbdd_getvar
    rw [hg, h2]
  · unfold mtbdd_getlow
    rw [hg, h3]
  · unfold mtbdd_gethigh
    rw [hg, h4]

/-- With a free bucket in a table of at most `2^40` buckets,
`mtbdd_makenode` of two different well-formed children returns, without
collecting, a handle of a node that decodes to its arguments. -/
theorem makenode_spec (gc : List Nat → llmsset → llmsset) (s : sylvan) {v lo hi : Nat}
    (hroom : 0 < llmsset_free s.nodes) (hsize : s.nodes.length ≤ 2 ^ 40) (hv : v < 2 ^ 24)
    (hlo : mtbdd_wellformed lo) (hhi : mtbdd_wellformed hi) (hne : lo ≠ hi) :
    ∃ h s2, mtbdd_makenode gc s v lo hi = .ok (h, s2) ∧ llmsset_le s.nodes s2.nodes ∧
      llmsset_free s.nodes ≤ llmsset_free s2.nodes + 1 ∧ s2.results = s.results ∧
      mtbdd_node_at s2.nodes h v lo hi := by
  have hi0 := lookup_room s.nodes
    (mtbddnode_makenode v (makenode_low lo) (makenode_high lo hi)).a
    (mtbddnode_makenode v (makenode_low lo) (makenode_high lo hi)).b hroom
  have hres := lookup_result (T := s.nodes) (Prod.mk.eta).symm hi0
  have hle := lookup_le s.nodes
    (mtbddnode_makenode v (makenode_low lo) (makenode_high lo hi)).a
    (mtbddnode_makenode v (makenode_low lo) (makenode_high lo hi)).b
  have hfree := lookup_free s.nodes
    (mtbddnode_makenode v (makenode_low lo) (makenode_high lo hi)).a
    (mtbddnode_makenode v (makenode_low lo) (makenode_high lo hi)).b
  have hi40 : (llmsset_lookup s.nodes
      (mtbddnode_makenode v (makenode_low lo) (makenode_high lo hi)).a
      (mtbddnode_makenode v (makenode_low lo) (makenode_high lo hi)).b).1 < 2 ^ 40 := by
    have := holds_lt_length hres.1
    rw [hres.2.2.1] at this
    omega
  refine ⟨_, _, makenode_room gc s v hne (Prod.mk.eta).symm hi0, hle, hfree, rfl, ?_⟩
  refine ⟨makenode_handle_wellformed lo hi40, hv,
    mtbddnode_makenode v (makenode_low lo) (makenode_high lo hi), ?_, ?_, ?_, ?_, ?_⟩
  · simp only
    rw [makenode_handle_index lo hi40]
    exact hres.1
  · exact makenode_not_leaf _ _ (makenode_high_wellformed lo hhi)
  · exact decode_variable hv (makenode_low_lt40 hlo) _
  · exact decode_low v hlo hi40
  · exact decode_high v hhi hi40

/-! ## Evaluation -/

theorem evaluates_node {T : llmsset} {ρ : Nat → Bool} {h v lo hi t : Nat}
    (hn : mtbdd_node_at T h v lo hi)
    (he : mtbdd_evaluates T ρ (if ρ v = true then hi else lo) t) : mtbdd_evaluates T ρ h t := by
  obtain ⟨h1, h2, h3, h4⟩ := node_at_getnode hn
  by_cases hv : ρ v = true
  · rw [if_pos hv] at he
    exact mtbdd_evaluates.high h t h1 (by rw [h2]; exact hv) (by rw [h4]; exact he)
  · rw [if_neg hv] at he
    exact mtbdd_evaluates.low h t h1 (by rw [h2]; simpa using hv) (by rw [h3]; exact he)

theorem terminal_le {T T2 : llmsset} {t : Nat} (ht : mtbdd_terminal T t)
    (hle : llmsset_le T T2) : mtbdd_terminal T2 t := by
  obtain ⟨hw, h⟩ := ht
  refine ⟨hw, ?_⟩
  rcases h with h | h | ⟨n, hh, hl⟩
  · exact Or.inl h
  · exact Or.inr (Or.inl h)
  · exact Or.inr (Or.inr ⟨n, hle.2 _ _ hh, hl⟩)

theorem terminal_isleaf {T : llmsset} {t : Nat} (ht : mtbdd_terminal T t) :
    mtbdd_isleaf T t ≠ 0 := by
  unfold mtbdd_isleaf
  obtain ⟨_, h⟩ := ht
  rcases h with h | h | ⟨n, hh, hl⟩
  · simp [h]
  · simp [h]
  · split
    · simp
    · unfold GETNODE
      rw [holds_read hh]
      exact hl

theorem evaluates_terminal {T : llmsset} (ρ : Nat → Bool) {t : Nat}
    (ht : mtbdd_terminal T t) : mtbdd_evaluates T ρ t t :=
  mtbdd_evaluates.leaf t (terminal_isleaf ht)

theorem terminal_false (T : llmsset) : mtbdd_terminal T mtbdd_false :=
  ⟨by decide, Or.inr (Or.inl rfl)⟩

theorem varcube_le {T T2 : llmsset} (hle : llmsset_le T T2) :
    ∀ (vs : List Nat) (vars : Nat), mtbdd_varcube T vars vs → mtbdd_varcube T2 vars vs := by
  intro vs
  induction vs with
  | nil => intro vars h; exact h
  | cons v vs ih =>
    intro vars h
    obtain ⟨h0, n, hh, h1, h2, h3, h4, h5⟩ := h
    exact ⟨h0, n, hle.2 _ _ hh, h1, h2, h3, h4, ih _ h5⟩

/-- With a free bucket, `mtbdd_makenode` of well-formed children returns
without collecting, and its result evaluates as the child selected by the
variable does, in every table that keeps the buckets of the resulting one. -/
theorem makenode_total (gc : List Nat → llmsset → llmsset) (s : sylvan) (v lo hi : Nat)
    (hroom : 0 < llmsset_free s.nodes) (hsize : s.nodes.length ≤ 2 ^ 40) (hv : v < 2 ^ 24)
    (hlo : mtbdd_wellformed lo) (hhi : mtbdd_wellformed hi) :
    ∃ h s2, mtbdd_makenode gc s v lo hi = .ok (h, s2) ∧ llmsset_le s.nodes s2.nodes ∧
      llmsset_free s.nodes ≤ llmsset_free s2.nodes + 1 ∧ s2.results = s.results ∧
      mtbdd_wellformed h ∧
      ∀ T2, llmsset_le s2.nodes T2 → ∀ ρ t,
        mtbdd_evaluates T2 ρ (if ρ v = true then hi else lo) t → mtbdd_evaluates T2 ρ h t := by
  by_cases hne : lo = hi
  · subst hne
    refine ⟨lo, s, makenode_same gc s v lo, table_le_refl _, by omega, rfl, hlo, ?_⟩
    intro T2 _ ρ t he
    simpa using he
  · obtain ⟨h, s2, e1, e2, e3, e4, e5⟩ := makenode_spec gc s hroom hsize hv hlo hhi hne
    refine ⟨h, s2, e1, e2, e3, e4, e5.1, ?_⟩
    intro T2 hle ρ t he
    exact evaluates_node (node_at_le e5 hle) he

theorem evaluates_unique {T : llmsset} {ρ : Nat → Bool} {h t1 t2 : Nat}
    (h1 : mtbdd_evaluates T ρ h t1) (h2 : mtbdd_evaluates T ρ h t2) : t1 = t2 := by
  induction h1 with
  | leaf h hl =>
    cases h2 with
    | leaf _ _ => rfl
    | low _ _ hn _ _ => exact absurd hn hl
    | high _ _ hn _ _ => exact absurd hn hl
  | low h t hn hv _ ih =>
    cases h2 with
    | leaf _ hl => exact absurd hn hl
    | low _ _ _ _ he => exact ih he
    | high _ _ _ hv2 _ => rw [hv] at hv2; cases hv2
  | high h t hn hv _ ih =>
    cases h2 with
    | leaf _ hl => exact absurd hn hl
    | low _ _ _ hv2 _ => rw [hv] at hv2; cases hv2
    | high _ _ _ _ he => exact ih he

/-! ## `mtbdd_cube` and `mtbdd_union_cube` -/

theorem refs_pop_push (s : sylvan) (h : Nat) : mtbdd_refs_pop (mtbdd_refs_push s h) 1 = s := by
  unfold mtbdd_refs_pop mtbdd_refs_push
  simp

/-- With the terminal `mtbdd_false` every node of the cube collapses: a
returning `mtbdd_cube` gives `mtbdd_false` and leaves the state untouched. -/
theorem cube_false (gc : List Nat → llmsset → llmsset) :
    ∀ (fuel : Nat) (s : sylvan) (vars : Nat) (cube : List Nat) (r : Nat) (s2 : sylvan),
      mtbdd_cube gc fuel s vars cube mtbdd_false = .ok (r, s2) → r = mtbdd_false ∧ s2 = s := by
  intro fuel
  induction fuel with
  | zero => intro s vars cube r s2 h; simp [mtbdd_cube] at h
  | succ fuel ih =>
    intro s vars cube r s2 h
    unfold mtbdd_cube at h
    split at h
    · injection h with h
      obtain ⟨rfl, rfl⟩ := Prod.mk.inj h
      exact ⟨rfl, rfl⟩
    · split at h
      · cases h
      · rename_i c hc
        split at h
        · split at h
          · cases h
          · rename_i result s1 hrec
            obtain ⟨rfl, rfl⟩ := ih _ _ _ _ _ hrec
            rw [makenode_same] at h
            injection h with h
            obtain ⟨rfl, rfl⟩ := Prod.mk.inj h
            exact ⟨rfl, rfl⟩
        · split at h
          · split at h
            · cases h
            · rename_i result s1 hrec
              obtain ⟨rfl, rfl⟩ := ih _ _ _ _ _ hrec
              rw [makenode_same] at h
              injection h with h
              obtain ⟨rfl, rfl⟩ := Prod.mk.inj h
              exact ⟨rfl, rfl⟩
          · split at h
            · exact ih _ _ _ _ _ h
            · split at h
              · simp only at h
                split at h
                · cases h
                · rename_i result s1 hrec
                  obtain ⟨rfl, rfl⟩ := ih _ _ _ _ _ hrec
                  simp only [makenode_same, refs_pop_push] at h
                  injection h with h
                  obtain ⟨rfl, rfl⟩ := Prod.mk.inj h
                  exact ⟨rfl, rfl⟩
              · injection h with h
                obtain ⟨rfl, rfl⟩ := Prod.mk.inj h
                exact ⟨rfl, rfl⟩

theorem cube_step0 (gc : List Nat → llmsset → llmsset) (fuel : Nat) (s : sylvan)
    {vars : Nat} (p : List Nat) (t : Nat) (hne : vars ≠ mtbdd_true) :
    mtbdd_cube gc (fuel + 1) s vars (0 :: p) t =
      match mtbdd_cube gc fuel s (node_gethigh vars (GETNODE s.nodes vars)) p t with
      | .error e => .error e
      | .ok (result, s1) =>
        mtbdd_makenode gc s1 (mtbddnode_getvariable (GETNODE s1.nodes vars)) result
          mtbdd_false := by
  rw [mtbdd_cube]
  simp [hne]

theorem cube_step1 (gc : List Nat → llmsset → llmsset) (fuel : Nat) (s : sylvan)
    {vars : Nat} (p : List Nat) (t : Nat) (hne : vars ≠ mtbdd_true) :
    mtbdd_cube gc (fuel + 1) s vars (1 :: p) t =
      match mtbdd_cube gc fuel s (node_gethigh vars (GETNODE s.nodes vars)) p t with
      | .error e => .error e
      | .ok (result, s1) =>
        mtbdd_makenode gc s1 (mtbddnode_getvariable (GETNODE s1.nodes vars)) mtbdd_false
          result := by
  rw [mtbdd_cube]
  simp [hne]

theorem cube_step2 (gc : List Nat → llmsset → llmsset) (fuel : Nat) (s : sylvan)
    {vars : Nat} (p : List Nat) (t : Nat) (hne : vars ≠ mtbdd_true) :
    mtbdd_cube gc (fuel + 1) s vars (2 :: p) t =
      mtbdd_cube gc fuel s (node_gethigh vars (GETNODE s.nodes vars)) p t := by
  rw [mtbdd_cube]
  simp [hne]

theorem cube_step3 (gc : List Nat → llmsset → llmsset) (fuel : Nat) (s : sylvan)
    {vars : Nat} (c2 : Nat) (p : List Nat) (t : Nat) (hne : vars ≠ mtbdd_true) :
    mtbdd_cube gc (fuel + 1) s vars (3 :: c2 :: p) t =
      match mtbdd_cube gc fuel s
          (node_gethigh (node_gethigh vars (GETNODE s.nodes vars))
            (GETNODE s.nodes (node_gethigh vars (GETNODE s.nodes vars)))) p t with
      | .error e => .error e
      | .ok (result, s1) =>
        match mtbdd_makenode gc s1 (mtbddnode_getvariable
            (GETNODE s.nodes (node_gethigh vars (GETNODE s.nodes vars)))) result mtbdd_false with
        | .error e => .error e
        | .ok (low, s2) =>
          match mtbdd_makenode gc (mtbdd_refs_push s2 low) (mtbddnode_getvariable
              (GETNODE s.nodes (node_gethigh vars (GETNODE s.nodes vars)))) mtbdd_false
              result with
          | .error e => .error e
          | .ok (high, s3) =>
            mtbdd_makenode gc (mtbdd_refs_pop s3 1)
              (mtbddnode_getvariable (GETNODE (mtbdd_refs_pop s3 1).nodes vars)) low high := by
  rw [mtbdd_cube]
  simp [hne]

theorem varcube_cons {T : llmsset} {vars v : Nat} {vs : List Nat}
    (h : mtbdd_varcube T vars (v :: vs)) :
    vars ≠ mtbdd_true ∧ v < 2 ^ 24 ∧ ∃ n, mtbddnode_getvariable n = v ∧
      mtbdd_varcube T (node_gethigh vars n) vs ∧
      ∀ T2, llmsset_le T T2 → GETNODE T2 vars = n := by
  obtain ⟨h0, n, hh, _, h2, h3, _, h5⟩ := h
  refine ⟨h0, h3, n, h2, h5, ?_⟩
  intro T2 hle
  unfold GETNODE
  exact holds_read (hle.2 _ _ hh)

theorem cube_sat_0 (ρ : Nat → Bool) (v : Nat) (vs p : List Nat) :
    cube_sat ρ (v :: vs) (0 :: p) = (!ρ v && cube_sat ρ vs p) := by
  rw [cube_sat]

theorem cube_sat_1 (ρ : Nat → Bool) (v : Nat) (vs p : List Nat) :
    cube_sat ρ (v :: vs) (1 :: p) = (ρ v && cube_sat ρ vs p) := by
  rw [cube_sat]

theorem cube_sat_2 (ρ : Nat → Bool) (v : Nat) (vs p : List Nat) :
    cube_sat ρ (v :: vs) (2 :: p) = cube_sat ρ vs p := by
  rw [cube_sat]

theorem cube_sat_3 (ρ : Nat → Bool) (v v2 c2 : Nat) (vs p : List Nat) :
    cube_sat ρ (v :: v2 :: vs) (3 :: c2 :: p) = ((ρ v == ρ v2) && cube_sat ρ vs p) := by
  rw [cube_sat]

theorem cube_consumed_0 (v : Nat) (vs p : List Nat) :
    cube_consumed (v :: vs) (0 :: p) = cube_consumed vs p := by
  rw [cube_consumed]

theorem cube_consumed_1 (v : Nat) (vs p : List Nat) :
    cube_consumed (v :: vs) (1 :: p) = cube_consumed vs p := by
  rw [cube_consumed]

theorem cube_consumed_2 (v : Nat) (vs p : List Nat) :
    cube_consumed (v :: vs) (2 :: p) = cube_consumed vs p := by
  rw [cube_consumed]

theorem cube_consumed_3 (v v2 c2 : Nat) (vs p : List Nat) :
    cube_consumed (v :: v2 :: vs) (3 :: c2 :: p) = cube_consumed vs p := by
  rw [cube_consumed]

theorem cube_consumed_3_short (v c2 : Nat) (p : List Nat) :
    cube_consumed [v] (3 :: c2 :: p) = false := by
  rw [cube_consumed]
  all_goals simp

theorem cube_consumed_3_last (v : Nat) (vs : List Nat) :
    cube_consumed (v :: vs) [3] = false := by
  rw [cube_consumed]
  all_goals simp

theorem cube_consumed_gt (v c : Nat) (vs p : List Nat) (h : 3 < c) :
    cube_consumed (v :: vs) (c :: p) = false := by
  rw [cube_consumed]
  all_goals omega

/-- The cube built by `mtbdd_cube`, when the table has two free buckets per
variable: the call returns without collecting and its result evaluates to the
terminal exactly under the assignments that satisfy the pattern. -/
theorem cube_spec (gc : List Nat → llmsset → llmsset) (t : Nat) :
    ∀ (fuel : Nat) (s : sylvan) (vars : Nat) (vs p : List Nat),
      mtbdd_varcube s.nodes vars vs → cube_consumed vs p = true → vs.length < fuel →
      2 * vs.length ≤ llmsset_free s.nodes → s.nodes.length ≤ 2 ^ 40 →
      mtbdd_terminal s.nodes t →
      ∃ r s2, mtbdd_cube gc fuel s vars p t = .ok (r, s2) ∧ llmsset_le s.nodes s2.nodes ∧
        llmsset_free s.nodes ≤ llmsset_free s2.nodes + 2 * vs.length ∧
        s2.results = s.results ∧ mtbdd_wellformed r ∧
        ∀ T2, llmsset_le s2.nodes T2 → ∀ ρ,
          mtbdd_evaluates T2 ρ r (if cube_sat ρ vs p = true then t else mtbdd_false) := by
  intro fuel
  induction fuel with
  | zero => intro s vars vs p _ _ hf; omega
  | succ fuel ih =>
    intro s vars vs p hvc hcons hf hroom hsize ht
    cases vs with
    | nil =>
      have hv : vars = mtbdd_true := hvc
      refine ⟨t, s, by rw [mtbdd_cube]; simp [hv], table_le_refl _, by omega, rfl, ht.1, ?_⟩
      intro T2 hle ρ
      simp only [cube_sat, if_true]
      exact evaluates_terminal ρ (terminal_le ht hle)
    | cons v vs1 =>
      obtain ⟨hne, hv24, n, hvar, hrest, hget⟩ := varcube_cons hvc
      have hg0 := hget _ (table_le_refl _)
      cases p with
      | nil => simp [cube_consumed] at hcons
      | cons c p1 =>
        simp only [List.length_cons] at hf hroom ⊢
        have hc : c = 0 ∨ c = 1 ∨ c = 2 ∨ c = 3 := by
          by_contra hcc
          rw [cube_consumed_gt v c vs1 p1 (by omega)] at hcons
          cases hcons
        rcases hc with rfl | rfl | rfl | rfl
        · rw [cube_consumed_0] at hcons
          obtain ⟨res, s1, e1, e2, e3, e4, e5, e6⟩ :=
            ih s (node_gethigh vars n) vs1 p1 hrest hcons (by omega) (by omega) hsize ht
          have hg1 := hget _ e2
          have hsize1 : s1.nodes.length ≤ 2 ^ 40 := by rw [e2.1]; exact hsize
          obtain ⟨h, s2, f1, f2, f3, f4, f5, f6⟩ := makenode_total gc s1 v res mtbdd_false (by omega) hsize1 hv24 e5 (by decide)
          refine ⟨h, s2, ?_, table_le_trans e2 f2, by omega, f4.trans e4, f5, ?_⟩
          · rw [cube_step0 gc fuel s p1 t hne, hg0, e1]
            simp only
            rw [hg1, hvar, f1]
          · intro T2 hle ρ
            apply f6 T2 hle ρ
            have := e6 T2 (table_le_trans f2 hle) ρ
            rw [cube_sat_0]
            cases hρ : ρ v
            · simpa using this
            · simpa using evaluates_terminal ρ (terminal_false T2)
        · rw [cube_consumed_1] at hcons
          obtain ⟨res, s1, e1, e2, e3, e4, e5, e6⟩ :=
            ih s (node_gethigh vars n) vs1 p1 hrest hcons (by omega) (by omega) hsize ht
          have hg1 := hget _ e2
          have hsize1 : s1.nodes.length ≤ 2 ^ 40 := by rw [e2.1]; exact hsize
          obtain ⟨h, s2, f1, f2, f3, f4, f5, f6⟩ := makenode_total gc s1 v mtbdd_false res (by omega) hsize1 hv24 (by decide) e5
          refine ⟨h, s2, ?_, table_le_trans e2 f2, by omega, f4.trans e4, f5, ?_⟩
          · rw [cube_step1 gc fuel s p1 t hne, hg0, e1]
            simp only
            rw [hg1, hvar, f1]
          · intro T2 hle ρ
            apply f6 T2 hle ρ
            have := e6 T2 (table_le_trans f2 hle) ρ
            rw [cube_sat_1]
            cases hρ : ρ v
            · simpa using evaluates_terminal ρ (terminal_false T2)
            · simpa using this
        · rw [cube_consumed_2] at hcons
          obtain ⟨res, s1, e1, e2, e3, e4, e5, e6⟩ :=
            ih s (node_gethigh vars n) vs1 p1 hrest hcons (by omega) (by omega) hsize ht
          refine ⟨res, s1, ?_, e2, by omega, e4, e5, ?_⟩
          · rw [cube_step2 gc fuel s p1 t hne, hg0, e1]
          · intro T2 hle ρ
            rw [cube_sat_2]
            exact e6 T2 hle ρ
        · cases vs1 with
          | nil =>
            cases p1 with
            | nil => rw [cube_consumed_3_last] at hcons; cases hcons
            | cons c2 p2 => rw [cube_consumed_3_short] at hcons; cases hcons
          | cons v2 vs2 =>
            cases p1 with
            | nil => rw [cube_consumed_3_last] at hcons; cases hcons
            | cons c2 p2 =>
              rw [cube_consumed_3] at hcons
              obtain ⟨hne2, hv24b, n2, hvar2, hrest2, hget2⟩ := varcube_cons hrest
              have hg20 := hget2 _ (table_le_refl _)
              simp only [List.length_cons] at hf hroom ⊢
              obtain ⟨res, s1, e1, e2, e3, e4, e5, e6⟩ :=
                ih s (node_gethigh (node_gethigh vars n) n2) vs2 p2 hrest2 hcons (by omega)
                  (by omega) hsize ht
              have hsize1 : s1.nodes.length ≤ 2 ^ 40 := by rw [e2.1]; exact hsize
              obtain ⟨lo, s2, f1, f2, f3, f4, f5, f6⟩ := makenode_total gc s1 v2 res mtbdd_false (by omega) hsize1 hv24b e5 (by decide)
              have hsize2 : s2.nodes.length ≤ 2 ^ 40 := by rw [f2.1]; exact hsize1
              obtain ⟨hi, s3, g1, g2, g3, g4, g5, g6⟩ := makenode_total gc
                (mtbdd_refs_push s2 lo) v2 mtbdd_false res
                (by show 0 < llmsset_free s2.nodes; omega) hsize2 hv24b (by decide) e5
              have g2b : llmsset_le s2.nodes s3.nodes := g2
              have g3b : llmsset_free s2.nodes ≤ llmsset_free s3.nodes + 1 := g3
              have hsize3 : (mtbdd_refs_pop s3 1).nodes.length ≤ 2 ^ 40 := by
                show s3.nodes.length ≤ 2 ^ 40
                rw [g2b.1]; exact hsize2
              obtain ⟨r, s5, k1, k2, k3, k4, k5, k6⟩ := makenode_total gc
                (mtbdd_refs_pop s3 1) v lo hi
                (by show 0 < llmsset_free s3.nodes; omega) hsize3 hv24 f5 g5
              have k2b : llmsset_le s3.nodes s5.nodes := k2
              have k3b : llmsset_free s3.nodes ≤ llmsset_free s5.nodes + 1 := k3
              have hg4 : GETNODE (mtbdd_refs_pop s3 1).nodes vars = n :=
                hget _ (table_le_trans e2 (table_le_trans f2 g2b))
              refine ⟨r, s5, ?_, table_le_trans e2 (table_le_trans f2 (table_le_trans g2b k2b)), by omega, ?_,
                k5, ?_⟩
              · rw [cube_step3 gc fuel s c2 p2 t hne, hg0, hg20, e1]
                simp only
                rw [hvar2, f1]
                simp only
                rw [g1]
                simp only
                rw [hg4, hvar, k1]
              · rw [k4]
                show s3.results.take (s3.results.length - 1) = s.results
                rw [g4]
                show (s2.results ++ [lo]).take ((s2.results ++ [lo]).length - 1) = s.results
                rw [f4, e4]
                simp
              · intro T2 hle ρ
                apply k6 T2 hle ρ
                have hres := e6 T2 (table_le_trans f2 (table_le_trans g2b (table_le_trans k2b hle))) ρ
                have hfalse := evaluates_terminal ρ (terminal_false T2)
                rw [cube_sat_3]
                cases hρ : ρ v
                · simp only [Bool.false_eq_true, if_false]
                  apply f6 T2 (table_le_trans g2b (table_le_trans k2b hle)) ρ
                  cases hρ2 : ρ v2
                  · simpa using hres
                  · simpa using hfalse
                · simp only [if_true]
                  apply g6 T2 (table_le_trans k2b hle) ρ
                  cases hρ2 : ρ v2
                  · simpa using hfalse
                  · simpa using hres

theorem consumed_of_pattern :
    ∀ (n : Nat) (vs p : List Nat), vs.length ≤ n → p.length = vs.length →
      (∀ c ∈ p, c ≤ 3) → p.getLast? ≠ some 3 → cube_consumed vs p = true := by
  intro n
  induction n with
  | zero =>
    intro vs p hn _ _ _
    cases vs with
    | nil => rw [cube_consumed]
    | cons v vs => simp at hn
  | succ n ih =>
    intro vs p hn hlen hb hlast
    cases vs with
    | nil => rw [cube_consumed]
    | cons v vs1 =>
      cases p with
      | nil => simp at hlen
      | cons c p1 =>
        simp only [List.length_cons, Nat.add_right_cancel_iff] at hlen
        simp only [List.length_cons] at hn
        have hb1 : ∀ x ∈ p1, x ≤ 3 := fun x hx => hb x (List.mem_cons_of_mem _ hx)
        have hc3 := hb c (List.mem_cons_self _ _)
        have hlast1 : p1 ≠ [] → p1.getLast? ≠ some 3 := by
          intro hne
          cases p1 with
          | nil => exact absurd rfl hne
          | cons c2 p2 => rwa [List.getLast?_cons_cons] at hlast
        have hrec : p1 ≠ [] ∨ vs1 = [] → cube_consumed vs1 p1 = true := by
          intro h
          cases p1 with
          | nil =>
            have : vs1 = [] := by
              cases vs1 with
              | nil => rfl
              | cons _ _ => simp at hlen
            subst this
            rw [cube_consumed]
          | cons c2 p2 => exact ih vs1 _ (by omega) hlen hb1 (hlast1 (by simp))
        have hcase : c = 0 ∨ c = 1 ∨ c = 2 ∨ c = 3 := by omega
        have hor : p1 ≠ [] ∨ vs1 = [] := by
          cases p1 with
          | nil =>
            right
            cases vs1 with
            | nil => rfl
            | cons _ _ => simp at hlen
          | cons _ _ => left; simp
        rcases hcase with rfl | rfl | rfl | rfl
        · rw [cube_consumed_0]; exact hrec hor
        · rw [cube_consumed_1]; exact hrec hor
        · rw [cube_consumed_2]; exact hrec hor
        · cases p1 with
          | nil => simp at hlast
          | cons c2 p2 =>
            cases vs1 with
            | nil => simp at hlen
            | cons v2 vs2 =>
              rw [cube_consumed_3]
              simp only [List.length_cons, Nat.add_right_cancel_iff] at hlen
              simp only [List.length_cons] at hn
              have hb2 : ∀ x ∈ p2, x ≤ 3 := fun x hx => hb1 x (List.mem_cons_of_mem _ hx)
              cases p2 with
              | nil =>
                have : vs2 = [] := by
                  cases vs2 with
                  | nil => rfl
                  | cons _ _ => simp at hlen
                subst this
                rw [cube_consumed]
              | cons c3 p3 =>
                refine ih vs2 _ (by omega) hlen hb2 ?_
                have := hlast1 (by simp)
                rwa [List.getLast?_cons_cons] at this

/-! ## The invariant of a table built by `mtbdd_makeleaf` and `mtbdd_makenode` -/

theorem lookup_canonical {T : llmsset} (a b : Nat) (hc : llmsset_canonical T)
    (hn : mtbddnode_isleaf ⟨a, b⟩ = 0 → mtbddnode_canonical ⟨a, b⟩) :
    llmsset_canonical (llmsset_lookup T a b).2 := by
  refine ⟨lookup_nodup a b hc.1, ?_⟩
  intro i n hh hl
  by_cases hi : (llmsset_lookup T a b).1 = 0
  · rcases lookup_cases T a b with ⟨i2, e1, e2, _⟩ | ⟨_, j, x, hj, _, _, _, e1⟩ | ⟨_, _, e1⟩
    · rw [e1] at hh; exact hc.2 i n hh hl
    · rw [e1] at hi; simp at hi; omega
    · rw [e1] at hh; exact hc.2 i n hh hl
  · obtain ⟨h1, _, _, _, h5⟩ := lookup_result (T := T) (Prod.mk.eta).symm hi
    rcases h5 with h5 | ⟨_, hset, _⟩
    · rw [h5] at hh; exact hc.2 i n hh hl
    · by_cases c1 : (llmsset_lookup T a b).1 = i
      · rw [← c1] at hh
        have := holds_unique_node h1 hh
        rw [← this] at hl ⊢
        exact hn hl
      · rw [hset] at hh
        exact hc.2 i n ((holds_set_ne _ c1).1 hh) hl

theorem makeleaf_is_leaf (type value : Nat) :
    mtbddnode_isleaf (mtbddnode_makeleaf type value) ≠ 0 := by
  unfold mtbddnode_isleaf mtbddnode_makeleaf
  have : (0x4000000000000000 ||| type % 2 ^ 32) &&& 0x4000000000000000 ≠ 0 := by
    intro h
    have := congrArg (fun x => x.testBit 62) h
    simp only [Nat.testBit_and, Nat.testBit_or, testBit_leafbit, Nat.zero_testBit] at this
    simp at this
  simp only
  rw [if_pos this]
  exact one_ne_zero

theorem makenode_low_ne_high {lo hi : Nat} (hne : lo ≠ hi) :
    makenode_low lo ≠ makenode_high lo hi := by
  unfold makenode_low makenode_high
  split
  · unfold MTBDD_TOGGLEMARK
    intro h
    exact hne (Nat.xor_left_inj.1 h)
  · exact hne

theorem getlow_makenode (v : Nat) {low1 : Nat} (hl : low1 < 2 ^ 40) (high1 : Nat) :
    mtbddnode_getlow (mtbddnode_makenode v low1 high1) = low1 := by
  unfold mtbddnode_getlow mtbddnode_makenode
  apply Nat.eq_of_testBit_eq
  intro k
  simp only [Nat.testBit_and, Nat.testBit_or, testBit_shifted_var, testBit_mask40]
  by_cases hk : k < 40
  · have : ¬ 40 ≤ k := by omega
    simp [hk, this]
  · simp [hk, testBit_of_lt40 hl k (by omega)]

theorem makenode_node_canonical (v : Nat) {lo hi : Nat} (hlo : mtbdd_wellformed lo)
    (hhi : mtbdd_wellformed hi) (hne : lo ≠ hi) :
    mtbddnode_canonical (mtbddnode_makenode v (makenode_low lo) (makenode_high lo hi)) := by
  have hw := makenode_high_wellformed lo hhi
  have hl := makenode_low_lt40 hlo
  refine ⟨hw, ?_, ?_⟩
  · show ((v % 2 ^ 32) <<< 40) % 2 ^ 64 ||| makenode_low lo < 2 ^ 64
    apply Nat.or_lt_two_pow
    · exact Nat.mod_lt _ (by norm_num)
    · exact lt_of_lt_of_le hl (by norm_num)
  · rw [getlow_makenode v hl]
    show makenode_low lo ≠ makenode_high lo hi &&& 0x800000ffffffffff
    rw [show makenode_high lo hi &&& 0x800000ffffffffff = makenode_high lo hi from hw]
    exact makenode_low_ne_high hne

theorem makenode_keeps_canonical {gc : List Nat → llmsset → llmsset} {s s2 : sylvan}
    {v lo hi h : Nat} (hgc : gc_keeps_canonical gc) (hc : llmsset_canonical s.nodes)
    (hlo : mtbdd_wellformed lo) (hhi : mtbdd_wellformed hi)
    (hr : mtbdd_makenode gc s v lo hi = .ok (h, s2)) : llmsset_canonical s2.nodes := by
  by_cases hne : lo = hi
  · unfold mtbdd_makenode at hr
    rw [if_pos hne] at hr
    injection hr with hr
    rw [← (Prod.mk.inj hr).2]; exact hc
  · have hn := makenode_node_canonical v hlo hhi hne
    rw [makenode_eq gc s v hne] at hr
    simp only at hr
    split at hr
    · split at hr
      · cases hr
      · injection hr with hr
        rw [← (Prod.mk.inj hr).2]
        exact lookup_canonical _ _ (hgc _ _ (lookup_canonical _ _ hc (fun _ => hn)))
          (fun _ => hn)
    · injection hr with hr
      rw [← (Prod.mk.inj hr).2]
      exact lookup_canonical _ _ hc (fun _ => hn)

theorem makeleaf_keeps_canonical {gc : List Nat → llmsset → llmsset} {s s2 : sylvan}
    {type value h : Nat} (hgc : gc_keeps_canonical gc) (hc : llmsset_canonical s.nodes)
    (hr : mtbdd_makeleaf gc s type value = .ok (h, s2)) : llmsset_canonical s2.nodes := by
  have hn : mtbddnode_isleaf ⟨(mtbddnode_makeleaf type value).a,
      (mtbddnode_makeleaf type value).b⟩ = 0 →
      mtbddnode_canonical ⟨(mtbddnode_makeleaf type value).a,
        (mtbddnode_makeleaf type value).b⟩ :=
    fun h0 => absurd h0 (makeleaf_is_leaf type value)
  unfold mtbdd_makeleaf at hr
  simp only at hr
  split at hr
  · split at hr
    · cases hr
    · injection hr with hr
      rw [← (Prod.mk.inj hr).2]
      exact lookup_canonical _ _ (hgc _ _ (lookup_canonical _ _ hc hn)) hn
  · injection hr with hr
    rw [← (Prod.mk.inj hr).2]
    exact lookup_canonical _ _ hc hn

theorem fresh_canonical (n : Nat) :
    llmsset_canonical (List.replicate n ⟨false, ⟨0, 0⟩⟩) := by
  have hno : ∀ i m, ¬ llmsset_holds (List.replicate n ⟨false, ⟨0, 0⟩⟩) i m := by
    intro i m hh
    have h2 := hh.2
    rw [List.getElem?_replicate] at h2
    split at h2
    · simp at h2
    · cases h2
  exact ⟨fun i j m hi _ => absurd hi (hno i m), fun i m hi _ => absurd hi (hno i m)⟩

theorem built_canonical {gc : List Nat → llmsset → llmsset} (hgc : gc_keeps_canonical gc)
    {s : sylvan} (hb : sylvan_built gc s) : llmsset_canonical s.nodes := by
  induction hb with
  | init n => exact fresh_canonical n
  | makeleaf s s2 type value h _ hr ih => exact makeleaf_keeps_canonical hgc ih hr
  | makenode s s2 v lo hi h _ hlo hhi hr ih => exact makenode_keeps_canonical hgc ih hlo hhi hr

/-! ## One handle per function -/

theorem and_complement_eq_of_testBit {h1 h2 : Nat} (e : h1.testBit 63 = h2.testBit 63) :
    h1 &&& mtbdd_complement = h2 &&& mtbdd_complement := by
  rcases and_complement_cases h1 with ⟨a1, b1⟩ | ⟨a1, b1⟩ <;>
    rcases and_complement_cases h2 with ⟨a2, b2⟩ | ⟨a2, b2⟩
  · rw [a1, a2]
  · rw [b1, b2] at e; cases e
  · rw [b1, b2] at e; cases e
  · rw [a1, a2]

theorem word_eq_of_parts {b1 b2 : Nat} (h1 : b1 < 2 ^ 64) (h2 : b2 < 2 ^ 64)
    (hv : (b1 >>> 40) % 2 ^ 32 = (b2 >>> 40) % 2 ^ 32)
    (hl : b1 &&& 0x000000ffffffffff = b2 &&& 0x000000ffffffffff) : b1 = b2 := by
  have e : (0x000000ffffffffff : Nat) = 2 ^ 40 - 1 := by norm_num
  rw [e, Nat.and_pow_two_sub_one_eq_mod, Nat.and_pow_two_sub_one_eq_mod] at hl
  rw [Nat.shiftRight_eq_div_pow, Nat.shiftRight_eq_div_pow] at hv
  have d1 : b1 / 2 ^ 40 < 2 ^ 32 := by
    rw [Nat.div_lt_iff_lt_mul (by norm_num)]
    exact lt_of_lt_of_le h1 (by norm_num)
  have d2 : b2 / 2 ^ 40 < 2 ^ 32 := by
    rw [Nat.div_lt_iff_lt_mul (by norm_num)]
    exact lt_of_lt_of_le h2 (by norm_num)
  rw [Nat.mod_eq_of_lt d1, Nat.mod_eq_of_lt d2] at hv
  have r1 := Nat.div_add_mod b1 (2 ^ 40)
  have r2 := Nat.div_add_mod b2 (2 ^ 40)
  rw [hv, hl] at r1
  omega

/-- In a canonical table the variable and the two children determine the
handle of an internal node. -/
theorem node_at_unique {T : llmsset} (hc : llmsset_canonical T) {h1 h2 v lo hi : Nat}
    (n1 : mtbdd_node_at T h1 v lo hi) (n2 : mtbdd_node_at T h2 v lo hi) : h1 = h2 := by
  obtain ⟨w1, _, m1, hh1, l1, v1, lo1, hi1⟩ := n1
  obtain ⟨w2, _, m2, hh2, l2, v2, lo2, hi2⟩ := n2
  obtain ⟨ca1, cb1, _⟩ := hc.2 _ _ hh1 l1
  obtain ⟨ca2, cb2, _⟩ := hc.2 _ _ hh2 l2
  have hmark : h1.testBit 63 = h2.testBit 63 := by
    have t1 := testBit63_transfermark h1 (mtbddnode_getlow m1) (index_lt40 _)
    have t2 := testBit63_transfermark h2 (mtbddnode_getlow m2) (index_lt40 _)
    unfold node_getlow at lo1 lo2
    rw [lo1] at t1
    rw [lo2] at t2
    rw [← t1, ← t2]
  have hm := and_complement_eq_of_testBit hmark
  have elow : mtbddnode_getlow m1 = mtbddnode_getlow m2 := by
    unfold node_getlow MTBDD_TRANSFERMARK at lo1 lo2
    rw [hm] at lo1
    exact Nat.xor_left_inj.1 (lo1.trans lo2.symm)
  have ehigh : mtbddnode_gethigh m1 = mtbddnode_gethigh m2 := by
    unfold node_gethigh MTBDD_TRANSFERMARK at hi1 hi2
    rw [hm] at hi1
    exact Nat.xor_left_inj.1 (hi1.trans hi2.symm)
  have ea : m1.a = m2.a := by
    unfold mtbddnode_gethigh at ehigh
    rw [ca1, ca2] at ehigh
    exact ehigh
  have eb : m1.b = m2.b := by
    apply word_eq_of_parts cb1 cb2
    · exact v1.trans v2.symm
    · exact elow
  have em : m1 = m2 := by
    cases m1; cases m2
    simp only at ea eb
    rw [ea, eb]
  rw [em] at hh1
  have eidx := hc.1 _ _ _ hh1 hh2
  rw [wellformed_split w1, wellformed_split w2, eidx, hm]

theorem node_at_children_ne {T : llmsset} (hc : llmsset_canonical T) {h v lo hi : Nat}
    (n : mtbdd_node_at T h v lo hi) : lo ≠ hi := by
  obtain ⟨_, _, m, hh, l, _, lo1, hi1⟩ := n
  obtain ⟨_, _, c3⟩ := hc.2 _ _ hh l
  intro e
  apply c3
  unfold node_getlow MTBDD_TRANSFERMARK at lo1
  unfold node_gethigh MTBDD_TRANSFERMARK at hi1
  rw [← e, ← lo1] at hi1
  exact (Nat.xor_left_inj.1 hi1).symm

theorem node_at_var_lt {T : llmsset} {h v lo hi : Nat} (n : mtbdd_node_at T h v lo hi) :
    v < 2 ^ 32 :=
  lt_of_lt_of_le n.2.1 (by norm_num)

theorem node_at_not_terminal {T : llmsset} {h v lo hi : Nat} (n : mtbdd_node_at T h v lo hi)
    (ht : mtbdd_terminal T h) : False :=
  absurd (node_at_getnode n).1 (terminal_isleaf ht)

theorem node_at_fields {T : llmsset} {h v lo hi v2 lo2 hi2 : Nat}
    (n : mtbdd_node_at T h v lo hi) (n2 : mtbdd_node_at T h v2 lo2 hi2) :
    v = v2 ∧ lo = lo2 ∧ hi = hi2 := by
  obtain ⟨_, a1, a2, a3⟩ := node_at_getnode n
  obtain ⟨_, b1, b2, b3⟩ := node_at_getnode n2
  exact ⟨a1.symm.trans b1, a2.symm.trans b2, a3.symm.trans b3⟩

theorem diagram_ordered {T : llmsset} {d : Nat} (h : mtbdd_diagram T d) :
    ∀ k, (mtbdd_isleaf T d = 0 → k ≤ mtbdd_getvar T d) → mtbdd_ordered T k d := by
  induction h with
  | terminal h ht => intro k _; exact mtbdd_ordered.terminal k h ht
  | node h v lo hi hn _ _ o1 o2 ih1 ih2 =>
    intro k hk
    obtain ⟨a0, a1, _, _⟩ := node_at_getnode hn
    have hkv : k ≤ v := by
      have := hk a0
      rw [a1] at this
      exact this
    exact mtbdd_ordered.node k h v lo hi hn hkv (ih1 (v + 1) (fun hl => o1 hl))
      (ih2 (v + 1) (fun hl => o2 hl))

theorem ordered_total {T : llmsset} {k d : Nat} (h : mtbdd_ordered T k d) (ρ : Nat → Bool) :
    ∃ t, mtbdd_evaluates T ρ d t := by
  induction h with
  | terminal k h ht => exact ⟨h, evaluates_terminal ρ ht⟩
  | node k h v lo hi hn _ _ _ ih1 ih2 =>
    by_cases hv : ρ v = true
    · obtain ⟨t, ht⟩ := ih2
      exact ⟨t, evaluates_node hn (by rw [if_pos hv]; exact ht)⟩
    · obtain ⟨t, ht⟩ := ih1
      exact ⟨t, evaluates_node hn (by rw [if_neg hv]; exact ht)⟩

theorem ordered_independent {T : llmsset} {k d : Nat} (h : mtbdd_ordered T k d) :
    ∀ (ρ ρ2 : Nat → Bool) (t : Nat), (∀ x, k ≤ x → ρ x = ρ2 x) →
      mtbdd_evaluates T ρ d t → mtbdd_evaluates T ρ2 d t := by
  induction h with
  | terminal k h ht =>
    intro ρ ρ2 t _ he
    have := evaluates_unique he (evaluates_terminal ρ ht)
    rw [this]
    exact evaluates_terminal ρ2 ht
  | node k h v lo hi hn hkv _ _ ih1 ih2 =>
    intro ρ ρ2 t hag he
    obtain ⟨a0, a1, a2, a3⟩ := node_at_getnode hn
    have hv : ρ2 v = ρ v := (hag v hkv).symm
    have hag2 : ∀ x, v + 1 ≤ x → ρ x = ρ2 x := fun x hx => hag x (by omega)
    cases he with
    | leaf _ hl => exact absurd a0 hl
    | low _ _ _ hvar hrec =>
      rw [a1] at hvar
      rw [a2] at hrec
      exact evaluates_node hn (by
        rw [if_neg (by rw [hv, hvar]; simp)]
        exact ih1 ρ ρ2 t hag2 hrec)
    | high _ _ _ hvar hrec =>
      rw [a1] at hvar
      rw [a3] at hrec
      exact evaluates_node hn (by
        rw [if_pos (by rw [hv, hvar])]
        exact ih2 ρ ρ2 t hag2 hrec)

theorem cofactor_low {T : llmsset} {h v lo hi : Nat} (hn : mtbdd_node_at T h v lo hi)
    (ho : mtbdd_ordered T (v + 1) lo) (ρ : Nat → Bool) (t : Nat) :
    mtbdd_evaluates T ρ lo t ↔ mtbdd_evaluates T (Function.update ρ v false) h t := by
  have hag : ∀ x, v + 1 ≤ x → ρ x = Function.update ρ v false x := by
    intro x hx
    rw [Function.update_noteq (by omega)]
  have fwd : ∀ t, mtbdd_evaluates T ρ lo t →
      mtbdd_evaluates T (Function.update ρ v false) h t := by
    intro t he
    apply evaluates_node hn
    rw [if_neg (by simp)]
    exact ordered_independent ho _ _ t hag he
  refine ⟨fwd t, ?_⟩
  intro he
  obtain ⟨t2, ht2⟩ := ordered_total ho ρ
  rw [evaluates_unique he (fwd t2 ht2)]
  exact ht2

theorem cofactor_high {T : llmsset} {h v lo hi : Nat} (hn : mtbdd_node_at T h v lo hi)
    (ho : mtbdd_ordered T (v + 1) hi) (ρ : Nat → Bool) (t : Nat) :
    mtbdd_evaluates T ρ hi t ↔ mtbdd_evaluates T (Function.update ρ v true) h t := by
  have hag : ∀ x, v + 1 ≤ x → ρ x = Function.update ρ v true x := by
    intro x hx
    rw [Function.update_noteq (by omega)]
  have fwd : ∀ t, mtbdd_evaluates T ρ hi t →
      mtbdd_evaluates T (Function.update ρ v true) h t := by
    intro t he
    apply evaluates_node hn
    rw [if_pos (by simp)]
    exact ordered_independent ho _ _ t hag he
  refine ⟨fwd t, ?_⟩
  intro he
  obtain ⟨t2, ht2⟩ := ordered_total ho ρ
  rw [evaluates_unique he (fwd t2 ht2)]
  exact ht2

theorem terminals_equal {T : llmsset} {d1 d2 : Nat} (h1 : mtbdd_terminal T d1)
    (h2 : mtbdd_terminal T d2)
    (hs : ∀ ρ t, mtbdd_evaluates T ρ d1 t ↔ mtbdd_evaluates T ρ d2 t) : d1 = d2 :=
  evaluates_unique ((hs (fun _ => false) d1).1 (evaluates_terminal _ h1))
    (evaluates_terminal _ h2)

/-- A node whose children are told apart by evaluation depends on its
variable, so no diagram over larger variables evaluates as it does. -/
theorem node_depends {T : llmsset} {h v lo hi d2 : Nat} (hn : mtbdd_node_at T h v lo hi)
    (hlo : mtbdd_ordered T (v + 1) lo) (hhi : mtbdd_ordered T (v + 1) hi)
    (hd2 : mtbdd_ordered T (v + 1) d2)
    (hdiff : ¬ ∀ ρ t, mtbdd_evaluates T ρ lo t ↔ mtbdd_evaluates T ρ hi t)
    (hs : ∀ ρ t, mtbdd_evaluates T ρ h t ↔ mtbdd_evaluates T ρ d2 t) : False := by
  apply hdiff
  intro ρ t
  have hag : ∀ x, v + 1 ≤ x →
      Function.update ρ v false x = Function.update ρ v true x := by
    intro x hx
    rw [Function.update_noteq (by omega), Function.update_noteq (by omega)]
  have key : ∀ t, mtbdd_evaluates T (Function.update ρ v false) h t ↔
      mtbdd_evaluates T (Function.update ρ v true) h t := by
    intro t
    rw [hs, hs]
    exact ⟨ordered_independent hd2 _ _ t hag,
      ordered_independent hd2 _ _ t (fun x hx => (hag x hx).symm)⟩
  rw [cofactor_low hn hlo ρ t, cofactor_high hn hhi ρ t]
  exact key t

theorem ordered_canonical {T : llmsset} (hc : llmsset_canonical T) :
    ∀ (m k d1 d2 : Nat), 2 ^ 32 ≤ k + m → mtbdd_ordered T k d1 → mtbdd_ordered T k d2 →
      (∀ ρ t, mtbdd_evaluates T ρ d1 t ↔ mtbdd_evaluates T ρ d2 t) → d1 = d2 := by
  intro m
  induction m with
  | zero =>
    intro k d1 d2 hk o1 o2 hs
    cases o1 with
    | node _ _ v lo hi hn hv _ _ => have := node_at_var_lt hn; omega
    | terminal _ _ t1 =>
      cases o2 with
      | node _ _ v lo hi hn hv _ _ => have := node_at_var_lt hn; omega
      | terminal _ _ t2 => exact terminals_equal t1 t2 hs
  | succ m ih =>
    intro k d1 d2 hk o1 o2 hs
    have hs2 : ∀ ρ t, mtbdd_evaluates T ρ d2 t ↔ mtbdd_evaluates T ρ d1 t :=
      fun ρ t => (hs ρ t).symm
    have hdiff : ∀ {h v lo hi : Nat}, mtbdd_node_at T h v lo hi → k ≤ v →
        mtbdd_ordered T (v + 1) lo → mtbdd_ordered T (v + 1) hi →
        ¬ ∀ ρ t, mtbdd_evaluates T ρ lo t ↔ mtbdd_evaluates T ρ hi t := by
      intro h v lo hi hn hv a b hsame
      exact node_at_children_ne hc hn (ih (v + 1) lo hi (by omega) a b hsame)
    cases o1 with
    | terminal _ _ t1 =>
      cases o2 with
      | terminal _ _ t2 => exact terminals_equal t1 t2 hs
      | node _ _ v lo hi hn hv a b =>
        exact (node_depends hn a b (mtbdd_ordered.terminal _ _ t1) (hdiff hn hv a b) hs2).elim
    | node _ _ v1 lo1 hi1 hn1 hv1 a1 b1 =>
      cases o2 with
      | terminal _ _ t2 =>
        exact (node_depends hn1 a1 b1 (mtbdd_ordered.terminal _ _ t2)
          (hdiff hn1 hv1 a1 b1) hs).elim
      | node _ _ v2 lo2 hi2 hn2 hv2 a2 b2 =>
        rcases Nat.lt_trichotomy v1 v2 with hlt | heq | hgt
        · exact (node_depends hn1 a1 b1 (mtbdd_ordered.node _ _ v2 lo2 hi2 hn2 (by omega) a2 b2)
            (hdiff hn1 hv1 a1 b1) hs).elim
        · subst heq
          have elo : lo1 = lo2 := by
            apply ih (v1 + 1) lo1 lo2 (by omega) a1 a2
            intro ρ t
            rw [cofactor_low hn1 a1 ρ t, cofactor_low hn2 a2 ρ t]
            exact hs _ t
          have ehi : hi1 = hi2 := by
            apply ih (v1 + 1) hi1 hi2 (by omega) b1 b2
            intro ρ t
            rw [cofactor_high hn1 b1 ρ t, cofactor_high hn2 b2 ρ t]
            exact hs _ t
          subst elo ehi
          exact node_at_unique hc hn1 hn2
        · exact (node_depends hn2 a2 b2 (mtbdd_ordered.node _ _ v1 lo1 hi1 hn1 (by omega) a1 b1)
            (hdiff hn2 hv2 a2 b2) hs2).elim

/-! ## `mtbdd_union_cube`, branch by branch -/

theorem ucube_terminal (gc : List Nat → llmsset → llmsset) (fuel : Nat) (s : sylvan)
    (vars : Nat) (cube : List Nat) (t : Nat) :
    mtbdd_union_cube gc (fuel + 1) s t vars cube t = .ok (t, s) := by
  rw [mtbdd_union_cube]
  simp

theorem ucube_empty (gc : List Nat → llmsset → llmsset) (fuel : Nat) (s : sylvan)
    (vars : Nat) (cube : List Nat) {t : Nat} (ht : mtbdd_false ≠ t) :
    mtbdd_union_cube gc (fuel + 1) s mtbdd_false vars cube t =
      mtbdd_cube gc (fuel + 1) s vars cube t := by
  rw [mtbdd_union_cube]
  simp [ht]

theorem ucube_done (gc : List Nat → llmsset → llmsset) (fuel : Nat) (s : sylvan)
    {d : Nat} (cube : List Nat) {t : Nat} (hdt : d ≠ t) (hdf : d ≠ mtbdd_false) :
    mtbdd_union_cube gc (fuel + 1) s d mtbdd_true cube t = .ok (t, s) := by
  rw [mtbdd_union_cube]
  simp [hdt, hdf]

theorem ucube_below (gc : List Nat → llmsset → llmsset) (fuel : Nat) (s : sylvan)
    {d vars : Nat} (cube : List Nat) {t : Nat} (hdt : d ≠ t) (hdf : d ≠ mtbdd_false)
    (hvt : vars ≠ mtbdd_true)
    (hlt : mtbddnode_getvariable (GETNODE s.nodes d) <
      mtbddnode_getvariable (GETNODE s.nodes vars)) :
    mtbdd_union_cube gc (fuel + 1) s d vars cube t =
      match mtbdd_union_cube gc fuel s (node_getlow d (GETNODE s.nodes d)) vars cube t with
      | .error e => .error e
      | .ok (new_low, s1) =>
        match mtbdd_union_cube gc fuel (mtbdd_refs_push s1 new_low)
            (node_gethigh d (GETNODE s.nodes d)) vars cube t with
        | .error e => .error e
        | .ok (new_high, s2) =>
          if new_low ≠ node_getlow d (GETNODE s.nodes d) ∨
              new_high ≠ node_gethigh d (GETNODE s.nodes d) then
            mtbdd_makenode gc (mtbdd_refs_pop s2 1)
              (mtbddnode_getvariable (GETNODE s.nodes d)) new_low new_high
          else .ok (d, mtbdd_refs_pop s2 1) := by
  rw [mtbdd_union_cube]
  simp only [if_neg hdt, if_neg hdf, if_neg hvt, if_pos hlt]

theorem ucube_at0 (gc : List Nat → llmsset → llmsset) (fuel : Nat) (s : sylvan)
    {d vars : Nat} (p : List Nat) {t : Nat} (hdt : d ≠ t) (hdf : d ≠ mtbdd_false)
    (hvt : vars ≠ mtbdd_true)
    (heq : mtbddnode_getvariable (GETNODE s.nodes d) =
      mtbddnode_getvariable (GETNODE s.nodes vars)) :
    mtbdd_union_cube gc (fuel + 1) s d vars (0 :: p) t =
      match mtbdd_union_cube gc fuel s (node_getlow d (GETNODE s.nodes d))
          (node_gethigh vars (GETNODE s.nodes vars)) p t with
      | .error e => .error e
      | .ok (new_low, s1) =>
        if new_low ≠ node_getlow d (GETNODE s.nodes d) then
          mtbdd_makenode gc s1 (mtbddnode_getvariable (GETNODE s.nodes vars)) new_low
            (node_gethigh d (GETNODE s.nodes d))
        else .ok (d, s1) := by
  rw [mtbdd_union_cube]
  simp [hdt, hdf, hvt, heq]

theorem ucube_at1 (gc : List Nat → llmsset → llmsset) (fuel : Nat) (s : sylvan)
    {d vars : Nat} (p : List Nat) {t : Nat} (hdt : d ≠ t) (hdf : d ≠ mtbdd_false)
    (hvt : vars ≠ mtbdd_true)
    (heq : mtbddnode_getvariable (GETNODE s.nodes d) =
      mtbddnode_getvariable (GETNODE s.nodes vars)) :
    mtbdd_union_cube gc (fuel + 1) s d vars (1 :: p) t =
      match mtbdd_union_cube gc fuel s (node_gethigh d (GETNODE s.nodes d))
          (node_gethigh vars (GETNODE s.nodes vars)) p t with
      | .error e => .error e
      | .ok (new_high, s1) =>
        if new_high ≠ node_gethigh d (GETNODE s.nodes d) then
          mtbdd_makenode gc s1 (mtbddnode_getvariable (GETNODE s.nodes vars))
            (node_getlow d (GETNODE s.nodes d)) new_high
        else .ok (d, s1) := by
  rw [mtbdd_union_cube]
  simp [hdt, hdf, hvt, heq]

theorem ucube_at2 (gc : List Nat → llmsset → llmsset) (fuel : Nat) (s : sylvan)
    {d vars : Nat} (p : List Nat) {t : Nat} (hdt : d ≠ t) (hdf : d ≠ mtbdd_false)
    (hvt : vars ≠ mtbdd_true)
    (heq : mtbddnode_getvariable (GETNODE s.nodes d) =
      mtbddnode_getvariable (GETNODE s.nodes vars)) :
    mtbdd_union_cube gc (fuel + 1) s d vars (2 :: p) t =
      match mtbdd_union_cube gc fuel s (node_getlow d (GETNODE s.nodes d))
          (node_gethigh vars (GETNODE s.nodes vars)) p t with
      | .error e => .error e
      | .ok (new_low, s1) =>
        match mtbdd_union_cube gc fuel (mtbdd_refs_push s1 new_low)
            (node_gethigh d (GETNODE s.nodes d))
            (node_gethigh vars (GETNODE s.nodes vars)) p t with
        | .error e => .error e
        | .ok (new_high, s2) =>
          if new_low ≠ node_getlow d (GETNODE s.nodes d) ∨
              new_high ≠ node_gethigh d (GETNODE s.nodes d) then
            mtbdd_makenode gc (mtbdd_refs_pop s2 1)
              (mtbddnode_getvariable (GETNODE s.nodes vars)) new_low new_high
          else .ok (d, mtbdd_refs_pop s2 1) := by
  rw [mtbdd_union_cube]
  simp [hdt, hdf, hvt, heq]

theorem ucube_above2 (gc : List Nat → llmsset → llmsset) (fuel : Nat) (s : sylvan)
    {d vars : Nat} (p : List Nat) {t : Nat} (hdt : d ≠ t) (hdf : d ≠ mtbdd_false)
    (hvt : vars ≠ mtbdd_true)
    (hgt : mtbddnode_getvariable (GETNODE s.nodes vars) <
      mtbddnode_getvariable (GETNODE s.nodes d)) :
    mtbdd_union_cube gc (fuel + 1) s d vars (2 :: p) t =
      match mtbdd_union_cube gc fuel s d (node_gethigh vars (GETNODE s.nodes vars)) p t with
      | .error e => .error e
      | .ok (new_low, s1) =>
        match mtbdd_union_cube gc fuel (mtbdd_refs_push s1 new_low) d
            (node_gethigh vars (GETNODE s.nodes vars)) p t with
        | .error e => .error e
        | .ok (new_high, s2) =>
          mtbdd_makenode gc (mtbdd_refs_pop s2 1)
            (mtbddnode_getvariable (GETNODE s.nodes vars)) new_low new_high := by
  rw [mtbdd_union_cube]
  have h1 : ¬ mtbddnode_getvariable (GETNODE s.nodes d) <
      mtbddnode_getvariable (GETNODE s.nodes vars) := by omega
  have h2 : ¬ mtbddnode_getvariable (GETNODE s.nodes d) =
      mtbddnode_getvariable (GETNODE s.nodes vars) := by omega
  simp [hdt, hdf, hvt, h1, h2]

/-- When the collector reclaims nothing, a returning `mtbdd_makenode` keeps
the table and the in-flight stack, and its result is the common child or a
node that decodes to the arguments. -/
theorem makenode_keep {gc : List Nat → llmsset → llmsset} (hgc : gc_keeps_nodes gc)
    {s s2 : sylvan} {v lo hi h : Nat} (hsize : s.nodes.length ≤ 2 ^ 40) (hv : v < 2 ^ 24)
    (hlo : mtbdd_wellformed lo) (hhi : mtbdd_wellformed hi)
    (hr : mtbdd_makenode gc s v lo hi = .ok (h, s2)) :
    llmsset_le s.nodes s2.nodes ∧ s2.results = s.results ∧ mtbdd_wellformed h ∧
      ((lo = hi ∧ h = lo) ∨ mtbdd_node_at s2.nodes h v lo hi) := by
  by_cases hne : lo = hi
  · subst hne
    rw [makenode_same] at hr
    injection hr with hr
    obtain ⟨rfl, rfl⟩ := Prod.mk.inj hr
    exact ⟨table_le_refl _, rfl, hlo, Or.inl ⟨rfl, rfl⟩⟩
  · obtain ⟨i, hi0, hh, hold, _⟩ := makenode_ok hne hr
    have hle : llmsset_le s.nodes s2.nodes ∧ s2.results = s.results := by
      rw [makenode_eq gc s v hne] at hr
      simp only at hr
      split at hr
      · split at hr
        · cases hr
        · injection hr with hr
          rw [← (Prod.mk.inj hr).2]
          refine ⟨table_le_trans (lookup_le _ _ _) (table_le_trans (hgc _ _) (lookup_le _ _ _)),
            ?_⟩
          show (s.results ++ [makenode_low lo] ++ [makenode_high lo hi]).take
            ((s.results ++ [makenode_low lo] ++ [makenode_high lo hi]).length - 2) = s.results
          simp
      · injection hr with hr
        rw [← (Prod.mk.inj hr).2]
        exact ⟨lookup_le _ _ _, rfl⟩
    have hi40 : i < 2 ^ 40 := by
      have := holds_lt_length hold
      rw [hle.1.1] at this
      omega
    refine ⟨hle.1, hle.2, ?_, Or.inr ?_⟩
    · rw [hh]; exact makenode_handle_wellformed lo hi40
    · rw [hh]
      refine ⟨makenode_handle_wellformed lo hi40, hv,
        mtbddnode_makenode v (makenode_low lo) (makenode_high lo hi), ?_, ?_, ?_, ?_, ?_⟩
      · rw [makenode_handle_index lo hi40]
        exact hold
      · exact makenode_not_leaf _ _ (makenode_high_wellformed lo hhi)
      · exact decode_variable hv (makenode_low_lt40 hlo) _
      · exact decode_low v hlo hi40
      · exact decode_high v hhi hi40

theorem node_at_ne_false {T : llmsset} {h v lo hi : Nat} (hn : mtbdd_node_at T h v lo hi) :
    h ≠ mtbdd_false := by
  intro hc
  obtain ⟨_, _, n, hh, _⟩ := hn
  rw [hc] at hh
  exact absurd hh.1 (by decide)

theorem node_at_ne_terminal {T : llmsset} {h v lo hi t : Nat}
    (hn : mtbdd_node_at T h v lo hi) (ht : mtbdd_terminal T t) : h ≠ t := by
  intro hc
  rw [hc] at hn
  exact node_at_not_terminal hn ht

theorem node_at_read {T T2 : llmsset} {h v lo hi : Nat} (hn : mtbdd_node_at T h v lo hi)
    (hle : llmsset_le T T2) :
    mtbddnode_getvariable (GETNODE T2 h) = v ∧ node_getlow h (GETNODE T2 h) = lo ∧
      node_gethigh h (GETNODE T2 h) = hi := by
  obtain ⟨_, a1, a2, a3⟩ := node_at_getnode (node_at_le hn hle)
  exact ⟨a1, a2, a3⟩

theorem varcube_read {T T2 : llmsset} {vars v : Nat} {vs : List Nat}
    (h : mtbdd_varcube T vars (v :: vs)) (hle : llmsset_le T T2) :
    vars ≠ mtbdd_true ∧ v < 2 ^ 24 ∧ mtbddnode_getvariable (GETNODE T2 vars) = v ∧
      mtbdd_varcube T2 (node_gethigh vars (GETNODE T2 vars)) vs := by
  obtain ⟨h0, h1, n, h2, h3, h4⟩ := varcube_cons h
  have := h4 T2 hle
  rw [this]
  exact ⟨h0, h1, h2, varcube_le hle _ _ h3⟩

/-- The cube built by `mtbdd_cube` from bytes 0, 1, 2 over ascending
variables is a terminal or a node over the cube variables, and adding the
same cube to it returns it and leaves the state as it is. -/
theorem cube_then_union {gc : List Nat → llmsset → llmsset} (hgc : gc_keeps_nodes gc)
    {t : Nat} (htf : mtbdd_false ≠ t) :
    ∀ (fuel : Nat) (s : sylvan) (k vars : Nat) (vs p : List Nat) (c : Nat) (s1 : sylvan),
      s.nodes.length ≤ 2 ^ 40 → mtbdd_terminal s.nodes t → mtbdd_varcube s.nodes vars vs →
      cube_plain k vs p → mtbdd_cube gc fuel s vars p t = .ok (c, s1) →
      llmsset_le s.nodes s1.nodes ∧ s1.results = s.results ∧ mtbdd_wellformed c ∧
        c ≠ mtbdd_false ∧
        (c = t ∨ ∃ w lo hi, mtbdd_node_at s1.nodes c w lo hi ∧ k ≤ w) ∧
        ∀ (s2 : sylvan) (fuel2 : Nat), llmsset_le s1.nodes s2.nodes → fuel ≤ fuel2 →
          mtbdd_union_cube gc fuel2 s2 c vars p t = .ok (c, s2) := by
  intro fuel
  induction fuel with
  | zero => intro s k vars vs p c s1 _ _ _ _ hr; simp [mtbdd_cube] at hr
  | succ fuel ih =>
    intro s k vars vs p c s1 hsize ht hvc hpl hr
    cases vs with
    | nil =>
      have hv : vars = mtbdd_true := hvc
      rw [mtbdd_cube] at hr
      simp only [hv, if_true] at hr
      injection hr with hr
      obtain ⟨rfl, rfl⟩ := Prod.mk.inj hr
      refine ⟨table_le_refl _, rfl, ht.1, fun h => htf h.symm, Or.inl rfl, ?_⟩
      intro s2 fuel2 _ hf
      obtain ⟨f2, rfl⟩ : ∃ f2, fuel2 = f2 + 1 := ⟨fuel2 - 1, by omega⟩
      exact ucube_terminal gc f2 s2 _ _ _
    | cons v vs1 =>
      cases p with
      | nil => exact absurd hpl (by simp [cube_plain])
      | cons c0 p1 =>
        obtain ⟨hkv, hc0, hpl1⟩ : k ≤ v ∧ c0 ≤ 2 ∧ cube_plain (v + 1) vs1 p1 := hpl
        obtain ⟨hne, hv24, n, hvar, hrest, hget⟩ := varcube_cons hvc
        have hg0 := hget _ (table_le_refl _)
        have hc : c0 = 0 ∨ c0 = 1 ∨ c0 = 2 := by omega
        rcases hc with rfl | rfl | rfl
        · rw [cube_step0 gc fuel s p1 t hne, hg0] at hr
          split at hr
          · cases hr
          · rename_i res sa hrec
            obtain ⟨e1, e2, e3, e4, _, e6⟩ :=
              ih s (v + 1) _ vs1 p1 res sa hsize ht hrest hpl1 hrec
            rw [hget _ e1, hvar] at hr
            have hsa : sa.nodes.length ≤ 2 ^ 40 := by rw [e1.1]; exact hsize
            obtain ⟨f1, f2, f3, f4⟩ := makenode_keep hgc hsa hv24 e3 (by decide) hr
            have hnode : mtbdd_node_at s1.nodes c v res mtbdd_false := by
              rcases f4 with ⟨f4, _⟩ | f4
              · exact absurd f4 e4
              · exact f4
            refine ⟨table_le_trans e1 f1, f2.trans e2, f3, node_at_ne_false hnode,
              Or.inr ⟨v, res, mtbdd_false, hnode, hkv⟩, ?_⟩
            intro s2 fuel2 hle hf
            obtain ⟨f2, rfl⟩ : ∃ f2, fuel2 = f2 + 1 := ⟨fuel2 - 1, by omega⟩
            have hct : c ≠ t :=
              node_at_ne_terminal hnode (terminal_le ht (table_le_trans e1 f1))
            obtain ⟨r1, r2, r3⟩ := node_at_read hnode hle
            have hgv := hget _ (table_le_trans e1 (table_le_trans f1 hle))
            rw [ucube_at0 gc f2 s2 p1 hct (node_at_ne_false hnode) hne
              (by rw [r1, hgv, hvar]), r2, hgv, e6 s2 f2 (table_le_trans f1 hle) (by omega)]
            simp
        · rw [cube_step1 gc fuel s p1 t hne, hg0] at hr
          split at hr
          · cases hr
          · rename_i res sa hrec
            obtain ⟨e1, e2, e3, e4, _, e6⟩ :=
              ih s (v + 1) _ vs1 p1 res sa hsize ht hrest hpl1 hrec
            rw [hget _ e1, hvar] at hr
            have hsa : sa.nodes.length ≤ 2 ^ 40 := by rw [e1.1]; exact hsize
            obtain ⟨f1, f2, f3, f4⟩ := makenode_keep hgc hsa hv24 (by decide) e3 hr
            have hnode : mtbdd_node_at s1.nodes c v mtbdd_false res := by
              rcases f4 with ⟨f4, _⟩ | f4
              · exact absurd f4.symm e4
              · exact f4
            refine ⟨table_le_trans e1 f1, f2.trans e2, f3, node_at_ne_false hnode,
              Or.inr ⟨v, mtbdd_false, res, hnode, hkv⟩, ?_⟩
            intro s2 fuel2 hle hf
            obtain ⟨f2, rfl⟩ : ∃ f2, fuel2 = f2 + 1 := ⟨fuel2 - 1, by omega⟩
            have hct : c ≠ t :=
              node_at_ne_terminal hnode (terminal_le ht (table_le_trans e1 f1))
            obtain ⟨r1, r2, r3⟩ := node_at_read hnode hle
            have hgv := hget _ (table_le_trans e1 (table_le_trans f1 hle))
            rw [ucube_at1 gc f2 s2 p1 hct (node_at_ne_false hnode) hne
              (by rw [r1, hgv, hvar]), r3, hgv, e6 s2 f2 (table_le_trans f1 hle) (by omega)]
            simp
        · rw [cube_step2 gc fuel s p1 t hne, hg0] at hr
          obtain ⟨e1, e2, e3, e4, e5, e6⟩ :=
            ih s (v + 1) _ vs1 p1 c s1 hsize ht hrest hpl1 hr
          refine ⟨e1, e2, e3, e4, ?_, ?_⟩
          · rcases e5 with e5 | ⟨w, lo, hi, hn, hw⟩
            · exact Or.inl e5
            · exact Or.inr ⟨w, lo, hi, hn, by omega⟩
          · intro s2 fuel2 hle hf
            obtain ⟨f2, rfl⟩ : ∃ f2, fuel2 = f2 + 1 := ⟨fuel2 - 1, by omega⟩
            rcases e5 with e5 | ⟨w, lo, hi, hn, hw⟩
            · rw [e5]
              exact ucube_terminal gc f2 s2 _ _ _
            · have hct : c ≠ t := node_at_ne_terminal hn (terminal_le ht e1)
              obtain ⟨r1, _, _⟩ := node_at_read hn hle
              have hgv := hget _ (table_le_trans e1 hle)
              rw [ucube_above2 gc f2 s2 p1 hct (node_at_ne_false hn) hne
                (by rw [r1, hgv, hvar]; omega), hgv, e6 s2 f2 hle (by omega)]
              simp only
              rw [e6 (mtbdd_refs_push s2 c) f2 hle (by omega)]
              simp only
              rw [makenode_same, refs_pop_push]

theorem covers_le {T T2 : llmsset} {t k d : Nat} {vs p : List Nat}
    (h : union_cube_covers T t k d vs p) (hle : llmsset_le T T2) :
    union_cube_covers T2 t k d vs p := by
  induction h with
  | terminal k vs p => exact union_cube_covers.terminal k vs p
  | empty k vs p hp => exact union_cube_covers.empty k vs p hp
  | done k d p => exact union_cube_covers.done k d p
  | under k d va lo hi v vs p hn h1 h2 _ _ ih1 ih2 =>
    exact union_cube_covers.under k d va lo hi v vs p (node_at_le hn hle) h1 h2 ih1 ih2
  | at0 k d v lo hi vs p hn h1 h2 _ ih =>
    exact union_cube_covers.at0 k d v lo hi vs p (node_at_le hn hle) h1 h2 ih
  | at1 k d v lo hi vs p hn h1 h2 _ ih =>
    exact union_cube_covers.at1 k d v lo hi vs p (node_at_le hn hle) h1 h2 ih
  | at2 k d v lo hi vs p hn h1 _ _ ih1 ih2 =>
    exact union_cube_covers.at2 k d v lo hi vs p (node_at_le hn hle) h1 ih1 ih2
  | over2 k d va lo hi v vs p hn h1 h2 _ ih =>
    exact union_cube_covers.over2 k d va lo hi v vs p (node_at_le hn hle) h1 h2 ih

/-- The end of a branch of `mtbdd_union_cube`: the node is rebuilt when a
child changed, and otherwise the diagram is returned; either way the result
is the common child or a node over the new children. -/
theorem rebuild_shape {gc : List Nat → llmsset → llmsset} (hgc : gc_keeps_nodes gc)
    (s3 : sylvan) {s1 : sylvan} {T : llmsset} {d v lo hi nl nh r : Nat} (cond : Prop) [Decidable cond]
    (hcond : ¬ cond → nl = lo ∧ nh = hi) (hn : mtbdd_node_at T d v lo hi)
    (hT : llmsset_le T s3.nodes) (hsize : s3.nodes.length ≤ 2 ^ 40)
    (hnl : mtbdd_wellformed nl) (hnh : mtbdd_wellformed nh)
    (hr : (if cond then mtbdd_makenode gc s3 v nl nh else .ok (d, s3)) = .ok (r, s1)) :
    llmsset_le s3.nodes s1.nodes ∧ s1.results = s3.results ∧ mtbdd_wellformed r ∧
      ((nl = nh ∧ r = nl) ∨ mtbdd_node_at s1.nodes r v nl nh) := by
  by_cases hc : cond
  · rw [if_pos hc] at hr
    exact makenode_keep hgc hsize hn.2.1 hnl hnh hr
  · rw [if_neg hc] at hr
    injection hr with hr
    obtain ⟨rfl, rfl⟩ := Prod.mk.inj hr
    obtain ⟨rfl, rfl⟩ := hcond hc
    exact ⟨table_le_refl _, rfl, hn.1, Or.inr (node_at_le hn hT)⟩

theorem fixed_mono {gc : List Nat → llmsset → llmsset} {t : Nat} {T T2 : llmsset}
    {fuel fuel2 r vars : Nat} {vs p : List Nat}
    (h : union_cube_fixed gc t T fuel r vars vs p) (hle : llmsset_le T T2)
    (hf : fuel ≤ fuel2) : union_cube_fixed gc t T2 fuel2 r vars vs p :=
  fun s2 f k2 h1 h2 h3 => h s2 f k2 (table_le_trans hle h1) (by omega) h3

theorem fixed_terminal (gc : List Nat → llmsset → llmsset) (t : Nat) (T : llmsset)
    (fuel vars : Nat) (vs p : List Nat) : union_cube_fixed gc t T (fuel + 1) t vars vs p := by
  intro s2 fuel2 k2 _ hf _
  obtain ⟨f2, rfl⟩ : ∃ f2, fuel2 = f2 + 1 := ⟨fuel2 - 1, by omega⟩
  exact ucube_terminal gc f2 s2 _ _ _

theorem fixed_under {gc : List Nat → llmsset → llmsset} {t : Nat} {T : llmsset}
    {fuel r vars va nl nh v : Nat} {vs1 p : List Nat} (ht : mtbdd_terminal T t)
    (hvc : mtbdd_varcube T vars (v :: vs1)) (hn : mtbdd_node_at T r va nl nh) (hlt : va < v)
    (f1 : union_cube_fixed gc t T fuel nl vars (v :: vs1) p)
    (f2 : union_cube_fixed gc t T fuel nh vars (v :: vs1) p) :
    union_cube_fixed gc t T (fuel + 1) r vars (v :: vs1) p := by
  intro s2 fuel2 k2 hle hf hcov
  obtain ⟨g, rfl⟩ : ∃ g, fuel2 = g + 1 := ⟨fuel2 - 1, by omega⟩
  have hrt : r ≠ t := node_at_ne_terminal hn ht
  have hrf : r ≠ mtbdd_false := node_at_ne_false hn
  have hn2 := node_at_le hn hle
  obtain ⟨r1, r2, r3⟩ := node_at_read hn hle
  obtain ⟨hne, _, hvar, _⟩ := varcube_read hvc hle
  have hsub : union_cube_covers s2.nodes t (va + 1) nl (v :: vs1) p ∧
      union_cube_covers s2.nodes t (va + 1) nh (v :: vs1) p := by
    cases hcov with
    | terminal _ _ _ => exact absurd rfl hrt
    | empty _ _ _ _ => exact absurd rfl hrf
    | under _ _ va2 lo2 hi2 _ _ _ hm _ _ c1 c2 =>
      obtain ⟨e1, e2, e3⟩ := node_at_fields hn2 hm
      subst e1 e2 e3
      exact ⟨c1, c2⟩
    | at0 _ _ _ lo2 hi2 _ _ hm _ _ _ =>
      obtain ⟨e1, _, _⟩ := node_at_fields hn2 hm
      omega
    | at1 _ _ _ lo2 hi2 _ _ hm _ _ _ =>
      obtain ⟨e1, _, _⟩ := node_at_fields hn2 hm
      omega
    | at2 _ _ _ lo2 hi2 _ _ hm _ _ _ =>
      obtain ⟨e1, _, _⟩ := node_at_fields hn2 hm
      omega
    | over2 _ _ va2 lo2 hi2 _ _ _ hm _ _ _ =>
      obtain ⟨e1, _, _⟩ := node_at_fields hn2 hm
      omega
  rw [ucube_below gc g s2 _ hrt hrf hne (by rw [r1, hvar]; exact hlt), r2, r3,
    f1 s2 g _ hle (by omega) hsub.1]
  simp only
  rw [f2 (mtbdd_refs_push s2 nl) g _ hle (by omega) hsub.2]
  simp [refs_pop_push]

theorem fixed_at0 {gc : List Nat → llmsset → llmsset} {t : Nat} {T : llmsset}
    {fuel r vars nl hi v : Nat} {vs1 p1 : List Nat} {n : mtbddnode}
    (ht : mtbdd_terminal T t) (hne : vars ≠ mtbdd_true)
    (hvar : mtbddnode_getvariable n = v) (hget : ∀ T2, llmsset_le T T2 → GETNODE T2 vars = n)
    (hn : mtbdd_node_at T r v nl hi)
    (f1 : union_cube_fixed gc t T fuel nl (node_gethigh vars n) vs1 p1) :
    union_cube_fixed gc t T (fuel + 1) r vars (v :: vs1) (0 :: p1) := by
  intro s2 fuel2 k2 hle hf hcov
  obtain ⟨g, rfl⟩ : ∃ g, fuel2 = g + 1 := ⟨fuel2 - 1, by omega⟩
  have hrt : r ≠ t := node_at_ne_terminal hn ht
  have hrf : r ≠ mtbdd_false := node_at_ne_false hn
  have hn2 := node_at_le hn hle
  obtain ⟨r1, r2, r3⟩ := node_at_read hn hle
  have hgv := hget _ hle
  have hsub : union_cube_covers s2.nodes t (v + 1) nl vs1 p1 := by
    cases hcov with
    | terminal _ _ _ => exact absurd rfl hrt
    | empty _ _ _ _ => exact absurd rfl hrf
    | under _ _ va2 lo2 hi2 _ _ _ hm _ _ c1 c2 =>
      obtain ⟨e1, _, _⟩ := node_at_fields hn2 hm
      omega
    | at0 _ _ _ lo2 hi2 _ _ hm _ _ c1 =>
      obtain ⟨_, e2, _⟩ := node_at_fields hn2 hm
      subst e2
      exact c1
  rw [ucube_at0 gc g s2 p1 hrt hrf hne (by rw [r1, hgv, hvar]), r2, hgv,
    f1 s2 g _ hle (by omega) hsub]
  simp

theorem fixed_at1 {gc : List Nat → llmsset → llmsset} {t : Nat} {T : llmsset}
    {fuel r vars lo nh v : Nat} {vs1 p1 : List Nat} {n : mtbddnode}
    (ht : mtbdd_terminal T t) (hne : vars ≠ mtbdd_true)
    (hvar : mtbddnode_getvariable n = v) (hget : ∀ T2, llmsset_le T T2 → GETNODE T2 vars = n)
    (hn : mtbdd_node_at T r v lo nh)
    (f1 : union_cube_fixed gc t T fuel nh (node_gethigh vars n) vs1 p1) :
    union_cube_fixed gc t T (fuel + 1) r vars (v :: vs1) (1 :: p1) := by
  intro s2 fuel2 k2 hle hf hcov
  obtain ⟨g, rfl⟩ : ∃ g, fuel2 = g + 1 := ⟨fuel2 - 1, by omega⟩
  have hrt : r ≠ t := node_at_ne_terminal hn ht
  have hrf : r ≠ mtbdd_false := node_at_ne_false hn
  have hn2 := node_at_le hn hle
  obtain ⟨r1, r2, r3⟩ := node_at_read hn hle
  have hgv := hget _ hle
  have hsub : union_cube_covers s2.nodes t (v + 1) nh vs1 p1 := by
    cases hcov with
    | terminal _ _ _ => exact absurd rfl hrt
    | empty _ _ _ _ => exact absurd rfl hrf
    | under _ _ va2 lo2 hi2 _ _ _ hm _ _ c1 c2 =>
      obtain ⟨e1, _, _⟩ := node_at_fields hn2 hm
      omega
    | at1 _ _ _ lo2 hi2 _ _ hm _ _ c1 =>
      obtain ⟨_, _, e3⟩ := node_at_fields hn2 hm
      subst e3
      exact c1
  rw [ucube_at1 gc g s2 p1 hrt hrf hne (by rw [r1, hgv, hvar]), r3, hgv,
    f1 s2 g _ hle (by omega) hsub]
  simp

theorem fixed_at2 {gc : List Nat → llmsset → llmsset} {t : Nat} {T : llmsset}
    {fuel r vars nl nh v : Nat} {vs1 p1 : List Nat} {n : mtbddnode}
    (ht : mtbdd_terminal T t) (hne : vars ≠ mtbdd_true)
    (hvar : mtbddnode_getvariable n = v) (hget : ∀ T2, llmsset_le T T2 → GETNODE T2 vars = n)
    (hn : mtbdd_node_at T r v nl nh)
    (f1 : union_cube_fixed gc t T fuel nl (node_gethigh vars n) vs1 p1)
    (f2 : union_cube_fixed gc t T fuel nh (node_gethigh vars n) vs1 p1) :
    union_cube_fixed gc t T (fuel + 1) r vars (v :: vs1) (2 :: p1) := by
  intro s2 fuel2 k2 hle hf hcov
  obtain ⟨g, rfl⟩ : ∃ g, fuel2 = g + 1 := ⟨fuel2 - 1, by omega⟩
  have hrt : r ≠ t := node_at_ne_terminal hn ht
  have hrf : r ≠ mtbdd_false := node_at_ne_false hn
  have hn2 := node_at_le hn hle
  obtain ⟨r1, r2, r3⟩ := node_at_read hn hle
  have hgv := hget _ hle
  have hsub : union_cube_covers s2.nodes t (v + 1) nl vs1 p1 ∧
      union_cube_covers s2.nodes t (v + 1) nh vs1 p1 := by
    cases hcov with
    | terminal _ _ _ => exact absurd rfl hrt
    | empty _ _ _ _ => exact absurd rfl hrf
    | under _ _ va2 lo2 hi2 _ _ _ hm _ _ c1 c2 =>
      obtain ⟨e1, _, _⟩ := node_at_fields hn2 hm
      omega
    | at2 _ _ _ lo2 hi2 _ _ hm _ c1 c2 =>
      obtain ⟨_, e2, e3⟩ := node_at_fields hn2 hm
      subst e2 e3
      exact ⟨c1, c2⟩
    | over2 _ _ va2 lo2 hi2 _ _ _ hm _ _ _ =>
      obtain ⟨e1, _, _⟩ := node_at_fields hn2 hm
      omega
  rw [ucube_at2 gc g s2 p1 hrt hrf hne (by rw [r1, hgv, hvar]), r2, r3, hgv,
    f1 s2 g _ hle (by omega) hsub.1]
  simp only
  rw [f2 (mtbdd_refs_push s2 nl) g _ hle (by omega) hsub.2]
  simp [refs_pop_push]

/-- A result over larger variables than the cube variable `v`, met again
with byte 0 or 1 for `v`: the supported recursion leaves only the terminal. -/
theorem fixed_collapsed01 {gc : List Nat → llmsset → llmsset} {t : Nat} {T : llmsset}
    {fuel r vars v c : Nat} {vs1 p1 : List Nat} (hc : c = 0 ∨ c = 1)
    (hshape : r = t ∨ ∃ w lo hi, mtbdd_node_at T r w lo hi ∧ v + 1 ≤ w) :
    union_cube_fixed gc t T (fuel + 1) r vars (v :: vs1) (c :: p1) := by
  rcases hshape with rfl | ⟨w, lo, hi, hn, hw⟩
  · exact fixed_terminal gc _ T fuel vars _ _
  · intro s2 fuel2 k2 hle hf hcov
    obtain ⟨g, rfl⟩ : ∃ g, fuel2 = g + 1 := ⟨fuel2 - 1, by omega⟩
    have hrf : r ≠ mtbdd_false := node_at_ne_false hn
    have hn2 := node_at_le hn hle
    cases hcov with
    | terminal _ _ _ => exact ucube_terminal gc g s2 _ _ _
    | empty _ _ _ _ => exact absurd rfl hrf
    | under _ _ va2 lo2 hi2 _ _ _ hm _ h2 _ _ =>
      obtain ⟨e1, _, _⟩ := node_at_fields hn2 hm
      omega
    | at0 _ _ _ lo2 hi2 _ _ hm _ _ _ =>
      obtain ⟨e1, _, _⟩ := node_at_fields hn2 hm
      omega
    | at1 _ _ _ lo2 hi2 _ _ hm _ _ _ =>
      obtain ⟨e1, _, _⟩ := node_at_fields hn2 hm
      omega
    | at2 _ _ _ lo2 hi2 _ _ hm _ _ _ => omega
    | over2 _ _ va2 lo2 hi2 _ _ _ hm _ _ _ => omega

/-- A result over larger variables than the cube variable `v`, met again
with byte 2 for `v`: both recursive calls return it and the node collapses. -/
theorem fixed_collapsed2 {gc : List Nat → llmsset → llmsset} {t : Nat} {T : llmsset}
    {fuel r vars v : Nat} {vs1 p1 : List Nat} {n : mtbddnode}
    (ht : mtbdd_terminal T t) (hne : vars ≠ mtbdd_true)
    (hvar : mtbddnode_getvariable n = v) (hget : ∀ T2, llmsset_le T T2 → GETNODE T2 vars = n)
    (hshape : r = t ∨ ∃ w lo hi, mtbdd_node_at T r w lo hi ∧ v + 1 ≤ w)
    (f1 : union_cube_fixed gc t T fuel r (node_gethigh vars n) vs1 p1) :
    union_cube_fixed gc t T (fuel + 1) r vars (v :: vs1) (2 :: p1) := by
  rcases hshape with rfl | ⟨w, lo, hi, hn, hw⟩
  · exact fixed_terminal gc _ T fuel vars _ _
  · intro s2 fuel2 k2 hle hf hcov
    obtain ⟨g, rfl⟩ : ∃ g, fuel2 = g + 1 := ⟨fuel2 - 1, by omega⟩
    have hrt : r ≠ t := node_at_ne_terminal hn ht
    have hrf : r ≠ mtbdd_false := node_at_ne_false hn
    have hn2 := node_at_le hn hle
    obtain ⟨r1, _, _⟩ := node_at_read hn hle
    have hgv := hget _ hle
    have hsub : union_cube_covers s2.nodes t (v + 1) r vs1 p1 := by
      cases hcov with
      | terminal _ _ _ => exact absurd rfl hrt
      | empty _ _ _ _ => exact absurd rfl hrf
      | under _ _ va2 lo2 hi2 _ _ _ hm _ h2 _ _ =>
        obtain ⟨e1, _, _⟩ := node_at_fields hn2 hm
        omega
      | at2 _ _ _ lo2 hi2 _ _ hm _ _ _ =>
        obtain ⟨e1, _, _⟩ := node_at_fields hn2 hm
        omega
      | over2 _ _ va2 lo2 hi2 _ _ _ hm _ _ c1 => exact c1
    rw [ucube_above2 gc g s2 p1 hrt hrf hne (by rw [r1, hgv, hvar]; omega), hgv,
      f1 s2 g _ hle (by omega) hsub]
    simp only
    rw [f1 (mtbdd_refs_push s2 r) g _ hle (by omega) hsub]
    simp only
    rw [makenode_same, refs_pop_push]

theorem shape_le {T T2 : llmsset} {t r k k2 : Nat}
    (h : r = t ∨ ∃ w lo hi, mtbdd_node_at T r w lo hi ∧ k ≤ w) (hle : llmsset_le T T2)
    (hk : k2 ≤ k) : r = t ∨ ∃ w lo hi, mtbdd_node_at T2 r w lo hi ∧ k2 ≤ w := by
  rcases h with h | ⟨w, lo, hi, hn, hw⟩
  · exact Or.inl h
  · exact Or.inr ⟨w, lo, hi, node_at_le hn hle, by omega⟩

theorem pop_push_results {s sa sb : sylvan} {x : Nat}
    (h1 : sb.results = (mtbdd_refs_push sa x).results) (h2 : sa.results = s.results) :
    (mtbdd_refs_pop sb 1).results = s.results := by
  show sb.results.take (sb.results.length - 1) = s.results
  rw [h1]
  show (sa.results ++ [x]).take ((sa.results ++ [x]).length - 1) = s.results
  rw [h2]
  simp

/-- One application of `mtbdd_union_cube` within what the code supports, when
the collector reclaims nothing: the table is kept, the result is the terminal
or a node over variables from `k` on, and a second application returns the
result of the first. -/
theorem union_cube_twice {gc : List Nat → llmsset → llmsset} (hgc : gc_keeps_nodes gc)
    {t : Nat} :
    ∀ (fuel : Nat) (s : sylvan) (k d vars : Nat) (vs p : List Nat) (r : Nat) (s1 : sylvan),
      s.nodes.length ≤ 2 ^ 40 → mtbdd_terminal s.nodes t → mtbdd_varcube s.nodes vars vs →
      union_cube_covers s.nodes t k d vs p →
      mtbdd_union_cube gc fuel s d vars p t = .ok (r, s1) →
      llmsset_le s.nodes s1.nodes ∧ s1.results = s.results ∧ mtbdd_wellformed r ∧
        (r = t ∨ ∃ w lo hi, mtbdd_node_at s1.nodes r w lo hi ∧ k ≤ w) ∧
        union_cube_fixed gc t s1.nodes fuel r vars vs p := by
  intro fuel
  induction fuel with
  | zero => intro s k d vars vs p r s1 _ _ _ _ hr; simp [mtbdd_union_cube] at hr
  | succ fuel ih =>
    intro s k d vars vs p r s1 hsize ht hvc hcov hr
    by_cases hdt : d = t
    · subst hdt
      rw [ucube_terminal] at hr
      injection hr with hr
      obtain ⟨rfl, rfl⟩ := Prod.mk.inj hr
      exact ⟨table_le_refl _, rfl, ht.1, Or.inl rfl, fixed_terminal gc _ _ fuel vars vs p⟩
    by_cases hdf : d = mtbdd_false
    · subst hdf
      have htf : mtbdd_false ≠ t := hdt
      rw [ucube_empty gc fuel s vars p htf] at hr
      have hpl : cube_plain k vs p := by
        cases hcov with
        | terminal _ _ _ => exact absurd rfl hdt
        | empty _ _ _ hp => exact hp
        | done _ _ _ => simp [cube_plain]
        | under _ _ _ _ _ _ _ _ hm _ _ _ _ => exact absurd rfl (node_at_ne_false hm)
        | at0 _ _ _ _ _ _ _ hm _ _ _ => exact absurd rfl (node_at_ne_false hm)
        | at1 _ _ _ _ _ _ _ hm _ _ _ => exact absurd rfl (node_at_ne_false hm)
        | at2 _ _ _ _ _ _ _ hm _ _ _ => exact absurd rfl (node_at_ne_false hm)
        | over2 _ _ _ _ _ _ _ _ hm _ _ _ => exact absurd rfl (node_at_ne_false hm)
      obtain ⟨e1, e2, e3, _, e5, e6⟩ :=
        cube_then_union hgc htf (fuel + 1) s k vars vs p r s1 hsize ht hvc hpl hr
      exact ⟨e1, e2, e3, e5, fun s2 f2 _ hle hf _ => e6 s2 f2 hle hf⟩
    cases hcov with
    | terminal _ _ _ => exact absurd rfl hdt
    | empty _ _ _ _ => exact absurd rfl hdf
    | done _ _ _ =>
      have hv : vars = mtbdd_true := hvc
      rw [hv, ucube_done gc fuel s p hdt hdf] at hr
      injection hr with hr
      obtain ⟨rfl, rfl⟩ := Prod.mk.inj hr
      exact ⟨table_le_refl _, rfl, ht.1, Or.inl rfl, fixed_terminal gc _ _ fuel _ _ p⟩
    | under _ _ va lo hi v vs1 _ hn hk hlt cl ch =>
      obtain ⟨r1, r2, r3⟩ := node_at_read hn (table_le_refl _)
      obtain ⟨hne, _, hvar, _⟩ := varcube_read hvc (table_le_refl _)
      rw [ucube_below gc fuel s p hdt hdf hne (by rw [r1, hvar]; exact hlt), r1, r2, r3] at hr
      split at hr
      · cases hr
      · rename_i nl sa hrec1
        obtain ⟨a1, a2, a3, a4, a5⟩ := ih s (va + 1) lo vars (v :: vs1) p nl sa hsize ht hvc
          cl hrec1
        have hsa : sa.nodes.length ≤ 2 ^ 40 := by rw [a1.1]; exact hsize
        split at hr
        · cases hr
        · rename_i nh sb hrec2
          obtain ⟨b1, b2, b3, b4, b5⟩ := ih (mtbdd_refs_push sa nl) (va + 1) hi vars
            (v :: vs1) p nh sb hsa (terminal_le ht a1) (varcube_le a1 _ _ hvc)
            (covers_le ch a1) hrec2
          have b1b : llmsset_le sa.nodes sb.nodes := b1
          have hsb : (mtbdd_refs_pop sb 1).nodes.length ≤ 2 ^ 40 := by
            show sb.nodes.length ≤ 2 ^ 40
            rw [b1b.1]; exact hsa
          obtain ⟨c1, c2, c3, c4⟩ := rebuild_shape hgc (mtbdd_refs_pop sb 1) (nl ≠ lo ∨ nh ≠ hi)
            (fun hc => by
              constructor
              · by_contra h; exact hc (Or.inl h)
              · by_contra h; exact hc (Or.inr h))
            hn (table_le_trans a1 b1b) hsb a3 b3 hr
          have c1b : llmsset_le sb.nodes s1.nodes := c1
          have hle1 : llmsset_le sa.nodes s1.nodes := table_le_trans b1b c1b
          refine ⟨table_le_trans a1 hle1, c2.trans (pop_push_results b2 a2), c3, ?_, ?_⟩
          · rcases c4 with ⟨_, rfl⟩ | c4
            · exact shape_le a4 hle1 (by omega)
            · exact Or.inr ⟨va, nl, nh, c4, hk⟩
          · rcases c4 with ⟨_, rfl⟩ | c4
            · exact fixed_mono a5 hle1 (by omega)
            · exact fixed_under (terminal_le ht (table_le_trans a1 hle1))
                (varcube_le (table_le_trans a1 hle1) _ _ hvc) c4 hlt
                (fixed_mono a5 hle1 (Nat.le_refl _)) (fixed_mono b5 c1b (Nat.le_refl _))
    | at0 _ _ v lo hi vs1 p1 hn hk hwf cl =>
      obtain ⟨r1, r2, r3⟩ := node_at_read hn (table_le_refl _)
      obtain ⟨hne, hv24, n, hvar, hrest, hget⟩ := varcube_cons hvc
      have hg0 := hget _ (table_le_refl _)
      rw [ucube_at0 gc fuel s p1 hdt hdf hne (by rw [r1, hg0, hvar]), r2, r3, hg0, hvar]
        at hr
      split at hr
      · cases hr
      · rename_i nl sa hrec1
        obtain ⟨a1, a2, a3, a4, a5⟩ := ih s (v + 1) lo _ vs1 p1 nl sa hsize ht hrest cl hrec1
        have hsa : sa.nodes.length ≤ 2 ^ 40 := by rw [a1.1]; exact hsize
        obtain ⟨c1, c2, c3, c4⟩ := rebuild_shape hgc sa (nl ≠ lo)
          (fun hc => ⟨by by_contra h; exact hc h, rfl⟩) hn a1 hsa a3 hwf hr
        refine ⟨table_le_trans a1 c1, c2.trans a2, c3, ?_, ?_⟩
        · rcases c4 with ⟨_, rfl⟩ | c4
          · exact shape_le a4 c1 (by omega)
          · exact Or.inr ⟨v, nl, hi, c4, hk⟩
        · rcases c4 with ⟨_, rfl⟩ | c4
          · exact fixed_collapsed01 (Or.inl rfl) (shape_le a4 c1 (Nat.le_refl _))
          · exact fixed_at0 (terminal_le ht (table_le_trans a1 c1)) hne hvar
              (fun T2 h2 => hget T2 (table_le_trans a1 (table_le_trans c1 h2))) c4
              (fixed_mono a5 c1 (Nat.le_refl _))
    | at1 _ _ v lo hi vs1 p1 hn hk hwf ch =>
      obtain ⟨r1, r2, r3⟩ := node_at_read hn (table_le_refl _)
      obtain ⟨hne, hv24, n, hvar, hrest, hget⟩ := varcube_cons hvc
      have hg0 := hget _ (table_le_refl _)
      rw [ucube_at1 gc fuel s p1 hdt hdf hne (by rw [r1, hg0, hvar]), r2, r3, hg0, hvar]
        at hr
      split at hr
      · cases hr
      · rename_i nh sa hrec1
        obtain ⟨a1, a2, a3, a4, a5⟩ := ih s (v + 1) hi _ vs1 p1 nh sa hsize ht hrest ch hrec1
        have hsa : sa.nodes.length ≤ 2 ^ 40 := by rw [a1.1]; exact hsize
        obtain ⟨c1, c2, c3, c4⟩ := rebuild_shape hgc sa (nh ≠ hi)
          (fun hc => ⟨rfl, by by_contra h; exact hc h⟩) hn a1 hsa hwf a3 hr
        refine ⟨table_le_trans a1 c1, c2.trans a2, c3, ?_, ?_⟩
        · rcases c4 with ⟨e, rfl⟩ | c4
          · rw [e]; exact shape_le a4 c1 (by omega)
          · exact Or.inr ⟨v, lo, nh, c4, hk⟩
        · rcases c4 with ⟨e, rfl⟩ | c4
          · rw [e]
            exact fixed_collapsed01 (Or.inr rfl) (shape_le a4 c1 (Nat.le_refl _))
          · exact fixed_at1 (terminal_le ht (table_le_trans a1 c1)) hne hvar
              (fun T2 h2 => hget T2 (table_le_trans a1 (table_le_trans c1 h2))) c4
              (fixed_mono a5 c1 (Nat.le_refl _))
    | at2 _ _ v lo hi vs1 p1 hn hk cl ch =>
      obtain ⟨r1, r2, r3⟩ := node_at_read hn (table_le_refl _)
      obtain ⟨hne, hv24, n, hvar, hrest, hget⟩ := varcube_cons hvc
      have hg0 := hget _ (table_le_refl _)
      rw [ucube_at2 gc fuel s p1 hdt hdf hne (by rw [r1, hg0, hvar]), r2, r3, hg0, hvar]
        at hr
      split at hr
      · cases hr
      · rename_i nl sa hrec1
        obtain ⟨a1, a2, a3, a4, a5⟩ := ih s (v + 1) lo _ vs1 p1 nl sa hsize ht hrest cl hrec1
        have hsa : sa.nodes.length ≤ 2 ^ 40 := by rw [a1.1]; exact hsize
        split at hr
        · cases hr
        · rename_i nh sb hrec2
          obtain ⟨b1, b2, b3, b4, b5⟩ := ih (mtbdd_refs_push sa nl) (v + 1) hi _ vs1 p1 nh sb
            hsa (terminal_le ht a1) (varcube_le a1 _ _ hrest) (covers_le ch a1) hrec2
          have b1b : llmsset_le sa.nodes sb.nodes := b1
          have hsb : (mtbdd_refs_pop sb 1).nodes.length ≤ 2 ^ 40 := by
            show sb.nodes.length ≤ 2 ^ 40
            rw [b1b.1]; exact hsa
          obtain ⟨c1, c2, c3, c4⟩ := rebuild_shape hgc (mtbdd_refs_pop sb 1) (nl ≠ lo ∨ nh ≠ hi)
            (fun hc => by
              constructor
              · by_contra h; exact hc (Or.inl h)
              · by_contra h; exact hc (Or.inr h))
            hn (table_le_trans a1 b1b) hsb a3 b3 hr
          have c1b : llmsset_le sb.nodes s1.nodes := c1
          have hle1 : llmsset_le sa.nodes s1.nodes := table_le_trans b1b c1b
          have hget1 : ∀ T2, llmsset_le s1.nodes T2 → GETNODE T2 vars = n :=
            fun T2 h2 => hget T2 (table_le_trans a1 (table_le_trans hle1 h2))
          have ht1 := terminal_le ht (table_le_trans a1 hle1)
          refine ⟨table_le_trans a1 hle1, c2.trans (pop_push_results b2 a2), c3, ?_, ?_⟩
          · rcases c4 with ⟨_, rfl⟩ | c4
            · exact shape_le a4 hle1 (by omega)
            · exact Or.inr ⟨v, nl, nh, c4, hk⟩
          · rcases c4 with ⟨_, rfl⟩ | c4
            · exact fixed_collapsed2 ht1 hne hvar hget1 (shape_le a4 hle1 (Nat.le_refl _))
                (fixed_mono a5 hle1 (Nat.le_refl _))
            · exact fixed_at2 ht1 hne hvar hget1 c4 (fixed_mono a5 hle1 (Nat.le_refl _))
                (fixed_mono b5 c1b (Nat.le_refl _))
    | over2 _ _ va lo hi v vs1 p1 hn hk hgt cd =>
      obtain ⟨r1, r2, r3⟩ := node_at_read hn (table_le_refl _)
      obtain ⟨hne, hv24, n, hvar, hrest, hget⟩ := varcube_cons hvc
      have hg0 := hget _ (table_le_refl _)
      rw [ucube_above2 gc fuel s p1 hdt hdf hne (by rw [r1, hg0, hvar]; exact hgt), hg0, hvar]
        at hr
      split at hr
      · cases hr
      · rename_i nl sa hrec1
        obtain ⟨a1, a2, a3, a4, a5⟩ := ih s (v + 1) d _ vs1 p1 nl sa hsize ht hrest cd hrec1
        have hsa : sa.nodes.length ≤ 2 ^ 40 := by rw [a1.1]; exact hsize
        split at hr
        · cases hr
        · rename_i nh sb hrec2
          obtain ⟨b1, b2, b3, b4, b5⟩ := ih (mtbdd_refs_push sa nl) (v + 1) d _ vs1 p1 nh sb
            hsa (terminal_le ht a1) (varcube_le a1 _ _ hrest) (covers_le cd a1) hrec2
          have b1b : llmsset_le sa.nodes sb.nodes := b1
          have hsb : (mtbdd_refs_pop sb 1).nodes.length ≤ 2 ^ 40 := by
            show sb.nodes.length ≤ 2 ^ 40
            rw [b1b.1]; exact hsa
          obtain ⟨c1, c2, c3, c4⟩ := makenode_keep hgc hsb hv24 a3 b3 hr
          have c1b : llmsset_le sb.nodes s1.nodes := c1
          have hle1 : llmsset_le sa.nodes s1.nodes := table_le_trans b1b c1b
          have hget1 : ∀ T2, llmsset_le s1.nodes T2 → GETNODE T2 vars = n :=
            fun T2 h2 => hget T2 (table_le_trans a1 (table_le_trans hle1 h2))
          have ht1 := terminal_le ht (table_le_trans a1 hle1)
          refine ⟨table_le_trans a1 hle1, c2.trans (pop_push_results b2 a2), c3, ?_, ?_⟩
          · rcases c4 with ⟨_, rfl⟩ | c4
            · exact shape_le a4 hle1 (by omega)
            · exact Or.inr ⟨v, nl, nh, c4, hk⟩
          · rcases c4 with ⟨_, rfl⟩ | c4
            · exact fixed_collapsed2 ht1 hne hvar hget1 (shape_le a4 hle1 (Nat.le_refl _))
                (fixed_mono a5 hle1 (Nat.le_refl _))
            · exact fixed_at2 ht1 hne hvar hget1 c4 (fixed_mono a5 hle1 (Nat.le_refl _))
                (fixed_mono b5 c1b (Nat.le_refl _))

/-! ## `mtbdd_makeleaf` -/

/-- Whatever path it takes, a returning `mtbdd_makeleaf` hands out the bucket
that holds the leaf, and that bucket is what a lookup finds. -/
theorem makeleaf_ok {gc : List Nat → llmsset → llmsset} {s s2 : sylvan} {type value h : Nat}
    (hr : mtbdd_makeleaf gc s type value = .ok (h, s2)) :
    h ≠ 0 ∧ llmsset_holds s2.nodes h (mtbddnode_makeleaf type value) ∧
      llmsset_lookup s2.nodes (mtbddnode_makeleaf type value).a
        (mtbddnode_makeleaf type value).b = (h, s2.nodes) := by
  unfold mtbdd_makeleaf at hr
  simp only at hr
  split at hr
  · split at hr
    · cases hr
    · rename_i h1 h2
      injection hr with hr
      obtain ⟨rfl, rfl⟩ := Prod.mk.inj hr
      refine ⟨h2, ?_⟩
      have := lookup_result (T := (sylvan_gc gc (sylvan_lookup s _ _).2).nodes)
        (Prod.mk.eta).symm h2
      exact ⟨this.1, this.2.1⟩
  · rename_i h1
    injection hr with hr
    obtain ⟨rfl, rfl⟩ := Prod.mk.inj hr
    refine ⟨h1, ?_⟩
    have := lookup_result (T := s.nodes) (Prod.mk.eta).symm h1
    exact ⟨this.1, this.2.1⟩

/-- When the first lookup succeeds, `mtbdd_makeleaf` returns its bucket and
only the lookup is added to the state. -/
theorem makeleaf_room (gc : List Nat → llmsset → llmsset) (s : sylvan) (type value : Nat)
    {i : Nat} {T2 : llmsset}
    (hl : llmsset_lookup s.nodes (mtbddnode_makeleaf type value).a
      (mtbddnode_makeleaf type value).b = (i, T2)) (hi : i ≠ 0) :
    mtbdd_makeleaf gc s type value =
      .ok (i, { s with nodes := T2, log := s.log ++ [event.lookup
        (mtbddnode_makeleaf type value).a (mtbddnode_makeleaf type value).b i] }) := by
  unfold mtbdd_makeleaf
  simp only [sylvan_lookup, hl, if_neg hi]

theorem makeleaf_type {type : Nat} (ht : type < 2 ^ 32) (value : Nat) :
    mtbddnode_gettype (mtbddnode_makeleaf type value) = type := by
  unfold mtbddnode_gettype mtbddnode_makeleaf
  simp only
  rw [Nat.mod_eq_of_lt ht]
  apply Nat.eq_of_testBit_eq
  intro k
  have hm : (0x00000000ffffffff : Nat) = 2 ^ 32 - 1 := by norm_num
  rw [Nat.testBit_and, Nat.testBit_or, testBit_leafbit, hm, Nat.testBit_two_pow_sub_one]
  by_cases hk : k < 32
  · have : ¬ k = 62 := by omega
    simp [hk, this]
  · have : type.testBit k = false :=
      Nat.testBit_lt_two_pow (lt_of_lt_of_le ht (Nat.pow_le_pow_right (by norm_num) (by omega)))
    simp [hk, this]

/-- The in-flight stack after the two children pushed for a collection are
popped again. -/
theorem refs_pop2_results (s : sylvan) (gc : List Nat → llmsset → llmsset) (x y : Nat) :
    (mtbdd_refs_pop (sylvan_gc gc (mtbdd_refs_push (mtbdd_refs_push s x) y)) 2).results =
      s.results := by
  unfold mtbdd_refs_pop sylvan_gc mtbdd_refs_push
  simp

/-- The index of a handle written from a table index below `2^40` is that
index. -/
theorem lookup_index_lt40 {T T2 : llmsset} {a b i : Nat} (h : llmsset_lookup T a b = (i, T2))
    (hi : i ≠ 0) (hsize : T2.length ≤ 2 ^ 40) : i < 2 ^ 40 :=
  lt_of_lt_of_le (holds_lt_length (lookup_result h hi).1) hsize

/-- The paths of `mtbdd_makeleaf`, by the results of its lookups. -/
theorem makeleaf_paths (gc : List Nat → llmsset → llmsset) (s : sylvan) (type value : Nat)
    {i i2 : Nat} {T1 T2 : llmsset}
    (h1 : llmsset_lookup s.nodes (mtbddnode_makeleaf type value).a
      (mtbddnode_makeleaf type value).b = (i, T1))
    (h2 : llmsset_lookup (gc s.results T1) (mtbddnode_makeleaf type value).a
      (mtbddnode_makeleaf type value).b = (i2, T2)) :
    mtbdd_makeleaf gc s type value =
      (if i ≠ 0 then
        .ok (i, ⟨T1, s.results, s.log ++ [event.lookup (mtbddnode_makeleaf type value).a
          (mtbddnode_makeleaf type value).b i]⟩)
       else if i2 ≠ 0 then
        .ok (i2, ⟨T2, s.results, s.log ++ [event.lookup (mtbddnode_makeleaf type value).a
          (mtbddnode_makeleaf type value).b 0, event.gc,
          event.lookup (mtbddnode_makeleaf type value).a (mtbddnode_makeleaf type value).b i2]⟩)
       else .error fault.table_full) := by
  unfold mtbdd_makeleaf sylvan_lookup sylvan_gc
  simp only [h1]
  by_cases hi : i = 0
  · subst hi
    simp only [h2, if_true, ne_eq, not_true_eq_false, if_false, List.append_assoc,
      List.singleton_append]
    by_cases hi2 : i2 = 0
    · simp [hi2]
    · simp [hi2]
  · simp only [hi, if_false, ne_eq, not_false_eq_true, if_true]

/-- The paths of `mtbdd_makenode` on different children, by the results of its
lookups. -/
theorem makenode_paths (gc : List Nat → llmsset → llmsset) (s : sylvan) (var : Nat)
    {low high i i2 : Nat} {T1 T2 : llmsset} (hne : low ≠ high)
    (h1 : llmsset_lookup s.nodes
      (mtbddnode_makenode var (makenode_low low) (makenode_high low high)).a
      (mtbddnode_makenode var (makenode_low low) (makenode_high low high)).b = (i, T1))
    (h2 : llmsset_lookup (gc (s.results ++ [makenode_low low, makenode_high low high]) T1)
      (mtbddnode_makenode var (makenode_low low) (makenode_high low high)).a
      (mtbddnode_makenode var (makenode_low low) (makenode_high low high)).b = (i2, T2)) :
    mtbdd_makenode gc s var low high =
      (if i ≠ 0 then
        .ok (makenode_handle low i, ⟨T1, s.results, s.log ++ [event.lookup
          (mtbddnode_makenode var (makenode_low low) (makenode_high low high)).a
          (mtbddnode_makenode var (makenode_low low) (makenode_high low high)).b i]⟩)
       else if i2 ≠ 0 then
        .ok (makenode_handle low i2, ⟨T2, s.results, s.log ++ [event.lookup
          (mtbddnode_makenode var (makenode_low low) (makenode_high low high)).a
          (mtbddnode_makenode var (makenode_low low) (makenode_high low high)).b 0, event.gc,
          event.lookup
            (mtbddnode_makenode var (makenode_low low) (makenode_high low high)).a
            (mtbddnode_makenode var (makenode_low low) (makenode_high low high)).b i2]⟩)
       else .error fault.table_full) := by
  have e : s.results ++ [makenode_low low, makenode_high low high] =
      s.results ++ [makenode_low low] ++ [makenode_high low high] := by simp
  rw [e] at h2
  rw [makenode_eq gc s var hne]
  unfold sylvan_lookup sylvan_gc mtbdd_refs_pop mtbdd_refs_push
  simp only [h1]
  by_cases hi : i = 0
  · subst hi
    simp only [h2, if_true, ne_eq, not_true_eq_false, if_false]
    by_cases hi2 : i2 = 0
    · simp [hi2]
    · simp [hi2]
  · simp only [hi, if_false, ne_eq, not_false_eq_true, if_true]

/-! ## Pattern bytes above 3 in `mtbdd_cube` -/

theorem cube_step_invalid (gc : List Nat → llmsset → llmsset) (fuel : Nat) (s : sylvan)
    {vars : Nat} (c : Nat) (p : List Nat) (t : Nat) (hne : vars ≠ mtbdd_true) :
    mtbdd_cube gc (fuel + 1) s vars ((c + 4) :: p) t = .ok (mtbdd_false, s) := by
  rw [mtbdd_cube]
  simp [hne]

theorem cube_reads_invalid_0 (v : Nat) (vs p : List Nat) :
    cube_reads_invalid (v :: vs) (0 :: p) = cube_reads_invalid vs p := by
  rw [cube_reads_invalid]

theorem cube_reads_invalid_1 (v : Nat) (vs p : List Nat) :
    cube_reads_invalid (v :: vs) (1 :: p) = cube_reads_invalid vs p := by
  rw [cube_reads_invalid]

theorem cube_reads_invalid_2 (v : Nat) (vs p : List Nat) :
    cube_reads_invalid (v :: vs) (2 :: p) = cube_reads_invalid vs p := by
  rw [cube_reads_invalid]

theorem cube_reads_invalid_3 (v v2 c2 : Nat) (vs p : List Nat) :
    cube_reads_invalid (v :: v2 :: vs) (3 :: c2 :: p) = cube_reads_invalid vs p := by
  rw [cube_reads_invalid]

theorem cube_reads_invalid_3_short (v c2 : Nat) (p : List Nat) :
    cube_reads_invalid [v] (3 :: c2 :: p) = false := by
  rw [cube_reads_invalid]
  all_goals simp

theorem cube_reads_invalid_3_last (v : Nat) (vs : List Nat) :
    cube_reads_invalid (v :: vs) [3] = false := by
  rw [cube_reads_invalid]
  all_goals simp

/-- Once `mtbdd_cube` comes to a byte above 3, that call returns `mtbdd_false`
and every node above it collapses: the call returns `mtbdd_false` with the
state untouched. -/
theorem cube_invalid (gc : List Nat → llmsset → llmsset) (t : Nat) :
    ∀ (fuel : Nat) (s : sylvan) (vars : Nat) (vs p : List Nat),
      mtbdd_varcube s.nodes vars vs → cube_reads_invalid vs p = true → vs.length ≤ fuel →
      mtbdd_cube gc fuel s vars p t = .ok (mtbdd_false, s) := by
  intro fuel
  induction fuel using Nat.strong_induction_on with
  | _ fuel ih =>
    intro s vars vs p hvc hr hf
    cases vs with
    | nil => simp [cube_reads_invalid] at hr
    | cons v vs =>
      obtain ⟨hne, _, _, hrest⟩ := varcube_read hvc (table_le_refl _)
      cases fuel with
      | zero => simp at hf
      | succ fuel =>
        simp only [List.length_cons] at hf
        cases p with
        | nil => simp [cube_reads_invalid] at hr
        | cons c p =>
          rcases Nat.lt_or_ge c 4 with hc | hc
          · interval_cases c
            · rw [cube_reads_invalid_0] at hr
              rw [cube_step0 gc fuel s p t hne,
                ih fuel (Nat.lt_succ_self _) s _ vs p hrest hr (by omega)]
              exact makenode_same gc s _ _
            · rw [cube_reads_invalid_1] at hr
              rw [cube_step1 gc fuel s p t hne,
                ih fuel (Nat.lt_succ_self _) s _ vs p hrest hr (by omega)]
              exact makenode_same gc s _ _
            · rw [cube_reads_invalid_2] at hr
              rw [cube_step2 gc fuel s p t hne]
              exact ih fuel (Nat.lt_succ_self _) s _ vs p hrest hr (by omega)
            · cases vs with
              | nil =>
                cases p with
                | nil => rw [cube_reads_invalid_3_last] at hr; cases hr
                | cons c2 p => rw [cube_reads_invalid_3_short] at hr; cases hr
              | cons v2 vs =>
                cases p with
                | nil => rw [cube_reads_invalid_3_last] at hr; cases hr
                | cons c2 p =>
                  rw [cube_reads_invalid_3] at hr
                  obtain ⟨_, _, _, hrest2⟩ := varcube_read hrest (table_le_refl _)
                  simp only [List.length_cons] at hf
                  rw [cube_step3 gc fuel s c2 p t hne,
                    ih fuel (Nat.lt_succ_self _) s _ vs p hrest2 hr (by omega)]
                  simp only [makenode_same, refs_pop_push]
          · obtain ⟨k, rfl⟩ : ∃ k, c = k + 4 := ⟨c - 4, by omega⟩
            exact cube_step_invalid gc fuel s k p t hne

/-! ## Marking the in-flight roots -/

theorem lace_spawned_append (xs ys : List lace_call) :
    lace_spawned (xs ++ ys) = lace_spawned xs ++ lace_spawned ys := by
  induction xs with
  | nil => rfl
  | cons x xs ih => cases x <;> simp [lace_spawned, ih]

theorem lace_syncs_append (xs ys : List lace_call) :
    lace_syncs (xs ++ ys) = lace_syncs xs + lace_syncs ys := by
  induction xs with
  | nil => simp [lace_syncs]
  | cons x xs ih =>
    cases x
    · simp [lace_syncs, ih]
    · simp [lace_syncs, ih]
      omega

theorem lace_spawned_syncs (n : Nat) : lace_spawned (List.replicate n lace_call.SYNC) = [] := by
  induction n with
  | zero => rfl
  | succ n ih => simp [List.replicate_succ, lace_spawned, ih]

theorem lace_syncs_syncs (n : Nat) : lace_syncs (List.replicate n lace_call.SYNC) = n := by
  induction n with
  | zero => rfl
  | succ n ih => simp [List.replicate_succ, lace_syncs, ih]

/-- One `SPAWN` of `mtbdd_refs_mark_task`: the handle is added to those spawned, the
counter of pending calls stays at most 40, and the `SYNC` made so far with
the pending calls are as many as the `SPAWN`. -/
theorem refs_mark_spawn_spec (st : Nat × List lace_call) (h : Nat) (hj : st.1 ≤ 40)
    (hs : lace_syncs st.2 + st.1 = (lace_spawned st.2).length) :
    (refs_mark_spawn st h).1 ≤ 40 ∧
      lace_syncs (refs_mark_spawn st h).2 + (refs_mark_spawn st h).1 =
        (lace_spawned (refs_mark_spawn st h).2).length ∧
      lace_spawned (refs_mark_spawn st h).2 = lace_spawned st.2 ++ [h] := by
  unfold refs_mark_spawn
  by_cases h40 : st.1 ≥ 40
  · simp only [h40, if_true, lace_spawned_append, lace_syncs_append, lace_spawned_syncs,
      lace_syncs_syncs, List.append_nil, List.length_append]
    refine ⟨by norm_num, ?_, ?_⟩
    · simp [lace_syncs, lace_spawned]
      omega
    · simp [lace_spawned]
  · simp only [h40, if_false, lace_spawned_append, lace_syncs_append, List.length_append]
    have hlt : st.1 + 1 < 2 ^ 64 := by
      have : st.1 < 40 := by omega
      omega
    rw [Nat.mod_eq_of_lt hlt]
    refine ⟨by omega, ?_, ?_⟩
    · simp [lace_syncs, lace_spawned]
      omega
    · simp [lace_spawned]

theorem refs_mark_results_spec :
    ∀ (l : List Nat) (st : Nat × List lace_call), st.1 ≤ 40 →
      lace_syncs st.2 + st.1 = (lace_spawned st.2).length →
      (refs_mark_results l st).1 ≤ 40 ∧
        lace_syncs (refs_mark_results l st).2 + (refs_mark_results l st).1 =
          (lace_spawned (refs_mark_results l st).2).length ∧
        lace_spawned (refs_mark_results l st).2 = lace_spawned st.2 ++ l := by
  intro l
  induction l with
  | nil => intro st hj hs; exact ⟨hj, hs, by simp [refs_mark_results]⟩
  | cons h l ih =>
    intro st hj hs
    obtain ⟨a1, a2, a3⟩ := refs_mark_spawn_spec st h hj hs
    obtain ⟨b1, b2, b3⟩ := ih (refs_mark_spawn st h) a1 a2
    rw [refs_mark_results]
    exact ⟨b1, b2, by rw [b3, a3]; simp⟩

theorem refs_mark_spawns_spec :
    ∀ (l : List Task) (st : Nat × List lace_call), st.1 ≤ 40 →
      lace_syncs st.2 + st.1 = (lace_spawned st.2).length →
      (refs_mark_spawns l st).1 ≤ 40 ∧
        lace_syncs (refs_mark_spawns l st).2 + (refs_mark_spawns l st).1 =
          (lace_spawned (refs_mark_spawns l st).2).length ∧
        lace_spawned (refs_mark_spawns l st).2 = lace_spawned st.2 ++
          ((l.takeWhile (fun t => t.stolen)).filter (fun t => t.completed)).map
            (fun t => t.result) := by
  intro l
  induction l with
  | nil => intro st hj hs; exact ⟨hj, hs, by simp [refs_mark_spawns]⟩
  | cons t l ih =>
    intro st hj hs
    rw [refs_mark_spawns]
    by_cases h1 : t.stolen = true
    · by_cases h2 : t.completed = true
      · obtain ⟨a1, a2, a3⟩ := refs_mark_spawn_spec st t.result hj hs
        obtain ⟨b1, b2, b3⟩ := ih (refs_mark_spawn st t.result) a1 a2
        simp only [h1, h2, Bool.not_true, if_true, Bool.false_eq_true, if_false]
        refine ⟨b1, b2, ?_⟩
        rw [b3, a3]
        simp [List.takeWhile_cons, h1, h2]
      · obtain ⟨b1, b2, b3⟩ := ih st hj hs
        simp only [h1, h2, Bool.not_true, if_true, Bool.false_eq_true, if_false]
        refine ⟨b1, b2, ?_⟩
        rw [b3]
        simp [List.takeWhile_cons, h1, h2]
    · simp only [h1, Bool.not_false, Bool.not_eq_true, if_true]
      simp at h1
      simp [h1, hj, hs]

/-! ## Leaves of doubles -/

theorem testBit_low63 (k : Nat) :
    (0x7fffffffffffffff : Nat).testBit k = decide (k < 63) := by
  have h : (0x7fffffffffffffff : Nat) = 2 ^ 63 - 1 := by norm_num
  rw [h, Nat.testBit_two_pow_sub_one]

theorem double_neg_neg (x : Nat) : double_neg (double_neg x) = x := by
  unfold double_neg
  rw [Nat.xor_assoc, Nat.xor_self, Nat.xor_zero]

theorem double_neg_low63 (x : Nat) :
    double_neg x &&& 0x7fffffffffffffff = x &&& 0x7fffffffffffffff := by
  unfold double_neg
  apply Nat.eq_of_testBit_eq
  intro k
  rw [Nat.testBit_and, Nat.testBit_and, Nat.testBit_xor, testBit_low63, testBit_complement]
  by_cases hk : k < 63
  · have : k ≠ 63 := by omega
    simp [this]
  · simp [hk]

theorem double_neg_sign {x : Nat} (h : x &&& 0x8000000000000000 = 0) :
    double_neg x &&& 0x8000000000000000 ≠ 0 := by
  unfold double_neg
  intro hc
  have h1 := congrArg (fun y => y.testBit 63) h
  have h2 := congrArg (fun y => y.testBit 63) hc
  simp only [Nat.testBit_and, Nat.testBit_xor, testBit_complement, Nat.zero_testBit] at h1 h2
  simp at h1 h2
  rw [h1] at h2
  cases h2

theorem double_gtzero_not_lt {x : Nat} (h : double_gtzero x = true) :
    double_ltzero x = false := by
  unfold double_gtzero at h
  unfold double_ltzero
  simp only [Bool.and_eq_true, decide_eq_true_eq] at h
  simp [h.1.1]

theorem double_zero_not_lt {x : Nat} (h : x &&& 0x7fffffffffffffff = 0) :
    double_ltzero x = false := by
  unfold double_ltzero
  simp [h]

theorem double_neg_ltzero {x : Nat} (h : double_gtzero x = true) :
    double_ltzero (double_neg x) = true := by
  unfold double_gtzero at h
  unfold double_ltzero
  simp only [Bool.and_eq_true, decide_eq_true_eq] at h ⊢
  rw [double_neg_low63]
  exact ⟨⟨double_neg_sign h.1.1, h.1.2⟩, h.2⟩

/-- The handle a returning `mtbdd_makeleaf` gives, in a table of at most `2^40`
buckets: no complement bit, and the leaf of the type and value given. -/
theorem makeleaf_handle {gc : List Nat → llmsset → llmsset} {s s2 : sylvan} {t v h : Nat}
    (hsize : s2.nodes.length ≤ 2 ^ 40)
    (hr : mtbdd_makeleaf gc s t v = .ok (h, s2)) :
    h.testBit 63 = false ∧ GETNODE s2.nodes h = mtbddnode_makeleaf t v := by
  obtain ⟨_, hh, _⟩ := makeleaf_ok hr
  have h40 : h < 2 ^ 40 := lt_of_lt_of_le (holds_lt_length hh) hsize
  refine ⟨testBit_of_lt40 h40 63 (by norm_num), ?_⟩
  unfold GETNODE
  rw [index_of_lt40 h h40]
  exact holds_read hh

/-- What the primitives read through a handle whose bucket holds the leaf of
type `t` and value `v`. -/
theorem leaf_reads {T : llmsset} {h t v : Nat} (ht : t < 2 ^ 32)
    (hn : GETNODE T h = mtbddnode_makeleaf t v) :
    mtbdd_isleaf T h ≠ 0 ∧ mtbdd_gettype T h = t ∧ mtbdd_getvalue T h = v := by
  refine ⟨?_, ?_, ?_⟩
  · unfold mtbdd_isleaf
    split
    · exact one_ne_zero
    · rw [hn]; exact makeleaf_is_leaf t v
  · unfold mtbdd_gettype
    rw [hn]
    exact makeleaf_type ht v
  · unfold mtbdd_getvalue
    rw [hn]
    rfl

/-! ## Mark bits: setting and clearing -/

theorem testBit_markbit (k : Nat) :
    (0x2000000000000000 : Nat).testBit k = decide (k = 61) := by
  have h : (0x2000000000000000 : Nat) = 2 ^ 61 := by norm_num
  rw [h, Nat.testBit_two_pow]; simp [eq_comm]

theorem testBit_unmarkmask (k : Nat) :
    (0xdfffffffffffffff : Nat).testBit k = (decide (k < 64) && !decide (k = 61)) := by
  have h : (0xdfffffffffffffff : Nat) = (2 ^ 64 - 1) ^^^ 2 ^ 61 := by decide
  rw [h, Nat.testBit_xor, Nat.testBit_two_pow, Nat.testBit_two_pow_sub_one]
  by_cases h61 : k = 61
  · subst h61; simp
  · have : ¬ 61 = k := fun e => h61 e.symm
    simp [h61, this]

theorem setmark_getlow (n : mtbddnode) (m : Nat) :
    mtbddnode_getlow (mtbddnode_setmark n m) = mtbddnode_getlow n := by
  unfold mtbddnode_setmark mtbddnode_getlow
  split <;> rfl

theorem setmark_gethigh (n : mtbddnode) (m : Nat) :
    mtbddnode_gethigh (mtbddnode_setmark n m) = mtbddnode_gethigh n := by
  unfold mtbddnode_setmark mtbddnode_gethigh
  split
  · apply Nat.eq_of_testBit_eq
    intro k
    simp only [Nat.testBit_and, Nat.testBit_or, testBit_markbit, testBit_highmask]
    by_cases h61 : k = 61
    · subst h61; simp
    · simp [h61]
  · apply Nat.eq_of_testBit_eq
    intro k
    simp only [Nat.testBit_and, testBit_unmarkmask, testBit_highmask]
    by_cases h61 : k = 61
    · subst h61; simp
    · by_cases h64 : k < 64
      · simp [h61, h64]
      · have h1 : ¬ k < 40 := by omega
        have h2 : ¬ k = 63 := by omega
        simp [h1, h2]

theorem setmark_isleaf (n : mtbddnode) (m : Nat) :
    mtbddnode_isleaf (mtbddnode_setmark n m) = mtbddnode_isleaf n := by
  have key : ∀ a : Nat, (a ||| 0x2000000000000000) &&& 0x4000000000000000 =
      a &&& 0x4000000000000000 ∧
      (a &&& 0xdfffffffffffffff) &&& 0x4000000000000000 = a &&& 0x4000000000000000 := by
    intro a
    constructor
    · apply Nat.eq_of_testBit_eq
      intro k
      simp only [Nat.testBit_and, Nat.testBit_or, testBit_markbit, testBit_leafbit]
      by_cases h62 : k = 62
      · subst h62; simp
      · simp [h62]
    · apply Nat.eq_of_testBit_eq
      intro k
      simp only [Nat.testBit_and, testBit_unmarkmask, testBit_leafbit]
      by_cases h62 : k = 62
      · subst h62; simp
      · simp [h62]
  unfold mtbddnode_setmark mtbddnode_isleaf
  split
  · simp only [(key n.a).1]
  · simp only [(key n.a).2]

theorem setmark_zero_eq (n : mtbddnode) :
    mtbddnode_setmark n 0 = { n with a := n.a &&& 0xdfffffffffffffff } := by
  unfold mtbddnode_setmark
  rw [if_neg (by simp)]

theorem setmark_one_eq (n : mtbddnode) {m : Nat} (hm : m ≠ 0) :
    mtbddnode_setmark n m = { n with a := n.a ||| 0x2000000000000000 } := by
  unfold mtbddnode_setmark
  rw [if_pos hm]

theorem getmark_setmark_one (n : mtbddnode) {m : Nat} (hm : m ≠ 0) :
    mtbddnode_getmark (mtbddnode_setmark n m) = 1 := by
  rw [setmark_one_eq n hm]
  unfold mtbddnode_getmark
  have : (n.a ||| 0x2000000000000000) &&& 0x2000000000000000 ≠ 0 := by
    intro h
    have := congrArg (fun x => x.testBit 61) h
    simp only [Nat.testBit_and, Nat.testBit_or, testBit_markbit, Nat.zero_testBit] at this
    simp at this
  simp only
  rw [if_pos this]

theorem getmark_setmark_zero (n : mtbddnode) :
    mtbddnode_getmark (mtbddnode_setmark n 0) = 0 := by
  rw [setmark_zero_eq]
  unfold mtbddnode_getmark
  have : (n.a &&& 0xdfffffffffffffff) &&& 0x2000000000000000 = 0 := by
    apply Nat.eq_of_testBit_eq
    intro k
    simp only [Nat.testBit_and, testBit_unmarkmask, testBit_markbit, Nat.zero_testBit]
    by_cases h61 : k = 61
    · subst h61; simp
    · simp [h61]
  simp only
  rw [if_neg (by rw [this]; simp)]

theorem setmark_setmark_zero (n : mtbddnode) (m : Nat) :
    mtbddnode_setmark (mtbddnode_setmark n m) 0 = mtbddnode_setmark n 0 := by
  by_cases hm : m = 0
  · subst hm
    rw [setmark_zero_eq, setmark_zero_eq]
    simp only [mtbddnode.mk.injEq, and_true]
    rw [Nat.and_assoc, Nat.and_self]
  · rw [setmark_one_eq n hm, setmark_zero_eq, setmark_zero_eq]
    simp only [mtbddnode.mk.injEq, and_true]
    apply Nat.eq_of_testBit_eq
    intro k
    simp only [Nat.testBit_and, Nat.testBit_or, testBit_unmarkmask, testBit_markbit]
    by_cases h61 : k = 61
    · subst h61; simp
    · simp [h61]

theorem setmark_zero_self {n : mtbddnode} (hm : mtbddnode_getmark n = 0) (hw : n.a < 2 ^ 64) :
    mtbddnode_setmark n 0 = n := by
  unfold mtbddnode_getmark at hm
  have h0 : n.a &&& 0x2000000000000000 = 0 := by
    by_contra hc
    rw [if_pos hc] at hm
    cases hm
  rw [setmark_zero_eq]
  have : n.a &&& 0xdfffffffffffffff = n.a := by
    apply Nat.eq_of_testBit_eq
    intro k
    simp only [Nat.testBit_and, testBit_unmarkmask]
    have h1 := congrArg (fun x => x.testBit k) h0
    simp only [Nat.testBit_and, testBit_markbit, Nat.zero_testBit] at h1
    by_cases h61 : k = 61
    · subst h61
      simp at h1
      simp [h1]
    · by_cases h64 : k < 64
      · simp [h61, h64]
      · have : n.a.testBit k = false :=
          Nat.testBit_lt_two_pow (lt_of_lt_of_le hw (Nat.pow_le_pow_right (by norm_num)
            (by omega)))
        simp [this]
  cases n
  simp only at this
  simp [this]

theorem setmark_lt64 {n : mtbddnode} (m : Nat) (hw : n.a < 2 ^ 64) :
    (mtbddnode_setmark n m).a < 2 ^ 64 := by
  unfold mtbddnode_setmark
  split
  · exact Nat.or_lt_two_pow hw (by norm_num)
  · exact lt_of_le_of_lt Nat.and_le_left hw

theorem read_out (T : llmsset) {i : Nat} (hi : T.length ≤ i) : llmsset_read T i = ⟨0, 0⟩ := by
  unfold llmsset_read
  rw [List.getD_eq_getElem?_getD, List.getElem?_eq_none hi]
  rfl

theorem read_in (T : llmsset) {i : Nat} (hi : i < T.length) :
    T[i]? = some (T.get ⟨i, hi⟩) ∧ llmsset_read T i = (T.get ⟨i, hi⟩).node := by
  have h : T[i]? = some (T.get ⟨i, hi⟩) := by
    rw [List.getElem?_eq_getElem hi]
    rfl
  refine ⟨h, ?_⟩
  unfold llmsset_read
  rw [List.getD_eq_getElem?_getD, h]
  rfl

theorem setmark_out (T : llmsset) {i : Nat} (m : Nat) (hi : T.length ≤ i) :
    llmsset_setmark T i m = T := by
  unfold llmsset_setmark
  rw [List.get?_eq_getElem?, List.getElem?_eq_none hi]

theorem setmark_in (T : llmsset) {i : Nat} (m : Nat) (hi : i < T.length) :
    llmsset_setmark T i m =
      T.set i { T.get ⟨i, hi⟩ with node := mtbddnode_setmark (T.get ⟨i, hi⟩).node m } := by
  unfold llmsset_setmark
  rw [List.get?_eq_getElem?, (read_in T hi).1]

theorem setmark_length (T : llmsset) (i m : Nat) :
    (llmsset_setmark T i m).length = T.length := by
  rcases Nat.lt_or_ge i T.length with hi | hi
  · rw [setmark_in T m hi, List.length_set]
  · rw [setmark_out T m hi]

theorem read_setmark_ne (T : llmsset) {i j : Nat} (m : Nat) (h : j ≠ i) :
    llmsset_read (llmsset_setmark T i m) j = llmsset_read T j := by
  rcases Nat.lt_or_ge i T.length with hi | hi
  · rw [setmark_in T m hi]
    unfold llmsset_read
    rw [List.getD_eq_getElem?_getD, List.getD_eq_getElem?_getD,
      List.getElem?_set_ne (fun e => h e.symm)]
  · rw [setmark_out T m hi]

theorem read_setmark_self (T : llmsset) {i : Nat} (m : Nat) (hi : i < T.length) :
    llmsset_read (llmsset_setmark T i m) i = mtbddnode_setmark (llmsset_read T i) m := by
  rw [setmark_in T m hi, (read_in T hi).2]
  unfold llmsset_read
  rw [List.getD_eq_getElem?_getD, List.getElem?_set_self hi]
  rfl

theorem clear_length (T : llmsset) : (llmsset_clear T).length = T.length := by
  unfold llmsset_clear
  rw [List.length_map]

theorem clear_eq_length {T T2 : llmsset} (h : llmsset_clear T2 = llmsset_clear T) :
    T2.length = T.length := by
  rw [← clear_length T2, ← clear_length T, h]

theorem read_clear (T : llmsset) (i : Nat) :
    llmsset_read (llmsset_clear T) i = mtbddnode_setmark (llmsset_read T i) 0 := by
  rcases Nat.lt_or_ge i T.length with hi | hi
  · rw [(read_in T hi).2]
    unfold llmsset_read llmsset_clear
    rw [List.getD_eq_getElem?_getD, List.getElem?_map, (read_in T hi).1]
    rfl
  · rw [read_out T hi, read_out _ (by rw [clear_length]; exact hi)]
    rfl

theorem clear_setmark (T : llmsset) (i m : Nat) :
    llmsset_clear (llmsset_setmark T i m) = llmsset_clear T := by
  rcases Nat.lt_or_ge i T.length with hi | hi
  · rw [setmark_in T m hi]
    unfold llmsset_clear
    apply List.ext_getElem?
    intro j
    rw [List.getElem?_map, List.getElem?_map]
    by_cases hj : i = j
    · subst hj
      rw [List.getElem?_set_self hi, (read_in T hi).1]
      simp only [Option.map_some', setmark_setmark_zero]
    · rw [List.getElem?_set_ne hj]
  · rw [setmark_out T m hi]

/-- Tables that agree once their mark bits are cleared have the same
children and the same leaves. -/
theorem clear_eq_fields {T T2 : llmsset} (h : llmsset_clear T2 = llmsset_clear T) (i : Nat) :
    mtbddnode_getlow (llmsset_read T2 i) = mtbddnode_getlow (llmsset_read T i) ∧
    mtbddnode_gethigh (llmsset_read T2 i) = mtbddnode_gethigh (llmsset_read T i) ∧
    mtbddnode_isleaf (llmsset_read T2 i) = mtbddnode_isleaf (llmsset_read T i) := by
  have e : mtbddnode_setmark (llmsset_read T2 i) 0 = mtbddnode_setmark (llmsset_read T i) 0 := by
    rw [← read_clear, ← read_clear, h]
  refine ⟨?_, ?_, ?_⟩
  · rw [← setmark_getlow (llmsset_read T2 i) 0, e, setmark_getlow]
  · rw [← setmark_gethigh (llmsset_read T2 i) 0, e, setmark_gethigh]
  · rw [← setmark_isleaf (llmsset_read T2 i) 0, e, setmark_isleaf]

theorem marked_in_range {T : llmsset} {i : Nat} (h : llmsset_marked T i) : i < T.length := by
  by_contra hc
  unfold llmsset_marked at h
  rw [read_out T (by omega)] at h
  exact h (by decide)

theorem marked_setmark_one {T : llmsset} {i j : Nat} :
    llmsset_marked (llmsset_setmark T i 1) j ↔ llmsset_marked T j ∨ (j = i ∧ i < T.length) := by
  unfold llmsset_marked
  by_cases hj : j = i
  · subst hj
    rcases Nat.lt_or_ge j T.length with hi | hi
    · rw [read_setmark_self T 1 hi, getmark_setmark_one _ one_ne_zero]
      simp [hi]
    · rw [setmark_out T 1 hi]
      simp
      omega
  · rw [read_setmark_ne T 1 hj]
    simp [hj]

theorem marked_setmark_zero {T : llmsset} {i j : Nat} :
    llmsset_marked (llmsset_setmark T i 0) j ↔ llmsset_marked T j ∧ j ≠ i := by
  by_cases hj : j = i
  · subst hj
    rcases Nat.lt_or_ge j T.length with hi | hi
    · unfold llmsset_marked
      rw [read_setmark_self T 0 hi, getmark_setmark_zero]
      simp
    · rw [setmark_out T 0 hi]
      constructor
      · intro h
        exact absurd (marked_in_range h) (by omega)
      · intro h
        exact absurd rfl h.2
  · unfold llmsset_marked
    rw [read_setmark_ne T 0 hj]
    simp [hj]

theorem words64_setmark {T : llmsset} (i m : Nat) (hw : llmsset_words64 T) :
    llmsset_words64 (llmsset_setmark T i m) := by
  rcases Nat.lt_or_ge i T.length with hi | hi
  · rw [setmark_in T m hi]
    intro x hx
    rcases List.mem_or_eq_of_mem_set hx with h1 | h1
    · exact hw x h1
    · rw [h1]
      exact setmark_lt64 m (hw _ (List.get_mem T i hi))
  · rw [setmark_out T m hi]
    exact hw

/-- Reaching along marked nodes survives when marks are only added. -/
theorem reach_mono {T T2 : llmsset} (hc : llmsset_clear T2 = llmsset_clear T)
    (hm : ∀ i, llmsset_marked T i → llmsset_marked T2 i) {x y : Nat}
    (h : llmsset_reach T x y) : llmsset_reach T2 x y := by
  induction h with
  | here x hx => exact llmsset_reach.here x (hm x hx)
  | low x y hx hl _ ih =>
    obtain ⟨e1, _, e3⟩ := clear_eq_fields hc x
    refine llmsset_reach.low x y (hm x hx) (by rw [e3]; exact hl) ?_
    rw [e1]
    exact ih
  | high x y hx hl _ ih =>
    obtain ⟨_, e2, e3⟩ := clear_eq_fields hc x
    refine llmsset_reach.high x y (hm x hx) (by rw [e3]; exact hl) ?_
    rw [e2]
    exact ih

/-! ## `mtbdd_nodecount_mark` and `mtbdd_unmark_rec` -/

theorem nodecount_mark_sentinel {fuel : Nat} {T T2 : llmsset} {d c : Nat}
    (hd : d ≤ mtbdd_true) (hr : mtbdd_nodecount_mark fuel T d = .ok (c, T2)) :
    c = 0 ∧ T2 = T := by
  cases fuel with
  | zero => simp [mtbdd_nodecount_mark] at hr
  | succ fuel =>
    rw [mtbdd_nodecount_mark, if_pos hd] at hr
    injection hr with hr
    obtain ⟨rfl, rfl⟩ := Prod.mk.inj hr
    exact ⟨rfl, rfl⟩

theorem zero_le_true : (0 : Nat) ≤ mtbdd_true := Nat.zero_le _

theorem getlow_zero : mtbddnode_getlow ⟨0, 0⟩ = 0 := by decide

theorem gethigh_zero : mtbddnode_gethigh ⟨0, 0⟩ = 0 := by decide

/-- What a returning `mtbdd_nodecount_mark` does to the table: it only sets mark
bits, and every bucket it marks is reached from the bucket of its argument
along marked internal nodes. -/
theorem nodecount_mark_spec :
    ∀ (fuel : Nat) (T : llmsset) (d c : Nat) (T2 : llmsset),
      mtbdd_nodecount_mark fuel T d = .ok (c, T2) →
      llmsset_clear T2 = llmsset_clear T ∧ (llmsset_words64 T → llmsset_words64 T2) ∧
        (∀ i, llmsset_marked T i → llmsset_marked T2 i) ∧
        (∀ y, llmsset_marked T2 y → ¬ llmsset_marked T y →
          llmsset_reach T2 (d &&& 0x000000ffffffffff) y) := by
  intro fuel
  induction fuel with
  | zero => intro T d c T2 hr; simp [mtbdd_nodecount_mark] at hr
  | succ fuel ih =>
    intro T d c T2 hr
    rw [mtbdd_nodecount_mark] at hr
    split at hr
    · injection hr with hr
      obtain ⟨_, rfl⟩ := Prod.mk.inj hr
      exact ⟨rfl, id, fun _ h => h, fun y h1 h2 => absurd h1 h2⟩
    · simp only at hr
      split at hr
      · injection hr with hr
        obtain ⟨_, rfl⟩ := Prod.mk.inj hr
        exact ⟨rfl, id, fun _ h => h, fun y h1 h2 => absurd h1 h2⟩
      · rename_i hun
        have hgrow1 : ∀ i, llmsset_marked T i →
            llmsset_marked (llmsset_setmark T (d &&& 0x000000ffffffffff) 1) i :=
          fun i h => marked_setmark_one.2 (Or.inl h)
        have hnew1 : ∀ y, llmsset_marked (llmsset_setmark T (d &&& 0x000000ffffffffff) 1) y →
            ¬ llmsset_marked T y → y = d &&& 0x000000ffffffffff ∧
              llmsset_marked (llmsset_setmark T (d &&& 0x000000ffffffffff) 1)
                (d &&& 0x000000ffffffffff) := by
          intro y h1 h2
          rcases marked_setmark_one.1 h1 with h3 | ⟨h3, h4⟩
          · exact absurd h3 h2
          · exact ⟨h3, marked_setmark_one.2 (Or.inr ⟨rfl, h4⟩)⟩
        split at hr
        · injection hr with hr
          obtain ⟨_, rfl⟩ := Prod.mk.inj hr
          refine ⟨clear_setmark _ _ _, words64_setmark _ _, hgrow1, ?_⟩
          intro y h1 h2
          obtain ⟨rfl, h3⟩ := hnew1 y h1 h2
          exact llmsset_reach.here _ h3
        · rename_i hleaf
          split at hr
          · cases hr
          · rename_i c1 Ta hlow
            split at hr
            · cases hr
            · rename_i c2 Tb hhigh
              injection hr with hr
              obtain ⟨_, rfl⟩ := Prod.mk.inj hr
              obtain ⟨a1, a2, a3, a4⟩ := ih _ _ _ _ hlow
              obtain ⟨b1, b2, b3, b4⟩ := ih _ _ _ _ hhigh
              have hc2 : llmsset_clear Tb = llmsset_clear
                  (llmsset_setmark T (d &&& 0x000000ffffffffff) 1) := b1.trans a1
              refine ⟨hc2.trans (clear_setmark _ _ _),
                fun h => b2 (a2 (words64_setmark _ _ h)),
                fun i h => b3 i (a3 i (hgrow1 i h)), ?_⟩
              intro y h1 h2
              have hl2 : mtbddnode_isleaf (llmsset_read Tb (d &&& 0x000000ffffffffff)) = 0 := by
                rw [(clear_eq_fields hc2 _).2.2]
                exact not_not.1 hleaf
              by_cases hy2 : llmsset_marked Ta y
              · by_cases hy1 : llmsset_marked
                    (llmsset_setmark T (d &&& 0x000000ffffffffff) 1) y
                · obtain ⟨rfl, h3⟩ := hnew1 y hy1 h2
                  exact llmsset_reach.here _ (b3 _ (a3 _ h3))
                · have hr1 := reach_mono b1 b3 (a4 y hy2 hy1)
                  have hn : llmsset_marked (llmsset_setmark T (d &&& 0x000000ffffffffff) 1)
                      (d &&& 0x000000ffffffffff) := by
                    by_contra hc
                    have hout : T.length ≤ d &&& 0x000000ffffffffff := by
                      by_contra hlt
                      exact hc (marked_setmark_one.2 (Or.inr ⟨rfl, by omega⟩))
                    rw [setmark_out T 1 hout, read_out T hout, getlow_zero] at hlow
                    have e1 := (nodecount_mark_sentinel zero_le_true hlow).2
                    rw [setmark_out T 1 hout] at hy1
                    rw [e1] at hy2
                    exact hy1 hy2
                  refine llmsset_reach.low _ y (b3 _ (a3 _ hn)) hl2 ?_
                  rw [(clear_eq_fields hc2 _).1]
                  exact hr1
              · have hr1 := b4 y h1 hy2
                have hn : llmsset_marked (llmsset_setmark T (d &&& 0x000000ffffffffff) 1)
                    (d &&& 0x000000ffffffffff) := by
                  by_contra hc
                  have hout : T.length ≤ d &&& 0x000000ffffffffff := by
                    by_contra hlt
                    exact hc (marked_setmark_one.2 (Or.inr ⟨rfl, by omega⟩))
                  rw [setmark_out T 1 hout, read_out T hout, getlow_zero] at hlow
                  have e1 := (nodecount_mark_sentinel zero_le_true hlow).2
                  rw [e1, read_out T hout, gethigh_zero] at hhigh
                  have e2 := (nodecount_mark_sentinel zero_le_true hhigh).2
                  rw [e2, ← e1] at h1
                  exact hy2 h1
                refine llmsset_reach.high _ y (b3 _ (a3 _ hn)) hl2 ?_
                rw [(clear_eq_fields b1 _).2.1]
                exact hr1

/-- What a returning `mtbdd_unmark_rec` does to the table: it only clears mark
bits, the bucket of its argument ends unmarked, and both children of every
internal node it unmarks end unmarked. -/
theorem unmark_rec_spec :
    ∀ (fuel : Nat) (T : llmsset) (d : Nat) (T2 : llmsset),
      mtbdd_unmark_rec fuel T d = .ok T2 →
      llmsset_clear T2 = llmsset_clear T ∧ (llmsset_words64 T → llmsset_words64 T2) ∧
        (∀ i, llmsset_marked T2 i → llmsset_marked T i) ∧
        ¬ llmsset_marked T2 (d &&& 0x000000ffffffffff) ∧
        (∀ x, llmsset_marked T x → ¬ llmsset_marked T2 x →
          mtbddnode_isleaf (llmsset_read T x) = 0 →
          ¬ llmsset_marked T2 (mtbddnode_getlow (llmsset_read T x) &&& 0x000000ffffffffff) ∧
          ¬ llmsset_marked T2
            (mtbddnode_gethigh (llmsset_read T x) &&& 0x000000ffffffffff)) := by
  intro fuel
  induction fuel with
  | zero => intro T d T2 hr; simp [mtbdd_unmark_rec] at hr
  | succ fuel ih =>
    intro T d T2 hr
    rw [mtbdd_unmark_rec] at hr
    simp only at hr
    split at hr
    · rename_i hun
      injection hr with hr
      subst hr
      exact ⟨rfl, id, fun _ h => h, fun h => h hun, fun x h1 h2 => absurd h1 h2⟩
    · have hshrink1 : ∀ i, llmsset_marked (llmsset_setmark T (d &&& 0x000000ffffffffff) 0) i →
          llmsset_marked T i := fun i h => (marked_setmark_zero.1 h).1
      have hn1 : ¬ llmsset_marked (llmsset_setmark T (d &&& 0x000000ffffffffff) 0)
          (d &&& 0x000000ffffffffff) := fun h => (marked_setmark_zero.1 h).2 rfl
      have hc1 := clear_setmark T (d &&& 0x000000ffffffffff) 0
      split at hr
      · rename_i hleaf
        injection hr with hr
        subst hr
        refine ⟨hc1, words64_setmark _ _, hshrink1, hn1, ?_⟩
        intro x h1 h2 h3
        have hx : x = d &&& 0x000000ffffffffff := by
          by_contra hne
          exact h2 (marked_setmark_zero.2 ⟨h1, hne⟩)
        rw [hx, ← (clear_eq_fields hc1 _).2.2] at h3
        exact absurd h3 hleaf
      · split at hr
        · cases hr
        · rename_i Ta hlow
          obtain ⟨a1, a2, a3, a4, a5⟩ := ih _ _ _ hlow
          obtain ⟨b1, b2, b3, b4, b5⟩ := ih _ _ _ hr
          have hca : llmsset_clear Ta = llmsset_clear T := a1.trans hc1
          have hcb : llmsset_clear T2 = llmsset_clear T := b1.trans hca
          refine ⟨hcb, fun h => b2 (a2 (words64_setmark _ _ h)),
            fun i h => hshrink1 i (a3 i (b3 i h)),
            fun h => hn1 (a3 _ (b3 _ h)), ?_⟩
          intro x h1 h2 h3
          by_cases hxa : llmsset_marked Ta x
          · have := b5 x hxa h2 (by rw [(clear_eq_fields hca x).2.2]; exact h3)
            rw [(clear_eq_fields hca x).1, (clear_eq_fields hca x).2.1] at this
            exact this
          · by_cases hx1 : llmsset_marked (llmsset_setmark T (d &&& 0x000000ffffffffff) 0) x
            · have := a5 x hx1 hxa (by rw [(clear_eq_fields hc1 x).2.2]; exact h3)
              rw [(clear_eq_fields hc1 x).1, (clear_eq_fields hc1 x).2.1] at this
              exact ⟨fun h => this.1 (b3 _ h), fun h => this.2 (b3 _ h)⟩
            · have hx : x = d &&& 0x000000ffffffffff := by
                by_contra hne
                exact hx1 (marked_setmark_zero.2 ⟨h1, hne⟩)
              rw [hx]
              rw [(clear_eq_fields hc1 _).1] at a4
              rw [(clear_eq_fields hca _).2.1] at b4
              exact ⟨fun h => a4 (b3 _ h), b4⟩

/-- When every marked bucket is reached from the bucket of `d` along marked
internal nodes, a returning `mtbdd_unmark_rec(d)` leaves no bucket marked. -/
theorem unmark_rec_all {fuel : Nat} {T T2 : llmsset} {d : Nat}
    (hr : mtbdd_unmark_rec fuel T d = .ok T2)
    (hreach : ∀ y, llmsset_marked T y → llmsset_reach T (d &&& 0x000000ffffffffff) y) :
    ∀ y, ¬ llmsset_marked T2 y := by
  obtain ⟨_, _, u3, u4, u5⟩ := unmark_rec_spec fuel T d T2 hr
  have key : ∀ x y, llmsset_reach T x y → ¬ llmsset_marked T2 x → ¬ llmsset_marked T2 y := by
    intro x y h
    induction h with
    | here x _ => exact id
    | low x y hx hl _ ih => exact fun h => ih (u5 x hx h hl).1
    | high x y hx hl _ ih => exact fun h => ih (u5 x hx h hl).2
  intro y hy
  exact key _ y (hreach y (u3 y hy)) u4 hy

theorem unmarked_iff (T : llmsset) : llmsset_unmarked T ↔ ∀ i, ¬ llmsset_marked T i := by
  unfold llmsset_unmarked llmsset_marked
  constructor
  · intro h i
    rcases Nat.lt_or_ge i T.length with hi | hi
    · rw [(read_in T hi).2]
      exact not_not.2 (h _ (List.get_mem T i hi))
    · rw [read_out T hi]
      exact not_not.2 (by decide)
  · intro h x hx
    obtain ⟨i, hi, rfl⟩ := List.mem_iff_getElem.1 hx
    have := h i
    rw [(read_in T hi).2] at this
    exact not_not.1 this

/-- Two tables of 64-bit words without marks that agree once their mark bits
are cleared are the same table. -/
theorem clear_eq_self {T : llmsset} (hu : llmsset_unmarked T) (hw : llmsset_words64 T) :
    llmsset_clear T = T := by
  unfold llmsset_clear
  have : ∀ x ∈ T, (fun x : bucket => ({ x with node := mtbddnode_setmark x.node 0 } : bucket)) x
      = id x := by
    intro x hx
    simp only [id]
    rw [setmark_zero_self (hu x hx) (hw x hx)]
  rw [List.map_congr_left this, List.map_id]

/-! ## Termination of the two traversals -/

theorem countP_set {α : Type} (p : α → Bool) :
    ∀ (l : List α) (i : Nat) (y : α) (hi : i < l.length),
      (l.set i y).countP p + (if p (l.get ⟨i, hi⟩) = true then 1 else 0) =
        l.countP p + (if p y = true then 1 else 0) := by
  intro l
  induction l with
  | nil => intro i y hi; simp at hi
  | cons x l ih =>
    intro i y hi
    cases i with
    | zero =>
      simp only [List.set_cons_zero, List.countP_cons, List.get_eq_getElem,
        List.getElem_cons_zero]
      omega
    | succ i =>
      have := ih i y (by simpa using hi)
      simp only [List.set_cons_succ, List.countP_cons, List.get_eq_getElem,
        List.getElem_cons_succ] at this ⊢
      omega

theorem marks_le_length (T : llmsset) : llmsset_marks T ≤ T.length :=
  List.countP_le_length _

theorem marks_setmark_one {T : llmsset} {i : Nat} (hi : i < T.length)
    (hu : ¬ llmsset_marked T i) : llmsset_marks (llmsset_setmark T i 1) = llmsset_marks T + 1 := by
  unfold llmsset_marked at hu
  rw [(read_in T hi).2] at hu
  rw [setmark_in T 1 hi]
  unfold llmsset_marks
  have := countP_set (fun x : bucket => decide (mtbddnode_getmark x.node ≠ 0)) T i
    { T.get ⟨i, hi⟩ with node := mtbddnode_setmark (T.get ⟨i, hi⟩).node 1 } hi
  simp only [getmark_setmark_one _ one_ne_zero, decide_eq_true_eq, hu, if_false, Nat.add_zero,
    ne_eq, one_ne_zero, not_false_eq_true, if_true] at this
  exact this

theorem marks_setmark_zero {T : llmsset} {i : Nat} (hm : llmsset_marked T i) :
    llmsset_marks (llmsset_setmark T i 0) + 1 = llmsset_marks T := by
  have hi := marked_in_range hm
  unfold llmsset_marked at hm
  rw [(read_in T hi).2] at hm
  rw [setmark_in T 0 hi]
  unfold llmsset_marks
  have := countP_set (fun x : bucket => decide (mtbddnode_getmark x.node ≠ 0)) T i
    { T.get ⟨i, hi⟩ with node := mtbddnode_setmark (T.get ⟨i, hi⟩).node 0 } hi
  simp only [getmark_setmark_zero, decide_eq_true_eq, hm, if_true, ne_eq, not_true_eq_false,
    if_false, Nat.add_zero] at this
  exact this

/-- With a recursion bound above the number of unmarked buckets by two,
`mtbdd_nodecount_mark` returns. -/
theorem nodecount_mark_total :
    ∀ (fuel : Nat) (T : llmsset) (d : Nat), T.length - llmsset_marks T + 2 ≤ fuel →
      ∃ c T2, mtbdd_nodecount_mark fuel T d = .ok (c, T2) ∧
        llmsset_marks T ≤ llmsset_marks T2 ∧ T2.length = T.length := by
  intro fuel
  induction fuel with
  | zero => intro T d hf; omega
  | succ fuel ih =>
    intro T d hf
    rw [mtbdd_nodecount_mark]
    by_cases hd : d ≤ mtbdd_true
    · rw [if_pos hd]
      exact ⟨0, T, rfl, Nat.le_refl _, rfl⟩
    · rw [if_neg hd]
      simp only
      by_cases hm : mtbddnode_getmark (llmsset_read T (d &&& 0x000000ffffffffff)) ≠ 0
      · rw [if_pos hm]
        exact ⟨0, T, rfl, Nat.le_refl _, rfl⟩
      · rw [if_neg hm]
        have hlen1 := setmark_length T (d &&& 0x000000ffffffffff) 1
        have hmarks1 : llmsset_marks T ≤
            llmsset_marks (llmsset_setmark T (d &&& 0x000000ffffffffff) 1) := by
          rcases Nat.lt_or_ge (d &&& 0x000000ffffffffff) T.length with hi | hi
          · rw [marks_setmark_one hi hm]
            omega
          · rw [setmark_out T 1 hi]
        by_cases hleaf : mtbddnode_isleaf
            (llmsset_read (llmsset_setmark T (d &&& 0x000000ffffffffff) 1)
              (d &&& 0x000000ffffffffff)) ≠ 0
        · rw [if_pos hleaf]
          exact ⟨1, _, rfl, hmarks1, hlen1⟩
        · rw [if_neg hleaf]
          rcases Nat.lt_or_ge (d &&& 0x000000ffffffffff) T.length with hi | hi
          · have hm1 := marks_setmark_one hi hm
            have hb1 := marks_le_length (llmsset_setmark T (d &&& 0x000000ffffffffff) 1)
            obtain ⟨c1, Ta, ea, ma, la⟩ := ih (llmsset_setmark T (d &&& 0x000000ffffffffff) 1)
              (mtbddnode_getlow (llmsset_read (llmsset_setmark T (d &&& 0x000000ffffffffff) 1)
                (d &&& 0x000000ffffffffff))) (by omega)
            rw [ea]
            simp only
            obtain ⟨c2, Tb, eb, mb, lb⟩ := ih Ta
              (mtbddnode_gethigh (llmsset_read Ta (d &&& 0x000000ffffffffff))) (by omega)
            rw [eb]
            exact ⟨_, Tb, rfl, by omega, by omega⟩
          · rw [setmark_out T 1 hi, read_out T hi, getlow_zero]
            cases fuel with
            | zero => omega
            | succ fuel =>
              have e0 : mtbdd_nodecount_mark (fuel + 1) T 0 = .ok (0, T) := by
                rw [mtbdd_nodecount_mark, if_pos zero_le_true]
              rw [e0]
              simp only
              rw [read_out T hi, gethigh_zero, e0]
              exact ⟨_, T, rfl, Nat.le_refl _, rfl⟩

/-- With a recursion bound above the number of marked buckets, `mtbdd_unmark_rec`
returns. -/
theorem unmark_rec_total :
    ∀ (fuel : Nat) (T : llmsset) (d : Nat), llmsset_marks T + 1 ≤ fuel →
      ∃ T2, mtbdd_unmark_rec fuel T d = .ok T2 ∧ llmsset_marks T2 ≤ llmsset_marks T := by
  intro fuel
  induction fuel with
  | zero => intro T d hf; omega
  | succ fuel ih =>
    intro T d hf
    rw [mtbdd_unmark_rec]
    simp only
    by_cases hm : mtbddnode_getmark (llmsset_read T (d &&& 0x000000ffffffffff)) = 0
    · rw [if_pos hm]
      exact ⟨T, rfl, Nat.le_refl _⟩
    · rw [if_neg hm]
      have hm1 := marks_setmark_zero (T := T) (i := d &&& 0x000000ffffffffff) hm
      by_cases hleaf : mtbddnode_isleaf
          (llmsset_read (llmsset_setmark T (d &&& 0x000000ffffffffff) 0)
            (d &&& 0x000000ffffffffff)) ≠ 0
      · rw [if_pos hleaf]
        exact ⟨_, rfl, by omega⟩
      · rw [if_neg hleaf]
        obtain ⟨Ta, ea, ma⟩ := ih (llmsset_setmark T (d &&& 0x000000ffffffffff) 0)
          (mtbddnode_getlow (llmsset_read (llmsset_setmark T (d &&& 0x000000ffffffffff) 0)
            (d &&& 0x000000ffffffffff))) (by omega)
        rw [ea]
        simp only
        obtain ⟨Tb, eb, mb⟩ := ih Ta
          (mtbddnode_gethigh (llmsset_read Ta (d &&& 0x000000ffffffffff))) (by omega)
        exact ⟨Tb, eb, by omega⟩

/-! ## Node construction: redundancy, decoding, canonicity -/

/-- C4: `mtbdd_makenode(v, x, x)` returns `x` and leaves the whole state as it
was: no bucket is written and the log of table operations gains no lookup
(and no collection). -/
theorem makenode_redundant (gc : List Nat → llmsset → llmsset) (s : sylvan) (v x : Nat) :
    mtbdd_makenode gc s v x x = .ok (x, s) := by
  unfold mtbdd_makenode
  rw [if_pos rfl]

/-- C1: when `mtbdd_makenode(v, lo, hi)` with `v < 2^24` and well-formed
handles `lo != hi` returns `h` in a table of at most `2^40` buckets, then on
that table `mtbdd_getvar(h) = v`, `mtbdd_getlow(h) = lo`, `mtbdd_gethigh(h) = hi`
bit for bit, and `mtbdd_isleaf(h)` is false. -/
theorem makenode_decode (gc : List Nat → llmsset → llmsset) (s s2 : sylvan)
    (v lo hi h : Nat) (hv : v < 2 ^ 24) (hlo : mtbdd_wellformed lo)
    (hhi : mtbdd_wellformed hi) (hne : lo ≠ hi) (hsize : s2.nodes.length ≤ 2 ^ 40)
    (hr : mtbdd_makenode gc s v lo hi = .ok (h, s2)) :
    mtbdd_getvar s2.nodes h = v ∧ mtbdd_getlow s2.nodes h = lo ∧
      mtbdd_gethigh s2.nodes h = hi ∧ mtbdd_isleaf s2.nodes h = 0 := by
  obtain ⟨i, hi0, rfl, hh, _⟩ := makenode_ok hne hr
  have hi40 : i < 2 ^ 40 := lt_of_lt_of_le (holds_lt_length hh) hsize
  have hnode : GETNODE s2.nodes (makenode_handle lo i) =
      mtbddnode_makenode v (makenode_low lo) (makenode_high lo hi) := by
    unfold GETNODE
    rw [makenode_handle_index lo hi40]
    exact holds_read hh
  refine ⟨?_, ?_, ?_, ?_⟩
  · unfold mtbdd_getvar
    rw [hnode]
    exact decode_variable hv (makenode_low_lt40 hlo) _
  · unfold mtbdd_getlow
    rw [hnode]
    exact decode_low v hlo hi40
  · unfold mtbdd_gethigh
    rw [hnode]
    exact decode_high v hhi hi40
  · unfold mtbdd_isleaf
    have hidx := makenode_handle_index lo hi40
    have h1 : makenode_handle lo i ≠ mtbdd_true := by
      intro hc
      rw [hc] at hidx
      have : mtbdd_true &&& 0x000000ffffffffff = 0 := by decide
      omega
    have h2 : makenode_handle lo i ≠ mtbdd_false := by
      intro hc
      rw [hc] at hidx
      have : mtbdd_false &&& 0x000000ffffffffff = 0 := by decide
      omega
    rw [if_neg (by simp [h1, h2]), hnode]
    exact makenode_not_leaf _ _ (makenode_high_wellformed lo hhi)

/-- Witness of C1: on a fresh table of three buckets,
`mtbdd_makenode(5, mtbdd_true, mtbdd_false)` returns the complemented handle of
bucket 1, which decodes to variable 5 and the two children given. -/
theorem makenode_decode_witness :
    mtbdd_makenode (fun _ T => T) ⟨List.replicate 3 ⟨false, ⟨0, 0⟩⟩, [], []⟩ 5
        mtbdd_true mtbdd_false =
      .ok (0x8000000000000001,
        ⟨[⟨false, ⟨0, 0⟩⟩, ⟨true, ⟨0x8000000000000000, 0x50000000000⟩⟩, ⟨false, ⟨0, 0⟩⟩], [],
          [event.lookup 0x8000000000000000 0x50000000000 1]⟩) ∧
    mtbdd_getvar [⟨false, ⟨0, 0⟩⟩, ⟨true, ⟨0x8000000000000000, 0x50000000000⟩⟩,
        ⟨false, ⟨0, 0⟩⟩] 0x8000000000000001 = 5 ∧
    mtbdd_getlow [⟨false, ⟨0, 0⟩⟩, ⟨true, ⟨0x8000000000000000, 0x50000000000⟩⟩,
        ⟨false, ⟨0, 0⟩⟩] 0x8000000000000001 = mtbdd_true ∧
    mtbdd_gethigh [⟨false, ⟨0, 0⟩⟩, ⟨true, ⟨0x8000000000000000, 0x50000000000⟩⟩,
        ⟨false, ⟨0, 0⟩⟩] 0x8000000000000001 = mtbdd_false ∧
    mtbdd_isleaf [⟨false, ⟨0, 0⟩⟩, ⟨true, ⟨0x8000000000000000, 0x50000000000⟩⟩,
        ⟨false, ⟨0, 0⟩⟩] 0x8000000000000001 = 0 :=
  ⟨rfl,
   makenode_decode (fun _ T => T) ⟨List.replicate 3 ⟨false, ⟨0, 0⟩⟩, [], []⟩
    ⟨[⟨false, ⟨0, 0⟩⟩, ⟨true, ⟨0x8000000000000000, 0x50000000000⟩⟩, ⟨false, ⟨0, 0⟩⟩], [],
      [event.lookup 0x8000000000000000 0x50000000000 1]⟩
    5 mtbdd_true mtbdd_false 0x8000000000000001 (by decide) (by decide) (by decide)
    (by decide) (by decide) rfl⟩

/-- C2: when `mtbdd_makenode(v, lo, hi)` with `lo != hi` has returned `h`, a
second invocation on the resulting state returns the bit-equal handle `h`,
leaves the table and the in-flight stack as they are and adds one successful
lookup (no collection) to the log; and if no node content was held by two
buckets before the first invocation (the collector keeping it so), none is
afterwards. -/
theorem makenode_canonical (gc : List Nat → llmsset → llmsset) (s s1 : sylvan)
    (v lo hi h : Nat) (hne : lo ≠ hi) (h1 : mtbdd_makenode gc s v lo hi = .ok (h, s1)) :
    (∃ i, i ≠ 0 ∧ mtbdd_makenode gc s1 v lo hi =
        .ok (h, { s1 with log := s1.log ++ [event.lookup
          (mtbddnode_makenode v (makenode_low lo) (makenode_high lo hi)).a
          (mtbddnode_makenode v (makenode_low lo) (makenode_high lo hi)).b i] })) ∧
      (llmsset_nodup s.nodes → gc_keeps_nodup gc → llmsset_nodup s1.nodes) := by
  obtain ⟨i, hi0, rfl, _, hl⟩ := makenode_ok hne h1
  refine ⟨⟨i, hi0, ?_⟩, fun hn hgc => makenode_nodup hgc hn h1⟩
  rw [makenode_room gc s1 v hne hl hi0]

/-- Witness of C2: on a fresh table of three buckets, the second
`mtbdd_makenode(5, mtbdd_true, mtbdd_false)` finds bucket 1 again. -/
theorem makenode_canonical_witness :
    (∃ i, i ≠ 0 ∧ mtbdd_makenode (fun _ T => T)
        ⟨[⟨false, ⟨0, 0⟩⟩, ⟨true, ⟨0x8000000000000000, 0x50000000000⟩⟩, ⟨false, ⟨0, 0⟩⟩], [],
          [event.lookup 0x8000000000000000 0x50000000000 1]⟩ 5 mtbdd_true mtbdd_false =
        .ok (0x8000000000000001,
          ⟨[⟨false, ⟨0, 0⟩⟩, ⟨true, ⟨0x8000000000000000, 0x50000000000⟩⟩, ⟨false, ⟨0, 0⟩⟩],
            [], [event.lookup 0x8000000000000000 0x50000000000 1] ++ [event.lookup
              (mtbddnode_makenode 5 (makenode_low mtbdd_true)
                (makenode_high mtbdd_true mtbdd_false)).a
              (mtbddnode_makenode 5 (makenode_low mtbdd_true)
                (makenode_high mtbdd_true mtbdd_false)).b i]⟩)) ∧
      (llmsset_nodup (List.replicate 3 ⟨false, ⟨0, 0⟩⟩) → gc_keeps_nodup (fun _ T => T) →
        llmsset_nodup [⟨false, ⟨0, 0⟩⟩, ⟨true, ⟨0x8000000000000000, 0x50000000000⟩⟩,
          ⟨false, ⟨0, 0⟩⟩]) :=
  makenode_canonical (fun _ T => T) ⟨List.replicate 3 ⟨false, ⟨0, 0⟩⟩, [], []⟩
    ⟨[⟨false, ⟨0, 0⟩⟩, ⟨true, ⟨0x8000000000000000, 0x50000000000⟩⟩, ⟨false, ⟨0, 0⟩⟩], [],
      [event.lookup 0x8000000000000000 0x50000000000 1]⟩
    5 mtbdd_true mtbdd_false 0x8000000000000001 (by decide) rfl

/-! ## The low child and the mark of its parent -/

/-- C5, as the code has it: for every handle `h`,
`mtbdd_getlow(toggle_mark(h)) = toggle_mark(mtbdd_getlow(h))`, and
`mtbdd_getlow(h)` carries the complement bit exactly when `h` does. -/
theorem getlow_transfers_mark (T : llmsset) (h : Nat) :
    mtbdd_getlow T (MTBDD_TOGGLEMARK h) = MTBDD_TOGGLEMARK (mtbdd_getlow T h) ∧
      MTBDD_HASMARK (mtbdd_getlow T h) = MTBDD_HASMARK h := by
  constructor
  · unfold mtbdd_getlow node_getlow
    rw [getnode_toggle, transfermark_toggle]
  · rw [hasmark_eq, hasmark_eq]
    unfold mtbdd_getlow node_getlow mtbddnode_getlow
    rw [testBit63_transfermark _ _ (index_lt40 _)]

/-- C5 fails as stated: after `mtbdd_makenode(0, mtbdd_false, mtbdd_true)` on a
fresh table, the handle `1` is an internal node whose low child read through
the complemented handle is `mtbdd_true`, which differs from the low child
`mtbdd_false` read through `1` and carries the complement bit. -/
theorem getlow_toggle_counterexample :
    mtbdd_makenode (fun _ T => T) ⟨List.replicate 3 ⟨false, ⟨0, 0⟩⟩, [], []⟩ 0
        mtbdd_false mtbdd_true =
      .ok (1, ⟨[⟨false, ⟨0, 0⟩⟩, ⟨true, ⟨0x8000000000000000, 0⟩⟩, ⟨false, ⟨0, 0⟩⟩], [],
        [event.lookup 0x8000000000000000 0 1]⟩) ∧
    mtbdd_isleaf [⟨false, ⟨0, 0⟩⟩, ⟨true, ⟨0x8000000000000000, 0⟩⟩, ⟨false, ⟨0, 0⟩⟩] 1 = 0 ∧
    mtbdd_getlow [⟨false, ⟨0, 0⟩⟩, ⟨true, ⟨0x8000000000000000, 0⟩⟩, ⟨false, ⟨0, 0⟩⟩]
        (MTBDD_TOGGLEMARK 1) ≠
      mtbdd_getlow [⟨false, ⟨0, 0⟩⟩, ⟨true, ⟨0x8000000000000000, 0⟩⟩, ⟨false, ⟨0, 0⟩⟩] 1 ∧
    MTBDD_HASMARK (mtbdd_getlow
      [⟨false, ⟨0, 0⟩⟩, ⟨true, ⟨0x8000000000000000, 0⟩⟩, ⟨false, ⟨0, 0⟩⟩]
        (MTBDD_TOGGLEMARK 1)) = 1 :=
  ⟨rfl, by decide, by decide, by decide⟩

/-! ## Adding a cube to the empty diagram -/

/-- C9: whenever `mtbdd_cube(vars, pattern, t)` returns (it consumes the
pattern against `vars`), `mtbdd_union_cube(mtbdd_false, vars, pattern, t)`
returns the bit-equal handle and the same state, for every terminal `t`,
`mtbdd_false` included. -/
theorem union_cube_of_false (gc : List Nat → llmsset → llmsset) (fuel : Nat) (s s2 : sylvan)
    (vars : Nat) (pattern : List Nat) (t r : Nat)
    (h : mtbdd_cube gc fuel s vars pattern t = .ok (r, s2)) :
    mtbdd_union_cube gc fuel s mtbdd_false vars pattern t = .ok (r, s2) := by
  cases fuel with
  | zero => simp [mtbdd_cube] at h
  | succ fuel =>
    unfold mtbdd_union_cube
    by_cases ht : mtbdd_false = t
    · subst ht
      obtain ⟨rfl, rfl⟩ := cube_false gc _ _ _ _ _ _ h
      rw [if_pos rfl]
    · rw [if_neg ht, if_pos rfl]
      exact h

/-- Witness of C9: on a table holding the variable cube of variable 0 in
bucket 1, `mtbdd_cube` of pattern `[0]` with terminal `mtbdd_true` returns the
complemented handle of bucket 1, and so does `mtbdd_union_cube` from
`mtbdd_false`. -/
theorem union_cube_of_false_witness :
    mtbdd_union_cube (fun _ T => T) 2
        ⟨[⟨false, ⟨0, 0⟩⟩, ⟨true, ⟨0x8000000000000000, 0⟩⟩, ⟨false, ⟨0, 0⟩⟩], [], []⟩
        mtbdd_false 1 [0] mtbdd_true =
      .ok (0x8000000000000001,
        ⟨[⟨false, ⟨0, 0⟩⟩, ⟨true, ⟨0x8000000000000000, 0⟩⟩, ⟨false, ⟨0, 0⟩⟩], [],
          [event.lookup 0x8000000000000000 0 1]⟩) :=
  union_cube_of_false (fun _ T => T) 2
    ⟨[⟨false, ⟨0, 0⟩⟩, ⟨true, ⟨0x8000000000000000, 0⟩⟩, ⟨false, ⟨0, 0⟩⟩], [], []⟩
    ⟨[⟨false, ⟨0, 0⟩⟩, ⟨true, ⟨0x8000000000000000, 0⟩⟩, ⟨false, ⟨0, 0⟩⟩], [],
      [event.lookup 0x8000000000000000 0 1]⟩
    1 [0] mtbdd_true 0x8000000000000001 rfl

/-! ## Counting nodes -/

/-- C10, the code at the failing input: after
`mtbdd_makenode(0, mtbdd_false, mtbdd_true)` on a fresh table (all mark bits
clear), the handle `1` is an internal node, so one table node is reachable
from it, yet `mtbdd_nodecount(1)` returns 0: the guard
`mtbdd <= mtbdd_true` holds for every handle without the complement bit. -/
theorem nodecount_uncomplemented_is_zero :
    mtbdd_makenode (fun _ T => T) ⟨List.replicate 3 ⟨false, ⟨0, 0⟩⟩, [], []⟩ 0
        mtbdd_false mtbdd_true =
      .ok (1, ⟨[⟨false, ⟨0, 0⟩⟩, ⟨true, ⟨0x8000000000000000, 0⟩⟩, ⟨false, ⟨0, 0⟩⟩], [],
        [event.lookup 0x8000000000000000 0 1]⟩) ∧
    mtbdd_isleaf [⟨false, ⟨0, 0⟩⟩, ⟨true, ⟨0x8000000000000000, 0⟩⟩, ⟨false, ⟨0, 0⟩⟩] 1 = 0 ∧
    mtbdd_nodecount 3 [⟨false, ⟨0, 0⟩⟩, ⟨true, ⟨0x8000000000000000, 0⟩⟩, ⟨false, ⟨0, 0⟩⟩] 1 =
      .ok (0, [⟨false, ⟨0, 0⟩⟩, ⟨true, ⟨0x8000000000000000, 0⟩⟩, ⟨false, ⟨0, 0⟩⟩]) :=
  ⟨rfl, by decide, rfl⟩

/-! ## The cube built by `mtbdd_cube` -/

/-- C6: for a variable cube `vars` of the table listing the variables `vs`, a
pattern of the same length with bytes in {0,1,2,3} whose last byte is not 3,
and a terminal `t`, in a table of at most `2^40` buckets with two free buckets
per variable, `mtbdd_cube(vars, pattern, t)` returns, and its result evaluates
to `t` under every assignment that makes the 0-variables false, the
1-variables true and each 3-variable equal to the next variable (whose own
byte is skipped), and to `mtbdd_false` under every other assignment. -/
theorem cube_evaluates (gc : List Nat → llmsset → llmsset) (fuel : Nat) (s : sylvan)
    (vars : Nat) (vs pattern : List Nat) (t : Nat)
    (hvars : mtbdd_varcube s.nodes vars vs) (hlen : pattern.length = vs.length)
    (hbytes : ∀ c ∈ pattern, c ≤ 3) (hlast : pattern.getLast? ≠ some 3)
    (ht : mtbdd_terminal s.nodes t) (hsize : s.nodes.length ≤ 2 ^ 40)
    (hroom : 2 * vs.length ≤ llmsset_free s.nodes) (hfuel : vs.length < fuel) :
    ∃ r s2, mtbdd_cube gc fuel s vars pattern t = .ok (r, s2) ∧
      ∀ ρ, mtbdd_evaluates s2.nodes ρ r
        (if cube_sat ρ vs pattern = true then t else mtbdd_false) := by
  obtain ⟨r, s2, e1, _, _, _, _, e6⟩ := cube_spec gc t fuel s vars vs pattern hvars
    (consumed_of_pattern vs.length vs pattern (Nat.le_refl _) hlen hbytes hlast) hfuel hroom hsize ht
  exact ⟨r, s2, e1, fun ρ => e6 _ (table_le_refl _) ρ⟩

/-- Witness of C6: the variable cube of the variables 0 and 1 in buckets 2
and 1 of a table of eight buckets, the pattern `[3, 0]` and the terminal
`mtbdd_true`. -/
theorem cube_evaluates_witness :
    ∃ r s2, mtbdd_cube (fun _ T => T) 3
        ⟨[⟨false, ⟨0, 0⟩⟩, ⟨true, ⟨0x8000000000000000, 0x10000000000⟩⟩, ⟨true, ⟨1, 0⟩⟩,
          ⟨false, ⟨0, 0⟩⟩, ⟨false, ⟨0, 0⟩⟩, ⟨false, ⟨0, 0⟩⟩, ⟨false, ⟨0, 0⟩⟩,
          ⟨false, ⟨0, 0⟩⟩], [], []⟩ 2 [3, 0] mtbdd_true = .ok (r, s2) ∧
      ∀ ρ, mtbdd_evaluates s2.nodes ρ r
        (if cube_sat ρ [0, 1] [3, 0] = true then mtbdd_true else mtbdd_false) :=
  cube_evaluates (fun _ T => T) 3
    ⟨[⟨false, ⟨0, 0⟩⟩, ⟨true, ⟨0x8000000000000000, 0x10000000000⟩⟩, ⟨true, ⟨1, 0⟩⟩,
      ⟨false, ⟨0, 0⟩⟩, ⟨false, ⟨0, 0⟩⟩, ⟨false, ⟨0, 0⟩⟩, ⟨false, ⟨0, 0⟩⟩,
      ⟨false, ⟨0, 0⟩⟩], [], []⟩ 2 [0, 1] [3, 0] mtbdd_true
    ⟨by decide, ⟨1, 0⟩, ⟨by decide, rfl⟩, by decide, by decide, by decide, by decide,
      by decide, ⟨0x8000000000000000, 0x10000000000⟩, ⟨by decide, rfl⟩, by decide, by decide,
      by decide, by decide, rfl⟩
    rfl (by decide) (by decide) ⟨by decide, Or.inl rfl⟩ (by decide) (by decide) (by decide)

/-! ## `mtbdd_union_cube` above the top variable of the diagram -/

/-- C7, the code at the failing input: in a table holding the diagram `x1`
(bucket 1) and the variable cube of variable 0 (bucket 2),
`mtbdd_union_cube(x1, vars, [0], mtbdd_true)` returns the complemented handle
of bucket 2, the diagram of "not x0".  Under the assignment that makes every
variable true the diagram `x1` evaluates to `mtbdd_true`, but the result
evaluates to `mtbdd_false` and not to `mtbdd_true`: the branch `va > v` builds
`mtbdd_makenode(v, new_low, mtbdd_false)` and drops the diagram where the
variable is true. -/
theorem union_cube_drops_diagram :
    mtbdd_union_cube (fun _ T => T) 3
        ⟨[⟨false, ⟨0, 0⟩⟩, ⟨true, ⟨0x8000000000000000, 0x10000000000⟩⟩,
          ⟨true, ⟨0x8000000000000000, 0⟩⟩, ⟨false, ⟨0, 0⟩⟩], [], []⟩ 1 2 [0] mtbdd_true =
      .ok (0x8000000000000002,
        ⟨[⟨false, ⟨0, 0⟩⟩, ⟨true, ⟨0x8000000000000000, 0x10000000000⟩⟩,
          ⟨true, ⟨0x8000000000000000, 0⟩⟩, ⟨false, ⟨0, 0⟩⟩], [],
          [event.lookup 0x8000000000000000 0 2]⟩) ∧
    mtbdd_evaluates [⟨false, ⟨0, 0⟩⟩, ⟨true, ⟨0x8000000000000000, 0x10000000000⟩⟩,
        ⟨true, ⟨0x8000000000000000, 0⟩⟩, ⟨false, ⟨0, 0⟩⟩] (fun _ => true) 1 mtbdd_true ∧
    mtbdd_evaluates [⟨false, ⟨0, 0⟩⟩, ⟨true, ⟨0x8000000000000000, 0x10000000000⟩⟩,
        ⟨true, ⟨0x8000000000000000, 0⟩⟩, ⟨false, ⟨0, 0⟩⟩] (fun _ => true)
      0x8000000000000002 mtbdd_false ∧
    ¬ mtbdd_evaluates [⟨false, ⟨0, 0⟩⟩, ⟨true, ⟨0x8000000000000000, 0x10000000000⟩⟩,
        ⟨true, ⟨0x8000000000000000, 0⟩⟩, ⟨false, ⟨0, 0⟩⟩] (fun _ => true)
      0x8000000000000002 mtbdd_true := by
  have e1 : mtbdd_evaluates [⟨false, ⟨0, 0⟩⟩, ⟨true, ⟨0x8000000000000000, 0x10000000000⟩⟩,
      ⟨true, ⟨0x8000000000000000, 0⟩⟩, ⟨false, ⟨0, 0⟩⟩] (fun _ => true) 1 mtbdd_true :=
    mtbdd_evaluates.high 1 mtbdd_true (by decide) rfl
      (mtbdd_evaluates.leaf mtbdd_true (by decide))
  have e2 : mtbdd_evaluates [⟨false, ⟨0, 0⟩⟩, ⟨true, ⟨0x8000000000000000, 0x10000000000⟩⟩,
      ⟨true, ⟨0x8000000000000000, 0⟩⟩, ⟨false, ⟨0, 0⟩⟩] (fun _ => true)
      0x8000000000000002 mtbdd_false :=
    mtbdd_evaluates.high 0x8000000000000002 mtbdd_false (by decide) rfl
      (mtbdd_evaluates.leaf mtbdd_false (by decide))
  refine ⟨rfl, e1, e2, ?_⟩
  intro e3
  have := evaluates_unique e2 e3
  exact absurd this (by decide)

/-! ## One handle per function -/

/-- C3: in a state built from a fresh table only through `mtbdd_makeleaf` and
`mtbdd_makenode` (on well-formed handles, the collector keeping the table in
the form these write), two variable-ordered diagrams `d1`, `d2` of the table
that evaluate to the same terminal handle under every assignment are
bit-equal. -/
theorem one_handle_per_function (gc : List Nat → llmsset → llmsset) (s : sylvan)
    (d1 d2 : Nat) (hgc : gc_keeps_canonical gc) (hb : sylvan_built gc s)
    (h1 : mtbdd_diagram s.nodes d1) (h2 : mtbdd_diagram s.nodes d2)
    (hs : ∀ ρ t, mtbdd_evaluates s.nodes ρ d1 t ↔ mtbdd_evaluates s.nodes ρ d2 t) :
    d1 = d2 :=
  ordered_canonical (built_canonical hgc hb) (2 ^ 32) 0 d1 d2 (by omega)
    (diagram_ordered h1 0 (fun _ => Nat.zero_le _))
    (diagram_ordered h2 0 (fun _ => Nat.zero_le _)) hs

/-- Witness of C3: the state after `mtbdd_makenode(0, mtbdd_false, mtbdd_true)`
on a fresh table of three buckets is built, the handle `1` it returned is a
variable-ordered diagram of it, and the theorem applies to that handle. -/
theorem one_handle_per_function_witness :
    sylvan_built (fun _ T => T)
      ⟨[⟨false, ⟨0, 0⟩⟩, ⟨true, ⟨0x8000000000000000, 0⟩⟩, ⟨false, ⟨0, 0⟩⟩], [],
        [event.lookup 0x8000000000000000 0 1]⟩ ∧
    mtbdd_diagram [⟨false, ⟨0, 0⟩⟩, ⟨true, ⟨0x8000000000000000, 0⟩⟩, ⟨false, ⟨0, 0⟩⟩] 1 ∧
    MTBDD_TOGGLEMARK (MTBDD_TOGGLEMARK 1) = 1 :=
  have hb : sylvan_built (fun _ T => T)
      ⟨[⟨false, ⟨0, 0⟩⟩, ⟨true, ⟨0x8000000000000000, 0⟩⟩, ⟨false, ⟨0, 0⟩⟩], [],
        [event.lookup 0x8000000000000000 0 1]⟩ :=
    sylvan_built.makenode ⟨List.replicate 3 ⟨false, ⟨0, 0⟩⟩, [], []⟩ _ 0 mtbdd_false
      mtbdd_true 1 (sylvan_built.init 3) (by decide) (by decide) rfl
  have hd : mtbdd_diagram
      [⟨false, ⟨0, 0⟩⟩, ⟨true, ⟨0x8000000000000000, 0⟩⟩, ⟨false, ⟨0, 0⟩⟩] 1 :=
    mtbdd_diagram.node 1 0 mtbdd_false mtbdd_true
      ⟨by decide, by decide, ⟨0x8000000000000000, 0⟩, ⟨by decide, rfl⟩, by decide, by decide,
        by decide, by decide⟩
      (mtbdd_diagram.terminal _ ⟨by decide, Or.inr (Or.inl rfl)⟩)
      (mtbdd_diagram.terminal _ ⟨by decide, Or.inl rfl⟩)
      (fun h => absurd h (by decide)) (fun h => absurd h (by decide))
  ⟨hb, hd, one_handle_per_function (fun _ T => T) _ (MTBDD_TOGGLEMARK (MTBDD_TOGGLEMARK 1)) 1
    (fun _ _ h => h) hb hd hd (fun _ _ => Iff.rfl)⟩

/-! ## Adding the same cube twice -/

/-- C8, as the code has it: let the collector reclaim no node, the table have
at most `2^40` buckets, `vars` be the variable cube of `vs` and `t` a terminal.
If the recursion of `mtbdd_union_cube` stays within what the code supports
both on `d` and on the result `r` of the first application (bytes 0, 1, 2,
ordered diagram ending in `t` or `mtbdd_false`, ascending cube variables, and
no cube variable with byte 0 or 1 below the top variable of the diagram at
hand), then the second application returns the bit-equal handle `r` and
leaves the state as it is. -/
theorem union_cube_idempotent (gc : List Nat → llmsset → llmsset) (fuel : Nat)
    (s s1 : sylvan) (d vars : Nat) (vs p : List Nat) (t r : Nat)
    (hgc : gc_keeps_nodes gc) (hsize : s.nodes.length ≤ 2 ^ 40)
    (ht : mtbdd_terminal s.nodes t) (hvars : mtbdd_varcube s.nodes vars vs)
    (h1 : union_cube_covers s.nodes t 0 d vs p)
    (hr : mtbdd_union_cube gc fuel s d vars p t = .ok (r, s1))
    (h2 : union_cube_covers s1.nodes t 0 r vs p) :
    mtbdd_union_cube gc fuel s1 r vars p t = .ok (r, s1) :=
  (union_cube_twice hgc fuel s 0 d vars vs p r s1 hsize ht hvars h1 hr).2.2.2.2 s1 fuel 0
    (table_le_refl _) (Nat.le_refl _) h2

/-- Witness of C8 as amended: on the table holding `x1` (bucket 1) and the
variable cube of the variables 0 and 1 (bucket 2), adding the cube of pattern
`[2, 0]` to `x1` gives `mtbdd_true`, and adding it again gives `mtbdd_true`. -/
theorem union_cube_idempotent_witness :
    mtbdd_union_cube (fun _ T => T) 3
        ⟨[⟨false, ⟨0, 0⟩⟩, ⟨true, ⟨0x8000000000000000, 0x10000000000⟩⟩, ⟨true, ⟨1, 0⟩⟩,
          ⟨false, ⟨0, 0⟩⟩], [], []⟩ 1 2 [2, 0] mtbdd_true =
      .ok (mtbdd_true, ⟨[⟨false, ⟨0, 0⟩⟩, ⟨true, ⟨0x8000000000000000, 0x10000000000⟩⟩,
          ⟨true, ⟨1, 0⟩⟩, ⟨false, ⟨0, 0⟩⟩], [], []⟩) ∧
    mtbdd_union_cube (fun _ T => T) 3
        ⟨[⟨false, ⟨0, 0⟩⟩, ⟨true, ⟨0x8000000000000000, 0x10000000000⟩⟩, ⟨true, ⟨1, 0⟩⟩,
          ⟨false, ⟨0, 0⟩⟩], [], []⟩ mtbdd_true 2 [2, 0] mtbdd_true =
      .ok (mtbdd_true, ⟨[⟨false, ⟨0, 0⟩⟩, ⟨true, ⟨0x8000000000000000, 0x10000000000⟩⟩,
          ⟨true, ⟨1, 0⟩⟩, ⟨false, ⟨0, 0⟩⟩], [], []⟩) :=
  ⟨rfl, union_cube_idempotent (fun _ T => T) 3
    ⟨[⟨false, ⟨0, 0⟩⟩, ⟨true, ⟨0x8000000000000000, 0x10000000000⟩⟩, ⟨true, ⟨1, 0⟩⟩,
      ⟨false, ⟨0, 0⟩⟩], [], []⟩
    ⟨[⟨false, ⟨0, 0⟩⟩, ⟨true, ⟨0x8000000000000000, 0x10000000000⟩⟩, ⟨true, ⟨1, 0⟩⟩,
      ⟨false, ⟨0, 0⟩⟩], [], []⟩
    1 2 [0, 1] [2, 0] mtbdd_true mtbdd_true (fun _ T => table_le_refl T) (by decide)
    ⟨by decide, Or.inl rfl⟩
    ⟨by decide, ⟨1, 0⟩, ⟨by decide, rfl⟩, by decide, by decide, by decide, by decide,
      by decide, ⟨0x8000000000000000, 0x10000000000⟩, ⟨by decide, rfl⟩, by decide, by decide,
      by decide, by decide, rfl⟩
    (union_cube_covers.over2 0 1 1 mtbdd_false mtbdd_true 0 [1] [0]
      ⟨by decide, by decide, ⟨0x8000000000000000, 0x10000000000⟩, ⟨by decide, rfl⟩, by decide,
        by decide, by decide, by decide⟩
      (by decide) (by decide)
      (union_cube_covers.at0 1 1 1 mtbdd_false mtbdd_true [] []
        ⟨by decide, by decide, ⟨0x8000000000000000, 0x10000000000⟩, ⟨by decide, rfl⟩,
          by decide, by decide, by decide, by decide⟩
        (by decide) (by decide) (union_cube_covers.done 2 mtbdd_false [])))
    rfl (union_cube_covers.terminal 0 [0, 1] [2, 0])⟩

/-- C8 fails as stated, twice over.  With the unsupported byte 3:
`mtbdd_union_cube(x1, vars, [3, 0], mtbdd_true)` returns `mtbdd_false`, and
adding the cube to `mtbdd_false` returns the cube, which is not `mtbdd_false`.
With bytes 0 and 1 only: adding the cube of pattern `[0, 1]` to the diagram
of "x0 and x1" (handle 2) returns `x1` (handle 1), and adding it to `x1`
returns the new node of handle 3. -/
theorem union_cube_idempotent_counterexample :
    (mtbdd_union_cube (fun _ T => T) 3
        ⟨[⟨false, ⟨0, 0⟩⟩, ⟨true, ⟨0x8000000000000000, 0x10000000000⟩⟩, ⟨true, ⟨1, 0⟩⟩,
          ⟨false, ⟨0, 0⟩⟩], [], []⟩ 1 2 [3, 0] mtbdd_true =
      .ok (mtbdd_false, ⟨[⟨false, ⟨0, 0⟩⟩, ⟨true, ⟨0x8000000000000000, 0x10000000000⟩⟩,
          ⟨true, ⟨1, 0⟩⟩, ⟨false, ⟨0, 0⟩⟩], [], []⟩) ∧
    mtbdd_union_cube (fun _ T => T) 3
        ⟨[⟨false, ⟨0, 0⟩⟩, ⟨true, ⟨0x8000000000000000, 0x10000000000⟩⟩, ⟨true, ⟨1, 0⟩⟩,
          ⟨false, ⟨0, 0⟩⟩], [], []⟩ mtbdd_false 2 [3, 0] mtbdd_true =
      .ok (0x8000000000000003,
        ⟨[⟨false, ⟨0, 0⟩⟩, ⟨true, ⟨0x8000000000000000, 0x10000000000⟩⟩, ⟨true, ⟨1, 0⟩⟩,
          ⟨true, ⟨0x8000000000000001, 1⟩⟩], [],
          [event.lookup 0x8000000000000000 0x10000000000 1,
            event.lookup 0x8000000000000000 0x10000000000 1,
            event.lookup 0x8000000000000001 1 3]⟩)) ∧
    (mtbdd_union_cube (fun _ T => T) 3
        ⟨[⟨false, ⟨0, 0⟩⟩, ⟨true, ⟨0x8000000000000000, 0x10000000000⟩⟩, ⟨true, ⟨1, 0⟩⟩,
          ⟨false, ⟨0, 0⟩⟩], [], []⟩ 2 2 [0, 1] mtbdd_true =
      .ok (1, ⟨[⟨false, ⟨0, 0⟩⟩, ⟨true, ⟨0x8000000000000000, 0x10000000000⟩⟩,
          ⟨true, ⟨1, 0⟩⟩, ⟨false, ⟨0, 0⟩⟩], [],
          [event.lookup 0x8000000000000000 0x10000000000 1]⟩) ∧
    mtbdd_union_cube (fun _ T => T) 3
        ⟨[⟨false, ⟨0, 0⟩⟩, ⟨true, ⟨0x8000000000000000, 0x10000000000⟩⟩, ⟨true, ⟨1, 0⟩⟩,
          ⟨false, ⟨0, 0⟩⟩], [], [event.lookup 0x8000000000000000 0x10000000000 1]⟩
        1 2 [0, 1] mtbdd_true =
      .ok (3, ⟨[⟨false, ⟨0, 0⟩⟩, ⟨true, ⟨0x8000000000000000, 0x10000000000⟩⟩,
          ⟨true, ⟨1, 0⟩⟩, ⟨true, ⟨0, 1⟩⟩], [],
          [event.lookup 0x8000000000000000 0x10000000000 1, event.lookup 0 1 3]⟩)) :=
  ⟨⟨rfl, rfl⟩, ⟨rfl, rfl⟩⟩

/-! ## Leaves: decoding and uniqueness -/

/-- C14: when `mtbdd_makeleaf(t, v)` with a 32-bit type `t` returns `h` in a
table of at most `2^40` buckets, then `h` has the complement bit clear and a
non-zero index, `mtbdd_isleaf(h)` is true, `mtbdd_gettype(h) = t` and
`mtbdd_getvalue(h) = v`; and a second `mtbdd_makeleaf(t, v)` on the resulting
state returns the bit-equal handle `h`, leaves the table and the in-flight
stack as they are and adds one successful lookup (no collection) to the
log. -/
theorem makeleaf_decode (gc : List Nat → llmsset → llmsset) (s s2 : sylvan)
    (t v h : Nat) (ht : t < 2 ^ 32) (hsize : s2.nodes.length ≤ 2 ^ 40)
    (hr : mtbdd_makeleaf gc s t v = .ok (h, s2)) :
    MTBDD_HASMARK h = 0 ∧ h &&& 0x000000ffffffffff ≠ 0 ∧ mtbdd_isleaf s2.nodes h ≠ 0 ∧
      mtbdd_gettype s2.nodes h = t ∧ mtbdd_getvalue s2.nodes h = v ∧
      mtbdd_makeleaf gc s2 t v = .ok (h, { s2 with log := s2.log ++ [event.lookup
        (mtbddnode_makeleaf t v).a (mtbddnode_makeleaf t v).b h] }) := by
  obtain ⟨h0, hh, hl⟩ := makeleaf_ok hr
  have h40 : h < 2 ^ 40 := lt_of_lt_of_le (holds_lt_length hh) hsize
  have hidx : h &&& 0x000000ffffffffff = h := index_of_lt40 h h40
  have hnode : GETNODE s2.nodes h = mtbddnode_makeleaf t v := by
    unfold GETNODE
    rw [hidx]
    exact holds_read hh
  refine ⟨?_, ?_, ?_, ?_, ?_, ?_⟩
  · unfold MTBDD_HASMARK
    rw [mark_of_lt40 h h40]
    simp
  · rw [hidx]; exact h0
  · unfold mtbdd_isleaf
    split
    · exact one_ne_zero
    · rw [hnode]; exact makeleaf_is_leaf t v
  · unfold mtbdd_gettype
    rw [hnode]
    exact makeleaf_type ht v
  · unfold mtbdd_getvalue
    rw [hnode]
    rfl
  · rw [makeleaf_room gc s2 t v hl h0]

/-- Witness of C14: on a fresh table of three buckets, `mtbdd_makeleaf(0, 7)`
returns the handle of bucket 1, which decodes to type 0 and value 7, and
the second call finds bucket 1 again. -/
theorem makeleaf_decode_witness :
    mtbdd_makeleaf (fun _ T => T) ⟨List.replicate 3 ⟨false, ⟨0, 0⟩⟩, [], []⟩ 0 7 =
      .ok (1, ⟨[⟨false, ⟨0, 0⟩⟩, ⟨true, ⟨0x4000000000000000, 7⟩⟩, ⟨false, ⟨0, 0⟩⟩], [],
        [event.lookup 0x4000000000000000 7 1]⟩) ∧
    (MTBDD_HASMARK 1 = 0 ∧ 1 &&& 0x000000ffffffffff ≠ 0 ∧
      mtbdd_isleaf [⟨false, ⟨0, 0⟩⟩, ⟨true, ⟨0x4000000000000000, 7⟩⟩, ⟨false, ⟨0, 0⟩⟩] 1 ≠ 0 ∧
      mtbdd_gettype [⟨false, ⟨0, 0⟩⟩, ⟨true, ⟨0x4000000000000000, 7⟩⟩, ⟨false, ⟨0, 0⟩⟩] 1 = 0 ∧
      mtbdd_getvalue [⟨false, ⟨0, 0⟩⟩, ⟨true, ⟨0x4000000000000000, 7⟩⟩, ⟨false, ⟨0, 0⟩⟩] 1 = 7 ∧
      mtbdd_makeleaf (fun _ T => T)
          ⟨[⟨false, ⟨0, 0⟩⟩, ⟨true, ⟨0x4000000000000000, 7⟩⟩, ⟨false, ⟨0, 0⟩⟩], [],
            [event.lookup 0x4000000000000000 7 1]⟩ 0 7 =
        .ok (1, ⟨[⟨false, ⟨0, 0⟩⟩, ⟨true, ⟨0x4000000000000000, 7⟩⟩, ⟨false, ⟨0, 0⟩⟩], [],
          [event.lookup 0x4000000000000000 7 1] ++ [event.lookup
            (mtbddnode_makeleaf 0 7).a (mtbddnode_makeleaf 0 7).b 1]⟩)) :=
  ⟨rfl,
   makeleaf_decode (fun _ T => T) ⟨List.replicate 3 ⟨false, ⟨0, 0⟩⟩, [], []⟩
    ⟨[⟨false, ⟨0, 0⟩⟩, ⟨true, ⟨0x4000000000000000, 7⟩⟩, ⟨false, ⟨0, 0⟩⟩], [],
      [event.lookup 0x4000000000000000 7 1]⟩ 0 7 1 (by decide) (by decide) rfl⟩

/-! ## The table-full protocol -/

/-- C18: `mtbdd_makeleaf`, and `mtbdd_makenode` when `low != high`, look the node
content up once; when that lookup returns a non-zero index they return its
handle and the log gains this one lookup; when it returns 0 they collect
(the log gains one collection, for `mtbdd_makenode` with the two children on
the in-flight stack) and look the same content up once more, abort with
`table_full` when this second lookup returns 0 too, and return the handle of
its index otherwise.  A returned handle has, in a table of at most `2^40`
buckets, a non-zero index, which is the index of the last lookup of the
log. -/
theorem table_full_protocol (gc : List Nat → llmsset → llmsset) (s : sylvan)
    (type value var low high : Nat) (hne : low ≠ high) :
    (let n := mtbddnode_makeleaf type value
     let r := llmsset_lookup s.nodes n.a n.b
     let r2 := llmsset_lookup (gc s.results r.2) n.a n.b
     mtbdd_makeleaf gc s type value =
       (if r.1 ≠ 0 then .ok (r.1, ⟨r.2, s.results, s.log ++ [event.lookup n.a n.b r.1]⟩)
        else if r2.1 ≠ 0 then
          .ok (r2.1, ⟨r2.2, s.results,
            s.log ++ [event.lookup n.a n.b 0, event.gc, event.lookup n.a n.b r2.1]⟩)
        else .error fault.table_full) ∧
     ∀ h s2, mtbdd_makeleaf gc s type value = .ok (h, s2) → s2.nodes.length ≤ 2 ^ 40 →
       h &&& 0x000000ffffffffff ≠ 0 ∧
         ∃ log, s2.log = log ++ [event.lookup n.a n.b (h &&& 0x000000ffffffffff)]) ∧
    (let n := mtbddnode_makenode var (makenode_low low) (makenode_high low high)
     let r := llmsset_lookup s.nodes n.a n.b
     let r2 := llmsset_lookup
       (gc (s.results ++ [makenode_low low, makenode_high low high]) r.2) n.a n.b
     mtbdd_makenode gc s var low high =
       (if r.1 ≠ 0 then
          .ok (makenode_handle low r.1,
            ⟨r.2, s.results, s.log ++ [event.lookup n.a n.b r.1]⟩)
        else if r2.1 ≠ 0 then
          .ok (makenode_handle low r2.1, ⟨r2.2, s.results,
            s.log ++ [event.lookup n.a n.b 0, event.gc, event.lookup n.a n.b r2.1]⟩)
        else .error fault.table_full) ∧
     ∀ h s2, mtbdd_makenode gc s var low high = .ok (h, s2) → s2.nodes.length ≤ 2 ^ 40 →
       h &&& 0x000000ffffffffff ≠ 0 ∧
         ∃ log, s2.log = log ++ [event.lookup n.a n.b (h &&& 0x000000ffffffffff)]) := by
  refine ⟨?_, ?_⟩
  · dsimp only
    have key := makeleaf_paths gc s type value (Prod.mk.eta).symm (Prod.mk.eta).symm
    refine ⟨key, ?_⟩
    intro h s2 hr hsize
    obtain ⟨h0, hh, _⟩ := makeleaf_ok hr
    have hidx : h &&& 0x000000ffffffffff = h :=
      index_of_lt40 h (lt_of_lt_of_le (holds_lt_length hh) hsize)
    rw [hidx]
    refine ⟨h0, ?_⟩
    rw [key] at hr
    split at hr
    · injection hr with hr
      obtain ⟨rfl, rfl⟩ := Prod.mk.inj hr
      exact ⟨s.log, rfl⟩
    · split at hr
      · injection hr with hr
        obtain ⟨rfl, rfl⟩ := Prod.mk.inj hr
        exact ⟨s.log ++ [event.lookup (mtbddnode_makeleaf type value).a
          (mtbddnode_makeleaf type value).b 0, event.gc], by simp⟩
      · cases hr
  · dsimp only
    have key := makenode_paths gc s var hne (Prod.mk.eta).symm (Prod.mk.eta).symm
    refine ⟨key, ?_⟩
    intro h s2 hr hsize
    obtain ⟨i, hi0, rfl, hh, _⟩ := makenode_ok hne hr
    have hidx := makenode_handle_index low (lt_of_lt_of_le (holds_lt_length hh) hsize)
    rw [hidx]
    refine ⟨hi0, ?_⟩
    rw [key] at hr
    split at hr
    · injection hr with hr
      obtain ⟨hx, rfl⟩ := Prod.mk.inj hr
      have hlt := lookup_index_lt40 (Prod.mk.eta).symm (by assumption) hsize
      have e := congrArg (fun x => x &&& 0x000000ffffffffff) hx
      simp only [makenode_handle_index low hlt, hidx] at e
      rw [← e]
      exact ⟨s.log, rfl⟩
    · split at hr
      · injection hr with hr
        obtain ⟨hx, rfl⟩ := Prod.mk.inj hr
        have hlt := lookup_index_lt40 (Prod.mk.eta).symm (by assumption) hsize
        have e := congrArg (fun x => x &&& 0x000000ffffffffff) hx
        simp only [makenode_handle_index low hlt, hidx] at e
        rw [← e]
        exact ⟨s.log ++ [event.lookup
          (mtbddnode_makenode var (makenode_low low) (makenode_high low high)).a
          (mtbddnode_makenode var (makenode_low low) (makenode_high low high)).b 0, event.gc],
          by simp⟩
      · cases hr

/-- Witness of C18: in a table whose only free bucket is taken, with a
collector that empties the table, `mtbdd_makeleaf(0, 7)` finds no room, collects
and returns the bucket found by its second lookup; `mtbdd_makenode(5,
mtbdd_true, mtbdd_false)` does the same and returns the complemented handle of
that bucket. -/
theorem table_full_protocol_witness :
    mtbdd_true ≠ mtbdd_false ∧
    mtbdd_makeleaf (fun _ T => List.replicate T.length ⟨false, ⟨0, 0⟩⟩)
        ⟨[⟨false, ⟨0, 0⟩⟩, ⟨true, ⟨1, 1⟩⟩], [], []⟩ 0 7 =
      .ok (1, ⟨[⟨false, ⟨0, 0⟩⟩, ⟨true, ⟨0x4000000000000000, 7⟩⟩], [],
        [event.lookup 0x4000000000000000 7 0, event.gc,
          event.lookup 0x4000000000000000 7 1]⟩) ∧
    mtbdd_makenode (fun _ T => List.replicate T.length ⟨false, ⟨0, 0⟩⟩)
        ⟨[⟨false, ⟨0, 0⟩⟩, ⟨true, ⟨1, 1⟩⟩], [], []⟩ 5 mtbdd_true mtbdd_false =
      .ok (0x8000000000000001, ⟨[⟨false, ⟨0, 0⟩⟩, ⟨true, ⟨0x8000000000000000, 0x50000000000⟩⟩],
        [], [event.lookup 0x8000000000000000 0x50000000000 0, event.gc,
          event.lookup 0x8000000000000000 0x50000000000 1]⟩) :=
  ⟨by decide,
   (table_full_protocol (fun _ T => List.replicate T.length ⟨false, ⟨0, 0⟩⟩)
      ⟨[⟨false, ⟨0, 0⟩⟩, ⟨true, ⟨1, 1⟩⟩], [], []⟩ 0 7 5 mtbdd_true mtbdd_false
      (by decide)).1.1,
   (table_full_protocol (fun _ T => List.replicate T.length ⟨false, ⟨0, 0⟩⟩)
      ⟨[⟨false, ⟨0, 0⟩⟩, ⟨true, ⟨1, 1⟩⟩], [], []⟩ 0 7 5 mtbdd_true mtbdd_false
      (by decide)).2.1⟩

/-! ## Pattern byte 3 in `mtbdd_union_cube` -/

/-- C17: for every handle `d` that is neither `mtbdd_false` nor the terminal
`t`, every `vars` other than `mtbdd_true` whose top variable is at most the top
variable of `d`, and every pattern whose first byte is 3,
`mtbdd_union_cube(d, vars, pattern, t)` returns `mtbdd_false` and leaves the
state as it is. -/
theorem union_cube_pattern3 (gc : List Nat → llmsset → llmsset) (fuel : Nat) (s : sylvan)
    (d vars t : Nat) (p : List Nat) (hf : d ≠ mtbdd_false) (ht : d ≠ t)
    (hv : vars ≠ mtbdd_true) (hle : mtbdd_getvar s.nodes vars ≤ mtbdd_getvar s.nodes d) :
    mtbdd_union_cube gc (fuel + 1) s d vars (3 :: p) t = .ok (mtbdd_false, s) := by
  unfold mtbdd_getvar at hle
  rw [mtbdd_union_cube]
  simp only [if_neg ht, if_neg hf, if_neg hv, if_neg (not_lt.2 hle)]
  split <;> simp

/-- Witness of C17: in a table holding the diagram `x1` (bucket 1) and the
variable cube of variable 0 (bucket 2), adding the pattern `[3]` over that
cube to `x1` returns `mtbdd_false`. -/
theorem union_cube_pattern3_witness :
    mtbdd_union_cube (fun _ T => T) (2 + 1)
        ⟨[⟨false, ⟨0, 0⟩⟩, ⟨true, ⟨0x8000000000000000, 0x10000000000⟩⟩,
          ⟨true, ⟨0x8000000000000000, 0⟩⟩, ⟨false, ⟨0, 0⟩⟩], [], []⟩ 1 2 (3 :: []) mtbdd_true =
      .ok (mtbdd_false,
        ⟨[⟨false, ⟨0, 0⟩⟩, ⟨true, ⟨0x8000000000000000, 0x10000000000⟩⟩,
          ⟨true, ⟨0x8000000000000000, 0⟩⟩, ⟨false, ⟨0, 0⟩⟩], [], []⟩) :=
  union_cube_pattern3 (fun _ T => T) 2
    ⟨[⟨false, ⟨0, 0⟩⟩, ⟨true, ⟨0x8000000000000000, 0x10000000000⟩⟩,
      ⟨true, ⟨0x8000000000000000, 0⟩⟩, ⟨false, ⟨0, 0⟩⟩], [], []⟩ 1 2 mtbdd_true []
    (by decide) (by decide) (by decide) (by decide)

/-! ## Counting the nodes of a variable cube -/

/-- C11, the code at the failing input: on a fresh table
`mtbdd_fromarray([0,1,2], 3)` builds three nodes and returns the handle `3`,
which has no complement bit, and `mtbdd_nodecount` of it returns 0, not 3: the
guard `mtbdd <= mtbdd_true` holds for every handle without the complement
bit. -/
theorem fromarray_nodecount_is_zero :
    mtbdd_fromarray (fun _ T => T) ⟨List.replicate 4 ⟨false, ⟨0, 0⟩⟩, [], []⟩ [0, 1, 2] =
      .ok (3, ⟨[⟨false, ⟨0, 0⟩⟩, ⟨true, ⟨0x8000000000000000, 0x20000000000⟩⟩,
          ⟨true, ⟨1, 0x10000000000⟩⟩, ⟨true, ⟨2, 0⟩⟩], [],
        [event.lookup 0x8000000000000000 0x20000000000 1, event.lookup 1 0x10000000000 2,
          event.lookup 2 0 3]⟩) ∧
    mtbdd_nodecount 4 [⟨false, ⟨0, 0⟩⟩, ⟨true, ⟨0x8000000000000000, 0x20000000000⟩⟩,
        ⟨true, ⟨1, 0x10000000000⟩⟩, ⟨true, ⟨2, 0⟩⟩] 3 =
      .ok (0, [⟨false, ⟨0, 0⟩⟩, ⟨true, ⟨0x8000000000000000, 0x20000000000⟩⟩,
        ⟨true, ⟨1, 0x10000000000⟩⟩, ⟨true, ⟨2, 0⟩⟩]) :=
  ⟨rfl, rfl⟩

/-! ## Marking for garbage collection -/

/-- C13, the code at the failing input: in the table left by
`mtbdd_makenode(0, mtbdd_false, mtbdd_true)` on a fresh table, with no
reachability bit set, the handle `1` is an internal node and not a sentinel,
yet `mtbdd_gc_mark_rec(1)` returns with no reachability bit set: the guard
`mtbdd <= mtbdd_true` holds for every handle without the complement bit.  On
the complemented handle of the same node the index passed to `llmsset_mark`
is the whole handle, which lies outside the table. -/
theorem gc_mark_skips_uncomplemented :
    mtbdd_isleaf [⟨false, ⟨0, 0⟩⟩, ⟨true, ⟨0x8000000000000000, 0⟩⟩, ⟨false, ⟨0, 0⟩⟩] 1 = 0 ∧
    mtbdd_gc_mark_rec 3 [⟨false, ⟨0, 0⟩⟩, ⟨true, ⟨0x8000000000000000, 0⟩⟩, ⟨false, ⟨0, 0⟩⟩]
        [false, false, false] 1 = .ok [false, false, false] ∧
    mtbdd_gc_mark_rec 3 [⟨false, ⟨0, 0⟩⟩, ⟨true, ⟨0x8000000000000000, 0⟩⟩, ⟨false, ⟨0, 0⟩⟩]
        [false, false, false] 0x8000000000000001 = .error fault.out_of_bounds :=
  ⟨by decide, rfl, rfl⟩

/-! ## Pattern bytes above 3 in `mtbdd_cube` -/

/-- C16, as the code has it: for a variable cube `vars` of the table listing
the variables `vs`, any `t` and a pattern of the same length in which
`mtbdd_cube`, reading from the left (a byte 0, 1 or 2 takes one entry, a byte 3
takes two, the second unread), comes to a byte outside {0,1,2,3},
`mtbdd_cube(vars, pattern, t)` returns `mtbdd_false` and leaves the state as it
is. -/
theorem cube_invalid_byte (gc : List Nat → llmsset → llmsset) (fuel : Nat) (s : sylvan)
    (vars : Nat) (vs pattern : List Nat) (t : Nat)
    (hvars : mtbdd_varcube s.nodes vars vs) (_hlen : pattern.length = vs.length)
    (hread : cube_reads_invalid vs pattern = true) (hfuel : vs.length ≤ fuel) :
    mtbdd_cube gc fuel s vars pattern t = .ok (mtbdd_false, s) :=
  cube_invalid gc t fuel s vars vs pattern hvars hread hfuel

/-- Witness of C16 as amended: over the variable cube of the variables 0 and
1 (buckets 2 and 1), the pattern `[0, 7]` is read up to its byte 7 and the
cube is `mtbdd_false`. -/
theorem cube_invalid_byte_witness :
    mtbdd_cube (fun _ T => T) 2
        ⟨[⟨false, ⟨0, 0⟩⟩, ⟨true, ⟨0x8000000000000000, 0x10000000000⟩⟩, ⟨true, ⟨1, 0⟩⟩,
          ⟨false, ⟨0, 0⟩⟩], [], []⟩ 2 [0, 7] mtbdd_true =
      .ok (mtbdd_false,
        ⟨[⟨false, ⟨0, 0⟩⟩, ⟨true, ⟨0x8000000000000000, 0x10000000000⟩⟩, ⟨true, ⟨1, 0⟩⟩,
          ⟨false, ⟨0, 0⟩⟩], [], []⟩) :=
  cube_invalid_byte (fun _ T => T) 2
    ⟨[⟨false, ⟨0, 0⟩⟩, ⟨true, ⟨0x8000000000000000, 0x10000000000⟩⟩, ⟨true, ⟨1, 0⟩⟩,
      ⟨false, ⟨0, 0⟩⟩], [], []⟩ 2 [0, 1] [0, 7] mtbdd_true
    ⟨by decide, ⟨1, 0⟩, ⟨by decide, rfl⟩, by decide, by decide, by decide, by decide,
      by decide, ⟨0x8000000000000000, 0x10000000000⟩, ⟨by decide, rfl⟩, by decide, by decide,
      by decide, by decide, rfl⟩
    rfl rfl (by decide)

/-- Counterexample to C16 as stated: over the variable cube of the variables
0 and 1 (buckets 2 and 1) the pattern `[3, 7]` has the length of the cube and
contains the byte 7, which is outside {0,1,2,3}; the byte 3 takes both
entries, the 7 is never read, and `mtbdd_cube` returns the complemented handle
of bucket 3 (the diagram of `x0 = x1`), not `mtbdd_false`. -/
theorem cube_invalid_byte_counterexample :
    mtbdd_varcube [⟨false, ⟨0, 0⟩⟩, ⟨true, ⟨0x8000000000000000, 0x10000000000⟩⟩,
        ⟨true, ⟨1, 0⟩⟩, ⟨false, ⟨0, 0⟩⟩] 2 [0, 1] ∧
    [3, 7].length = [0, 1].length ∧ 7 ∈ [3, 7] ∧ ¬ 7 ≤ 3 ∧
    mtbdd_cube (fun _ T => T) 3
        ⟨[⟨false, ⟨0, 0⟩⟩, ⟨true, ⟨0x8000000000000000, 0x10000000000⟩⟩, ⟨true, ⟨1, 0⟩⟩,
          ⟨false, ⟨0, 0⟩⟩], [], []⟩ 2 [3, 7] mtbdd_true =
      .ok (0x8000000000000003,
        ⟨[⟨false, ⟨0, 0⟩⟩, ⟨true, ⟨0x8000000000000000, 0x10000000000⟩⟩, ⟨true, ⟨1, 0⟩⟩,
          ⟨true, ⟨0x8000000000000001, 1⟩⟩], [],
          [event.lookup 0x8000000000000000 0x10000000000 1,
           event.lookup 0x8000000000000000 0x10000000000 1,
           event.lookup 0x8000000000000001 1 3]⟩) ∧
    0x8000000000000003 ≠ mtbdd_false :=
  ⟨⟨by decide, ⟨1, 0⟩, ⟨by decide, rfl⟩, by decide, by decide, by decide, by decide,
      by decide, ⟨0x8000000000000000, 0x10000000000⟩, ⟨by decide, rfl⟩, by decide, by decide,
      by decide, by decide, rfl⟩,
    rfl, by decide, by decide, rfl, by decide⟩

/-! ## Marking the in-flight roots -/

/-- C20, as the code has it: for every worker-local state,
`mtbdd_refs_mark_task` spawns the recursive marker on every handle of `results`
and on the result of every completed task among the stolen tasks of `spawns`
that come before the first task not stolen, in this order and on nothing
else, and it performs exactly as many `SYNC` as `SPAWN`. -/
theorem refs_mark_task_roots (k : mtbdd_refs_internal) :
    lace_spawned (mtbdd_refs_mark_task k) = refs_roots k ∧
      lace_syncs (mtbdd_refs_mark_task k) = (lace_spawned (mtbdd_refs_mark_task k)).length := by
  obtain ⟨a1, a2, a3⟩ := refs_mark_results_spec k.results (0, []) (by norm_num) rfl
  obtain ⟨b1, b2, b3⟩ := refs_mark_spawns_spec k.spawns _ a1 a2
  unfold mtbdd_refs_mark_task refs_roots
  simp only [lace_spawned_append, lace_syncs_append, lace_spawned_syncs, lace_syncs_syncs,
    List.append_nil]
  refine ⟨?_, b2⟩
  rw [b3, a3]
  rfl

/-- Counterexample to C20 as stated: with an empty `results` stack and two
tasks on `spawns`, the first not stolen and the second stolen and completed
with result 5, `mtbdd_refs_mark_task` leaves the loop at the first task and makes
no call at all: the result 5 of the stolen and completed task is not
marked. -/
theorem refs_mark_task_roots_counterexample :
    (⟨true, true, 5⟩ : Task) ∈
      (⟨[], [⟨false, false, 0⟩, ⟨true, true, 5⟩]⟩ : mtbdd_refs_internal).spawns ∧
    mtbdd_refs_mark_task ⟨[], [⟨false, false, 0⟩, ⟨true, true, 5⟩]⟩ = [] ∧
    5 ∉ lace_spawned (mtbdd_refs_mark_task ⟨[], [⟨false, false, 0⟩, ⟨true, true, 5⟩]⟩) :=
  ⟨by decide, rfl, by decide⟩

/-! ## Export to DOT -/

/-- C19, the code at the failing input: in the table left by
`mtbdd_makenode(0, mtbdd_false, mtbdd_true)` on a fresh table, the export of the
complemented handle `0x8000000000000001` of bucket 1 declares the node under
the identifier 1 with label 0, but prints its dashed and its solid edge from
the identifier 9223372036854775809, the handle with its complement bit: the
two edge lines use `mtbdd` where the declaration uses
`MTBDD_STRIPMARK(mtbdd)`. -/
theorem fprintdot_edges_from_marked_handle :
    mtbdd_fprintdot 3 [⟨false, ⟨0, 0⟩⟩, ⟨true, ⟨0x8000000000000000, 0⟩⟩, ⟨false, ⟨0, 0⟩⟩]
        0x8000000000000001 =
      .ok ([dot_line.digraph_open, dot_line.graph_dpi, dot_line.center, dot_line.edge_forward,
          dot_line.root_invis, dot_line.root_edge 1 true, dot_line.node_decl 1 0,
          dot_line.false_box, dot_line.low_edge 9223372036854775809 0,
          dot_line.high_edge 9223372036854775809 0 true, dot_line.digraph_close],
        [⟨false, ⟨0, 0⟩⟩, ⟨true, ⟨0x8000000000000000, 0⟩⟩, ⟨false, ⟨0, 0⟩⟩]) ∧
    MTBDD_STRIPMARK 0x8000000000000001 = 1 ∧
    mtbdd_isleaf [⟨false, ⟨0, 0⟩⟩, ⟨true, ⟨0x8000000000000000, 0⟩⟩, ⟨false, ⟨0, 0⟩⟩]
      0x8000000000000001 = 0 :=
  ⟨rfl, by decide, by decide⟩

/-! ## Leaves of doubles -/

/-- C15: on bit patterns of doubles.  For every `x > 0`, `mtbdd_double(-x)` is
`mtbdd_double(x)` with the complement bit toggled (and aborts when that
aborts).  When `mtbdd_double(x)` returns `h` in a table of at most `2^40`
buckets: for `x` positive or zero `h` has the complement bit clear and is the
leaf of type 1 whose value is the bit pattern of `x`; for `x` negative `h`
has the complement bit set and is the leaf of type 1 whose value is the bit
pattern of `-x`. -/
theorem double_sign_on_edge (gc : List Nat → llmsset → llmsset) (s : sylvan) (x : Nat) :
    (double_gtzero x = true →
      mtbdd_double gc s (double_neg x) =
        match mtbdd_double gc s x with
        | .error e => .error e
        | .ok (h, s1) => .ok (MTBDD_TOGGLEMARK h, s1)) ∧
    ∀ h s1, mtbdd_double gc s x = .ok (h, s1) → s1.nodes.length ≤ 2 ^ 40 →
      ((double_gtzero x = true ∨ x &&& 0x7fffffffffffffff = 0) →
        MTBDD_HASMARK h = 0 ∧ mtbdd_isleaf s1.nodes h ≠ 0 ∧ mtbdd_gettype s1.nodes h = 1 ∧
          mtbdd_getvalue s1.nodes h = x) ∧
      (double_ltzero x = true →
        MTBDD_HASMARK h = 1 ∧ mtbdd_isleaf s1.nodes h ≠ 0 ∧ mtbdd_gettype s1.nodes h = 1 ∧
          mtbdd_getvalue s1.nodes h = double_neg x) := by
  refine ⟨?_, ?_⟩
  · intro hx
    unfold mtbdd_double
    rw [double_neg_ltzero hx, double_gtzero_not_lt hx, double_neg_neg]
    rfl
  · intro h s1 hr hsize
    refine ⟨?_, ?_⟩
    · intro hx
      have hlt : double_ltzero x = false := by
        rcases hx with hx | hx
        · exact double_gtzero_not_lt hx
        · exact double_zero_not_lt hx
      unfold mtbdd_double at hr
      rw [hlt] at hr
      obtain ⟨h63, hn⟩ := makeleaf_handle hsize hr
      refine ⟨?_, leaf_reads (by norm_num) hn⟩
      rw [hasmark_eq, h63]
      rfl
    · intro hx
      unfold mtbdd_double at hr
      rw [hx] at hr
      simp only [if_true] at hr
      split at hr
      · cases hr
      · rename_i h0 s0 hr0
        injection hr with hr
        obtain ⟨rfl, rfl⟩ := Prod.mk.inj hr
        obtain ⟨h63, hn⟩ := makeleaf_handle hsize hr0
        refine ⟨?_, leaf_reads (by norm_num) ((getnode_toggle _ h0).trans hn)⟩
        rw [hasmark_eq]
        unfold mtbdd_negate
        rw [Nat.testBit_xor, h63, mtbdd_complement, testBit_complement]
        rfl

/-- Witness of C15: on a fresh table of three buckets, the bit pattern
`0x3ff0000000000000` of the double 1.0 is positive; `mtbdd_double(1.0)` returns
the handle of bucket 1, without complement bit, and `mtbdd_double(-1.0)`
returns the same handle with the complement bit. -/
theorem double_sign_on_edge_witness :
    double_gtzero 0x3ff0000000000000 = true ∧
    mtbdd_double (fun _ T => T) ⟨List.replicate 3 ⟨false, ⟨0, 0⟩⟩, [], []⟩
        0x3ff0000000000000 =
      .ok (1, ⟨[⟨false, ⟨0, 0⟩⟩, ⟨true, ⟨0x4000000000000001, 0x3ff0000000000000⟩⟩,
        ⟨false, ⟨0, 0⟩⟩], [], [event.lookup 0x4000000000000001 0x3ff0000000000000 1]⟩) ∧
    mtbdd_double (fun _ T => T) ⟨List.replicate 3 ⟨false, ⟨0, 0⟩⟩, [], []⟩
        (double_neg 0x3ff0000000000000) =
      .ok (MTBDD_TOGGLEMARK 1,
        ⟨[⟨false, ⟨0, 0⟩⟩, ⟨true, ⟨0x4000000000000001, 0x3ff0000000000000⟩⟩,
          ⟨false, ⟨0, 0⟩⟩], [], [event.lookup 0x4000000000000001 0x3ff0000000000000 1]⟩) ∧
    (MTBDD_HASMARK 1 = 0 ∧
      mtbdd_isleaf [⟨false, ⟨0, 0⟩⟩, ⟨true, ⟨0x4000000000000001, 0x3ff0000000000000⟩⟩,
        ⟨false, ⟨0, 0⟩⟩] 1 ≠ 0 ∧
      mtbdd_gettype [⟨false, ⟨0, 0⟩⟩, ⟨true, ⟨0x4000000000000001, 0x3ff0000000000000⟩⟩,
        ⟨false, ⟨0, 0⟩⟩] 1 = 1 ∧
      mtbdd_getvalue [⟨false, ⟨0, 0⟩⟩, ⟨true, ⟨0x4000000000000001, 0x3ff0000000000000⟩⟩,
        ⟨false, ⟨0, 0⟩⟩] 1 = 0x3ff0000000000000) :=
  ⟨rfl, rfl,
   (double_sign_on_edge (fun _ T => T) ⟨List.replicate 3 ⟨false, ⟨0, 0⟩⟩, [], []⟩
      0x3ff0000000000000).1 rfl,
   ((double_sign_on_edge (fun _ T => T) ⟨List.replicate 3 ⟨false, ⟨0, 0⟩⟩, [], []⟩
      0x3ff0000000000000).2 1
      ⟨[⟨false, ⟨0, 0⟩⟩, ⟨true, ⟨0x4000000000000001, 0x3ff0000000000000⟩⟩,
        ⟨false, ⟨0, 0⟩⟩], [], [event.lookup 0x4000000000000001 0x3ff0000000000000 1]⟩
      rfl (by decide)).1 (Or.inl rfl)⟩

/-! ## `mtbdd_nodecount` leaves the table as it found it -/

/-- C12: in a table of 64-bit words whose mark bits are all clear,
`mtbdd_nodecount(d)` returns (the recursion bound exceeding the number of
buckets by two) and leaves the table exactly as it was, every mark bit clear
and every other bit of every node unchanged; so a second call returns the
same value and leaves the same table. -/
theorem nodecount_restores (fuel : Nat) (T : llmsset) (d : Nat)
    (hu : llmsset_unmarked T) (hw : llmsset_words64 T) (hfuel : T.length + 2 ≤ fuel) :
    ∃ c T2, mtbdd_nodecount fuel T d = .ok (c, T2) ∧ T2 = T ∧ llmsset_unmarked T2 ∧
      mtbdd_nodecount fuel T2 d = .ok (c, T2) := by
  obtain ⟨c, T1, e1, _, l1⟩ := nodecount_mark_total fuel T d (by omega)
  obtain ⟨m1, m2, _, m4⟩ := nodecount_mark_spec fuel T d c T1 e1
  have hb := marks_le_length T1
  obtain ⟨T2, e2, _⟩ := unmark_rec_total fuel T1 d (by omega)
  obtain ⟨u1, u2, _⟩ := unmark_rec_spec fuel T1 d T2 e2
  have hall := unmark_rec_all e2 (fun y hy => m4 y hy ((unmarked_iff T).1 hu y))
  have hu2 : llmsset_unmarked T2 := (unmarked_iff T2).2 hall
  have heq : T2 = T :=
    calc T2 = llmsset_clear T2 := (clear_eq_self hu2 (u2 (m2 hw))).symm
      _ = llmsset_clear T1 := u1
      _ = llmsset_clear T := m1
      _ = T := clear_eq_self hu hw
  have hrun : mtbdd_nodecount fuel T d = .ok (c, T2) := by
    rw [mtbdd_nodecount, e1]
    simp only
    rw [e2]
  refine ⟨c, T2, hrun, heq, hu2, ?_⟩
  rw [heq] at hrun ⊢
  exact hrun

/-- Witness of C12: the table left by `mtbdd_makenode(0, mtbdd_false, mtbdd_true)`
on a fresh table of three buckets, and the complemented handle of its
node. -/
theorem nodecount_restores_witness :
    ∃ c T2, mtbdd_nodecount 5
        [⟨false, ⟨0, 0⟩⟩, ⟨true, ⟨0x8000000000000000, 0⟩⟩, ⟨false, ⟨0, 0⟩⟩]
        0x8000000000000001 = .ok (c, T2) ∧
      T2 = [⟨false, ⟨0, 0⟩⟩, ⟨true, ⟨0x8000000000000000, 0⟩⟩, ⟨false, ⟨0, 0⟩⟩] ∧
      llmsset_unmarked T2 ∧ mtbdd_nodecount 5 T2 0x8000000000000001 = .ok (c, T2) :=
  nodecount_restores 5 [⟨false, ⟨0, 0⟩⟩, ⟨true, ⟨0x8000000000000000, 0⟩⟩, ⟨false, ⟨0, 0⟩⟩]
    0x8000000000000001 (by unfold llmsset_unmarked; decide)
    (by unfold llmsset_words64; decide) (by decide)

/-! ## Negation and node construction -/

theorem toggle_toggle (h : Nat) : MTBDD_TOGGLEMARK (MTBDD_TOGGLEMARK h) = h := by
  unfold MTBDD_TOGGLEMARK
  rw [Nat.xor_assoc, Nat.xor_self, Nat.xor_zero]

theorem toggle_injective {x y : Nat} (h : MTBDD_TOGGLEMARK x = MTBDD_TOGGLEMARK y) : x = y := by
  have := congrArg MTBDD_TOGGLEMARK h
  rwa [toggle_toggle, toggle_toggle] at this

theorem hasmark_toggle (h : Nat) :
    MTBDD_HASMARK (MTBDD_TOGGLEMARK h) = if MTBDD_HASMARK h ≠ 0 then 0 else 1 := by
  rw [hasmark_eq, hasmark_eq]
  unfold MTBDD_TOGGLEMARK
  rw [Nat.testBit_xor, mtbdd_complement, testBit_complement]
  cases h.testBit 63 <;> simp

/-- The low child stored for the negated pair is the one stored for the
pair. -/
theorem makenode_low_toggle (lo : Nat) :
    makenode_low (MTBDD_TOGGLEMARK lo) = makenode_low lo := by
  unfold makenode_low
  rw [hasmark_toggle]
  by_cases h : MTBDD_HASMARK lo ≠ 0
  · simp [h]
  · simp [h, toggle_toggle]

/-- The high child stored for the negated pair is the one stored for the
pair. -/
theorem makenode_high_toggle (lo hi : Nat) :
    makenode_high (MTBDD_TOGGLEMARK lo) (MTBDD_TOGGLEMARK hi) = makenode_high lo hi := by
  unfold makenode_high
  rw [hasmark_toggle]
  by_cases h : MTBDD_HASMARK lo ≠ 0
  · simp [h]
  · simp [h, toggle_toggle]

theorem toggle_of_lt40 {i : Nat} (hi : i < 2 ^ 40) :
    MTBDD_TOGGLEMARK i = i ||| mtbdd_complement ∧
      MTBDD_TOGGLEMARK (i ||| mtbdd_complement) = i := by
  have h63 : i.testBit 63 = false := testBit_of_lt40 hi 63 (by norm_num)
  unfold MTBDD_TOGGLEMARK
  constructor
  · apply Nat.eq_of_testBit_eq
    intro k
    rw [Nat.testBit_xor, Nat.testBit_or, mtbdd_complement, testBit_complement]
    by_cases hk : k = 63
    · subst hk; simp [h63]
    · simp [hk]
  · apply Nat.eq_of_testBit_eq
    intro k
    rw [Nat.testBit_xor, Nat.testBit_or, mtbdd_complement, testBit_complement]
    by_cases hk : k = 63
    · subst hk; simp [h63]
    · simp [hk]

/-- The handle returned for the negated pair is the negation of the handle
returned for the pair. -/
theorem makenode_handle_toggle (lo : Nat) {i : Nat} (hi : i < 2 ^ 40) :
    makenode_handle (MTBDD_TOGGLEMARK lo) i = MTBDD_TOGGLEMARK (makenode_handle lo i) := by
  unfold makenode_handle
  rw [hasmark_toggle]
  by_cases h : MTBDD_HASMARK lo ≠ 0
  · rw [if_pos h, if_neg (by simp), if_pos h, (toggle_of_lt40 hi).2]
  · rw [if_neg h, if_pos one_ne_zero, if_neg h, (toggle_of_lt40 hi).1]

theorem makenode_low_unmarked (lo : Nat) : MTBDD_HASMARK (makenode_low lo) = 0 := by
  unfold makenode_low
  by_cases h : MTBDD_HASMARK lo ≠ 0
  · rw [if_pos h, hasmark_toggle, if_pos h]
  · rw [if_neg h]
    exact not_not.1 h

/-- The paths of `mtbdd_makenode` on the negated pair, by the results of the
lookups of the node of the pair. -/
theorem makenode_paths_toggle (gc : List Nat → llmsset → llmsset) (s : sylvan) (var : Nat)
    {low high i i2 : Nat} {T1 T2 : llmsset} (hne : low ≠ high)
    (h1 : llmsset_lookup s.nodes
      (mtbddnode_makenode var (makenode_low low) (makenode_high low high)).a
      (mtbddnode_makenode var (makenode_low low) (makenode_high low high)).b = (i, T1))
    (h2 : llmsset_lookup (gc (s.results ++ [makenode_low low, makenode_high low high]) T1)
      (mtbddnode_makenode var (makenode_low low) (makenode_high low high)).a
      (mtbddnode_makenode var (makenode_low low) (makenode_high low high)).b = (i2, T2)) :
    mtbdd_makenode gc s var (MTBDD_TOGGLEMARK low) (MTBDD_TOGGLEMARK high) =
      (if i ≠ 0 then
        .ok (makenode_handle (MTBDD_TOGGLEMARK low) i, ⟨T1, s.results, s.log ++ [event.lookup
          (mtbddnode_makenode var (makenode_low low) (makenode_high low high)).a
          (mtbddnode_makenode var (makenode_low low) (makenode_high low high)).b i]⟩)
       else if i2 ≠ 0 then
        .ok (makenode_handle (MTBDD_TOGGLEMARK low) i2, ⟨T2, s.results,
          s.log ++ [event.lookup
            (mtbddnode_makenode var (makenode_low low) (makenode_high low high)).a
            (mtbddnode_makenode var (makenode_low low) (makenode_high low high)).b 0, event.gc,
          event.lookup
            (mtbddnode_makenode var (makenode_low low) (makenode_high low high)).a
            (mtbddnode_makenode var (makenode_low low) (makenode_high low high)).b i2]⟩)
       else .error fault.table_full) := by
  have hne2 : MTBDD_TOGGLEMARK low ≠ MTBDD_TOGGLEMARK high := fun h => hne (toggle_injective h)
  rw [← makenode_low_toggle low, ← makenode_high_toggle low high] at h1 h2
  have := makenode_paths gc s var hne2 h1 h2
  rw [makenode_low_toggle, makenode_high_toggle] at this
  exact this

/-! ## Negation commutes with node construction -/

/-- C21, as the code has it: for well-formed handles `lo`, `hi`, on the same
state `mtbdd_makenode(v, toggle_mark(lo), toggle_mark(hi))` aborts when
`mtbdd_makenode(v, lo, hi)` aborts, and when that returns `h` in a table of at
most `2^40` buckets it returns `toggle_mark(h)` with the same resulting state
(table, in-flight stack and log of lookups and collections).  When
`lo != hi`, both handles have the same non-zero index, the bucket of that
index holds the one node written for the pair, and the low field of that
node is the stored low child, which has no complement bit. -/
theorem makenode_negation (gc : List Nat → llmsset → llmsset) (s : sylvan) (v lo hi : Nat)
    (hlo : mtbdd_wellformed lo) (hhi : mtbdd_wellformed hi) :
    (∀ e, mtbdd_makenode gc s v lo hi = .error e →
      mtbdd_makenode gc s v (MTBDD_TOGGLEMARK lo) (MTBDD_TOGGLEMARK hi) = .error e) ∧
    ∀ h s2, mtbdd_makenode gc s v lo hi = .ok (h, s2) → s2.nodes.length ≤ 2 ^ 40 →
      mtbdd_makenode gc s v (MTBDD_TOGGLEMARK lo) (MTBDD_TOGGLEMARK hi) =
        .ok (MTBDD_TOGGLEMARK h, s2) ∧
      (lo ≠ hi →
        h &&& 0x000000ffffffffff ≠ 0 ∧
        MTBDD_TOGGLEMARK h &&& 0x000000ffffffffff = h &&& 0x000000ffffffffff ∧
        llmsset_holds s2.nodes (h &&& 0x000000ffffffffff)
          (mtbddnode_makenode v (makenode_low lo) (makenode_high lo hi)) ∧
        GETNODE s2.nodes h = mtbddnode_makenode v (makenode_low lo) (makenode_high lo hi) ∧
        GETNODE s2.nodes (MTBDD_TOGGLEMARK h) =
          mtbddnode_makenode v (makenode_low lo) (makenode_high lo hi) ∧
        mtbddnode_getlow (GETNODE s2.nodes h) = makenode_low lo ∧
        mtbddnode_gethigh (GETNODE s2.nodes h) = makenode_high lo hi ∧
        MTBDD_HASMARK (mtbddnode_getlow (GETNODE s2.nodes h)) = 0) := by
  by_cases hne : lo = hi
  · subst hne
    refine ⟨?_, ?_⟩
    · intro e he
      rw [makenode_same] at he
      cases he
    · intro h s2 hr _
      rw [makenode_same] at hr
      injection hr with hr
      obtain ⟨rfl, rfl⟩ := Prod.mk.inj hr
      exact ⟨makenode_same gc s v _, fun hc => absurd rfl hc⟩
  · have key1 := makenode_paths gc s v hne (Prod.mk.eta).symm (Prod.mk.eta).symm
    have key2 := makenode_paths_toggle gc s v hne (Prod.mk.eta).symm (Prod.mk.eta).symm
    refine ⟨?_, ?_⟩
    · intro e he
      rw [key1] at he
      rw [key2]
      split at he
      · cases he
      · split at he
        · cases he
        · rename_i c1 c2
          rw [if_neg c1, if_neg c2]
          exact he
    · intro h s2 hr hsize
      have hnode : GETNODE s2.nodes h =
          mtbddnode_makenode v (makenode_low lo) (makenode_high lo hi) ∧
          h &&& 0x000000ffffffffff ≠ 0 ∧
          llmsset_holds s2.nodes (h &&& 0x000000ffffffffff)
            (mtbddnode_makenode v (makenode_low lo) (makenode_high lo hi)) := by
        obtain ⟨i, hi0, rfl, hh, _⟩ := makenode_ok hne hr
        have hidx := makenode_handle_index lo (lt_of_lt_of_le (holds_lt_length hh) hsize)
        unfold GETNODE
        rw [hidx]
        exact ⟨holds_read hh, hi0, hh⟩
      have hrun : mtbdd_makenode gc s v (MTBDD_TOGGLEMARK lo) (MTBDD_TOGGLEMARK hi) =
          .ok (MTBDD_TOGGLEMARK h, s2) := by
        rw [key1] at hr
        rw [key2]
        split at hr
        · rename_i c1
          rw [if_pos c1]
          injection hr with hr
          obtain ⟨rfl, rfl⟩ := Prod.mk.inj hr
          rw [makenode_handle_toggle lo (lookup_index_lt40 (Prod.mk.eta).symm c1 hsize)]
        · split at hr
          · rename_i c1 c2
            rw [if_neg c1, if_pos c2]
            injection hr with hr
            obtain ⟨rfl, rfl⟩ := Prod.mk.inj hr
            rw [makenode_handle_toggle lo (lookup_index_lt40 (Prod.mk.eta).symm c2 hsize)]
          · cases hr
      refine ⟨hrun, fun _ => ⟨hnode.2.1, index_toggle h, hnode.2.2, hnode.1, ?_, ?_, ?_, ?_⟩⟩
      · rw [getnode_toggle]
        exact hnode.1
      · rw [hnode.1]
        exact getlow_makenode v (makenode_low_lt40 hlo) _
      · rw [hnode.1]
        exact makenode_high_wellformed lo hhi
      · rw [hnode.1, getlow_makenode v (makenode_low_lt40 hlo) _]
        exact makenode_low_unmarked lo

/-- Witness of C21 as amended: on a fresh table of three buckets,
`mtbdd_makenode(5, mtbdd_true, mtbdd_false)` returns the complemented handle of
bucket 1, and `mtbdd_makenode(5, toggle_mark(mtbdd_true),
toggle_mark(mtbdd_false))` returns the same handle with the complement bit
toggled, with the same resulting state. -/
theorem makenode_negation_witness :
    mtbdd_wellformed mtbdd_true ∧ mtbdd_wellformed mtbdd_false ∧
    mtbdd_makenode (fun _ T => T) ⟨List.replicate 3 ⟨false, ⟨0, 0⟩⟩, [], []⟩ 5
        mtbdd_true mtbdd_false =
      .ok (0x8000000000000001,
        ⟨[⟨false, ⟨0, 0⟩⟩, ⟨true, ⟨0x8000000000000000, 0x50000000000⟩⟩, ⟨false, ⟨0, 0⟩⟩], [],
          [event.lookup 0x8000000000000000 0x50000000000 1]⟩) ∧
    mtbdd_makenode (fun _ T => T) ⟨List.replicate 3 ⟨false, ⟨0, 0⟩⟩, [], []⟩ 5
        (MTBDD_TOGGLEMARK mtbdd_true) (MTBDD_TOGGLEMARK mtbdd_false) =
      .ok (MTBDD_TOGGLEMARK 0x8000000000000001,
        ⟨[⟨false, ⟨0, 0⟩⟩, ⟨true, ⟨0x8000000000000000, 0x50000000000⟩⟩, ⟨false, ⟨0, 0⟩⟩], [],
          [event.lookup 0x8000000000000000 0x50000000000 1]⟩) :=
  ⟨by decide, by decide, rfl,
   ((makenode_negation (fun _ T => T) ⟨List.replicate 3 ⟨false, ⟨0, 0⟩⟩, [], []⟩ 5
      mtbdd_true mtbdd_false (by decide) (by decide)).2 0x8000000000000001
      ⟨[⟨false, ⟨0, 0⟩⟩, ⟨true, ⟨0x8000000000000000, 0x50000000000⟩⟩, ⟨false, ⟨0, 0⟩⟩], [],
        [event.lookup 0x8000000000000000 0x50000000000 1]⟩ rfl (by decide)).1⟩

/-- Counterexample to C21 as stated: on a fresh table of three buckets the
well-formed pair `lo = hi = mtbdd_false` gives
`mtbdd_makenode(0, mtbdd_false, mtbdd_false) = mtbdd_false` and
`mtbdd_makenode(0, toggle_mark(mtbdd_false), toggle_mark(mtbdd_false)) =
toggle_mark(mtbdd_false)`, each with the state as it was: no bucket of the
table is occupied and the log has no lookup, so neither call stores or finds
a table node. -/
theorem makenode_negation_counterexample :
    mtbdd_wellformed mtbdd_false ∧
    mtbdd_makenode (fun _ T => T) ⟨List.replicate 3 ⟨false, ⟨0, 0⟩⟩, [], []⟩ 0
        mtbdd_false mtbdd_false =
      .ok (mtbdd_false, ⟨List.replicate 3 ⟨false, ⟨0, 0⟩⟩, [], []⟩) ∧
    mtbdd_makenode (fun _ T => T) ⟨List.replicate 3 ⟨false, ⟨0, 0⟩⟩, [], []⟩ 0
        (MTBDD_TOGGLEMARK mtbdd_false) (MTBDD_TOGGLEMARK mtbdd_false) =
      .ok (MTBDD_TOGGLEMARK mtbdd_false, ⟨List.replicate 3 ⟨false, ⟨0, 0⟩⟩, [], []⟩) ∧
    (∀ x ∈ (List.replicate 3 ⟨false, ⟨0, 0⟩⟩ : llmsset), x.occupied = false) ∧
    (∀ i n, ¬ llmsset_holds (List.replicate 3 ⟨false, ⟨0, 0⟩⟩) i n) := by
  refine ⟨by decide, rfl, rfl, by decide, ?_⟩
  intro i n h
  have hmem : (⟨true, n⟩ : bucket) ∈ (List.replicate 3 ⟨false, ⟨0, 0⟩⟩ : llmsset) := by
    obtain ⟨hlt, he⟩ := List.getElem?_eq_some.1 h.2
    rw [← he]
    exact List.getElem_mem hlt
  have := List.eq_of_mem_replicate hmem
  cases this

end Sylvan
